import Mathlib

/-!
Verification of the cycle-cancelling minimum-cost-flow implementation.

The development embeds, as executable Lean definitions, the data model and the
algorithms of the repository: base graphs (directed edges with capacity and
weight), flow assignments, the three residual-graph builders
(`cycle_cancelling.py`, `cycle_cancelling_MM.py`, `MultiR.py`), Karp's
minimum-mean-cycle detector, the Bellman-Ford detector of `munchen.py`, the
Edmonds-Karp max-flow initializer of `munchen.py`, and the driver loops.
Python `float('inf')` is modelled by `Option` (`none` = infinity) and float
arithmetic on integer data by exact `Int`/`ℚ` arithmetic.
-/

namespace NetFlow

/-- A base edge of the input graph: ordered pair with capacity and weight,
mirroring the networkx edge `(u, v, {'capacity': cap, 'weight': w})`. -/
structure BaseEdge where
  eu : Nat
  ev : Nat
  cap : Int
  cw : Int
deriving DecidableEq, Repr

/-- A flow assignment, the nested dict `flow[u][v]` with default `0`. -/
abbrev Flow := Nat → Nat → Int

/-- Pointwise update of a flow assignment at one ordered pair. -/
def updFlow (f : Flow) (a b : Nat) (x : Int) : Flow :=
  fun u v => if u = a ∧ v = b then x else f u v

/-- networkx node bookkeeping: append a node if it is not yet present. -/
def addNode (ns : List Nat) (x : Nat) : List Nat :=
  if x ∈ ns then ns else ns ++ [x]

/-- `list(G.nodes())`: nodes in order of first appearance in the edge list. -/
def graphNodes (G : List BaseEdge) : List Nat :=
  G.foldl (fun ns e => addNode (addNode ns e.eu) e.ev) []

/-- Sum of the flow on the edges leaving `x`. -/
def outFlow (G : List BaseEdge) (f : Flow) (x : Nat) : Int :=
  ((G.filter (fun e => e.eu = x)).map (fun e => f e.eu e.ev)).sum

/-- Sum of the flow on the edges entering `x`. -/
def inFlow (G : List BaseEdge) (f : Flow) (x : Nat) : Int :=
  ((G.filter (fun e => e.ev = x)).map (fun e => f e.eu e.ev)).sum

/-- Capacity bound invariant: `0 ≤ flow(e) ≤ capacity(e)` on every edge. -/
def CapOK (G : List BaseEdge) (f : Flow) : Prop :=
  ∀ e ∈ G, 0 ≤ f e.eu e.ev ∧ f e.eu e.ev ≤ e.cap

/-- Flow conservation at one node. -/
def ConservedAt (G : List BaseEdge) (f : Flow) (x : Nat) : Prop :=
  outFlow G f x = inFlow G f x

/-- Flow conservation at every node other than source and sink. -/
def Conserved (G : List BaseEdge) (f : Flow) (s t : Nat) : Prop :=
  ∀ x ∈ graphNodes G, x ≠ s → x ≠ t → ConservedAt G f x

/-- The final cost computation of the drivers:
`sum of f*w over edges with positive flow`. -/
def totalCost (G : List BaseEdge) (f : Flow) : Int :=
  (G.map (fun e => if 0 < f e.eu e.ev then f e.eu e.ev * e.cw else 0)).sum

/-- Net flow out of a node (the printed "total max flow" at the source). -/
def flowValue (G : List BaseEdge) (f : Flow) (s : Nat) : Int :=
  outFlow G f s - inFlow G f s

/-- At most one base edge per ordered pair (nx.DiGraph is simple-directed). -/
def SimpleDigraph (G : List BaseEdge) : Prop :=
  G.Pairwise (fun a b => ¬(a.eu = b.eu ∧ a.ev = b.ev))

/-- No anti-parallel pair of base edges (and no self loop). -/
def NoAntiParallel (G : List BaseEdge) : Prop :=
  ∀ a ∈ G, ∀ b ∈ G, ¬(a.eu = b.ev ∧ a.ev = b.eu)

instance (G : List BaseEdge) : Decidable (SimpleDigraph G) := by
  unfold SimpleDigraph
  infer_instance

instance (G : List BaseEdge) : Decidable (NoAntiParallel G) := by
  unfold NoAntiParallel
  infer_instance

instance (G : List BaseEdge) (f : Flow) : Decidable (CapOK G f) := by
  unfold CapOK
  infer_instance

instance (G : List BaseEdge) (f : Flow) (x : Nat) :
    Decidable (ConservedAt G f x) := by
  unfold ConservedAt
  infer_instance

instance (G : List BaseEdge) (f : Flow) (s t : Nat) :
    Decidable (Conserved G f s t) := by
  unfold Conserved
  infer_instance

/-- Consecutive pairs of a node list: the edges traversed by a walk. -/
def pairsOf : List Nat → List (Nat × Nat)
  | [] => []
  | [_] => []
  | a :: b :: r => (a, b) :: pairsOf (b :: r)

/-! ### Residual arcs -/

/-- Direction tag of a residual arc (the `type` attribute). -/
inductive ArcTy
  | fwd
  | bwd
deriving DecidableEq, Repr

/-- A residual arc with weight, capacity and direction tag. -/
structure Arc where
  au : Nat
  av : Nat
  aw : Int
  acap : Int
  ty : ArcTy
deriving DecidableEq, Repr

/-- The first arc on the ordered pair `(x, y)`, `R[x][y]` of a DiGraph. -/
def findArc? (R : List Arc) (x y : Nat) : Option Arc :=
  R.find? (fun a => a.au == x && a.av == y)

/-- nx.DiGraph `add_edge`: overwrite the attributes of an existing edge in
place, otherwise append. -/
def updateArcs (R : List Arc) (a : Arc) : List Arc :=
  if R.any (fun b => b.au == a.au && b.av == a.av) then
    R.map (fun b => if b.au == a.au && b.av == a.av then a else b)
  else R ++ [a]

/-- A residual graph with the networkx node-insertion order tracked:
removing an edge does not remove its endpoints from the node list. -/
structure RGraph where
  nodes : List Nat
  arcs : List Arc
deriving DecidableEq, Repr

/-- `R.add_edge`: endpoints are inserted into the node order, the arc is
added with overwrite semantics. -/
def rgAdd (R : RGraph) (a : Arc) : RGraph :=
  { nodes := addNode (addNode R.nodes a.au) a.av, arcs := updateArcs R.arcs a }

/-- `R.remove_edge`: drop the arc, keep the nodes. -/
def rgRemove (R : RGraph) (x y : Nat) : RGraph :=
  { nodes := R.nodes, arcs := R.arcs.filter (fun b => !(b.au == x && b.av == y)) }

/-- Backward-arc half of one iteration of `build_residual` in
`cycle_cancelling_MM.py`: if `f > 0`, remove a coincident forward arc and add
the backward arc `(v, u)` with cost `-w` and capacity `f`. -/
def mmBwdPart (R : RGraph) (e : BaseEdge) (fl : Int) : RGraph :=
  if 0 < fl then
    let R1 :=
      match findArc? R.arcs e.ev e.eu with
      | some a => if a.ty = ArcTy.fwd then rgRemove R e.ev e.eu else R
      | none => R
    rgAdd R1 ⟨e.ev, e.eu, -e.cw, fl, ArcTy.bwd⟩
  else R

/-- One iteration of `build_residual` in `cycle_cancelling_MM.py` over a base
edge.  If a backward arc already occupies `(u, v)` the whole iteration is
skipped (the `continue`); an existing forward arc suppresses re-adding. -/
def mmResStep (f : Flow) (R : RGraph) (e : BaseEdge) : RGraph :=
  let fl := f e.eu e.ev
  match (if fl < e.cap then findArc? R.arcs e.eu e.ev else none) with
  | some a =>
      if a.ty = ArcTy.bwd then R
      else mmBwdPart R e fl
  | none =>
      let R1 :=
        if fl < e.cap then rgAdd R ⟨e.eu, e.ev, e.cw, e.cap - fl, ArcTy.fwd⟩
        else R
      mmBwdPart R1 e fl

/-- `build_residual` of `cycle_cancelling_MM.py` (a DiGraph with collapse
rules for coincident arcs from anti-parallel base edges). -/
def buildResidualMM (G : List BaseEdge) (f : Flow) : RGraph :=
  G.foldl (mmResStep f) ⟨[], []⟩

/-- One iteration of `build_residual` in `MultiR.py` (a MultiDiGraph:
plain appends, never an overwrite). -/
def multiStep (f : Flow) (R : List Arc) (e : BaseEdge) : List Arc :=
  let fl := f e.eu e.ev
  let R1 :=
    if fl < e.cap then R ++ [⟨e.eu, e.ev, e.cw, e.cap - fl, ArcTy.fwd⟩] else R
  if 0 < fl then R1 ++ [⟨e.ev, e.eu, -e.cw, fl, ArcTy.bwd⟩] else R1

/-- `build_residual` of `MultiR.py`: a MultiDiGraph, every generated arc is
kept as its own parallel arc. -/
def buildResidualMulti (G : List BaseEdge) (f : Flow) : List Arc :=
  G.foldl (multiStep f) []

/-- A residual arc of the plain builder in `cycle_cancelling.py`
(no direction tag is stored there). -/
structure SArc where
  su : Nat
  sv : Nat
  scap : Int
  sw : Int
deriving DecidableEq, Repr

/-- nx.DiGraph `add_edge` for untagged residual arcs. -/
def supdate (R : List SArc) (a : SArc) : List SArc :=
  if R.any (fun b => b.su == a.su && b.sv == a.sv) then
    R.map (fun b => if b.su == a.su && b.sv == a.sv then a else b)
  else R ++ [a]

/-- One iteration of `build_residual` in `cycle_cancelling.py` over a base
edge (DiGraph `add_edge`, so a coincident arc is overwritten). -/
def ccResStep (f : Flow) (R : List SArc) (e : BaseEdge) : List SArc :=
  let fl := f e.eu e.ev
  let R1 :=
    if 0 < e.cap - fl then supdate R ⟨e.eu, e.ev, e.cap - fl, e.cw⟩ else R
  if 0 < fl then supdate R1 ⟨e.ev, e.eu, fl, -e.cw⟩ else R1

/-- `build_residual` of `cycle_cancelling.py`: forward arc when
`cap - f > 0`, backward arc when `f > 0`, on a plain DiGraph. -/
def buildResidualCC (G : List BaseEdge) (f : Flow) : List SArc :=
  G.foldl (ccResStep f) []

/-! ### Karp's minimum-mean-cycle detector (`find_minimum_mean_negative_cycle`) -/

/-- Update a `Nat`-indexed table at one key. -/
def updO {α : Type} (g : Nat → α) (x : Nat) (y : α) : Nat → α :=
  fun z => if z = x then y else g z

/-- One DP layer: relax every arc once, `dp[k][v] = min(dp[k-1][u] + w)`,
recording the predecessor of each strict improvement.  `none` is `math.inf`. -/
def karpRelax (arcs : List Arc) (dpPrev : Nat → Option Int) :
    (Nat → Option Int) × (Nat → Option Nat) :=
  arcs.foldl (fun st a =>
    match dpPrev a.au with
    | none => st
    | some du =>
      let cand := du + a.aw
      match st.1 a.av with
      | none => (updO st.1 a.av (some cand), updO st.2 a.av (some a.au))
      | some dv =>
        if cand < dv then (updO st.1 a.av (some cand), updO st.2 a.av (some a.au))
        else st)
    (fun _ => none, fun _ => none)

/-- The DP and parent tables of layer `k`:
`dp[0][v] = 0` for every node, layer `k+1` relaxes every arc over layer `k`. -/
def karpDP (nodes : List Nat) (arcs : List Arc) :
    Nat → ((Nat → Option Int) × (Nat → Option Nat))
  | 0 => (fun v => if v ∈ nodes then some 0 else none, fun _ => none)
  | k + 1 => karpRelax arcs (karpDP nodes arcs k).1

/-- The epsilon of the termination check, `1e-11` as an exact rational. -/
def karpEps : ℚ := -(1 / 100000000000)

/-- An exact rational value `num / den` with positive denominator,
representing the real-valued averages the Python code holds in floats;
comparisons below are by cross-multiplication, exact for these values. -/
structure Frac where
  num : Int
  den : Nat
deriving DecidableEq, Repr

/-- The rational value of a fraction. -/
def Frac.toQ (a : Frac) : ℚ := (a.num : ℚ) / (a.den : ℚ)

/-- Exact strict comparison of two averages (both denominators positive). -/
def fracLt (a b : Frac) : Bool := a.num * (b.den : Int) < b.num * (a.den : Int)

/-- Exact test `mu >= -1e-11`. -/
def negEpsLe (q : Frac) : Bool := -(q.den : Int) ≤ q.num * 100000000000

/-- One step of the inner `max_avg` fold: skip infinite `dp[k][v]`, else
take the larger of the accumulator and `(dp[n][v]-dp[k][v])/(n-k)`. -/
def maxAvgStep (nodes : List Nat) (arcs : List Arc) (n v : Nat) (dnv : Int)
    (acc : Option Frac) (k : Nat) : Option Frac :=
  match (karpDP nodes arcs k).1 v with
  | none => acc
  | some dkv =>
    let avg : Frac := ⟨dnv - dkv, n - k⟩
    match acc with
    | none => some avg
    | some m => if fracLt m avg then some avg else acc

/-- `max over k < n with dp[k][v] finite of (dp[n][v] - dp[k][v]) / (n - k)`;
`none` is the initial `-math.inf`. -/
def maxAvgFold (nodes : List Nat) (arcs : List Arc) (n v : Nat) (dnv : Int) :
    Option Frac :=
  (List.range n).foldl (maxAvgStep nodes arcs n v dnv) none

/-- The rational value of a possibly `-inf` average. -/
def optFracQ : Option Frac → WithBot ℚ
  | none => ⊥
  | some q => (q.toQ : WithBot ℚ)

/-- `-inf`-aware strict order on the `max_avg` values. -/
def maLt : Option Frac → Option Frac → Bool
  | none, none => false
  | none, some _ => true
  | some _, none => false
  | some a, some b => fracLt a b

/-- One step of the outer `mu` fold: skip nodes with `dp[n][v]` infinite,
else keep the strictly smaller of the accumulator and this node's
`max_avg` (ties keep the earlier node). -/
def muStep (nodes : List Nat) (arcs : List Arc) (n : Nat)
    (acc : Option (Option Frac × Nat)) (v : Nat) : Option (Option Frac × Nat) :=
  match (karpDP nodes arcs n).1 v with
  | none => acc
  | some dnv =>
    let ma := maxAvgFold nodes arcs n v dnv
    match acc with
    | none => some (ma, v)
    | some (m, _) => if maLt ma m then some (ma, v) else acc

/-- The fold computing `mu` and `v_star` over the node list; `none` means
`v_star is None` (no node has `dp[n][v]` finite). -/
def muFold (nodes : List Nat) (arcs : List Arc) (n : Nat) :
    Option (Option Frac × Nat) :=
  nodes.foldl (muStep nodes arcs n) none

/-- The traceback loop `for k in range(n, -1, -1)` walking parent pointers
down the layers; result in append order (deepest layer first). -/
def traceback (par : Nat → Nat → Option Nat) : Nat → Nat → List Nat
  | 0, curr => [curr]
  | k + 1, curr =>
    match par (k + 1) curr with
    | none => [curr]
    | some p => curr :: traceback par k p

/-- The first-repeat scan: return `path[seen[node] : i + 1]`, the segment
between the two occurrences of the first repeated node. -/
def firstRepeatSeg (pref : List Nat) : List Nat → Option (List Nat)
  | [] => none
  | x :: rest =>
    if x ∈ pref then some ((pref.dropWhile (fun y => y != x)) ++ [x])
    else firstRepeatSeg (pref ++ [x]) rest

/-- Outcome of `find_minimum_mean_negative_cycle`: both error cases raise
`nx.NetworkXError` (the "Empty graph" raise on zero nodes is folded into
`noCycle`, as every caller catches `NetworkXError` identically). -/
inductive KarpRes
  | noCycle
  | reconFail
  | cycle (c : List Nat)
deriving DecidableEq, Repr

/-- `find_minimum_mean_negative_cycle` on a simple DiGraph (the drivers hand
it a DiGraph, so the multigraph collapse branch is not taken). -/
def karpCore (nodes : List Nat) (arcs : List Arc) : KarpRes :=
  let n := nodes.length
  match muFold nodes arcs n with
  | none => KarpRes.noCycle
  | some (ma, vstar) =>
    if (match ma with | none => false | some q => negEpsLe q) then KarpRes.noCycle
    else
      let par := fun k => (karpDP nodes arcs k).2
      let path := (traceback par n vstar).reverse
      match firstRepeatSeg [] path with
      | some seg => KarpRes.cycle seg
      | none => KarpRes.reconFail

/-! ### Edmonds-Karp max-flow initialization

`_get_max_flow` of `munchen.py`: repeated BFS over the residual graph.

Modelled from the spec: the drivers of `cycle_cancelling.py` and
`cycle_cancelling_MM.py` call `nx.maximum_flow` (an external library
function absent from the repository); spec §4.2 specifies the max-flow
initializer as repeated BFS augmenting-path search (Edmonds-Karp) with
deterministic neighbor order, which is exactly `_get_max_flow` of
`munchen.py`, so that source function is used as the model of the
initializer everywhere. -/

/-- A BFS predecessor entry: previous node (`none` only for the seed),
the base edge used, its residual capacity, and the direction flag. -/
structure PredE where
  prev : Option Nat
  pu : Nat
  pv : Nat
  rescap : Int
  dirFwd : Bool
deriving DecidableEq, Repr

/-- Scan the forward residual out-edges of `node`, enqueueing unvisited
heads. -/
def ekScanOut (G : List BaseEdge) (f : Flow) (node : Nat)
    (st : (Nat → Option PredE) × List Nat) : (Nat → Option PredE) × List Nat :=
  G.foldl (fun st e =>
    if e.eu = node ∧ f e.eu e.ev < e.cap ∧ st.1 e.ev = none then
      (updO st.1 e.ev (some ⟨some node, node, e.ev, e.cap - f e.eu e.ev, true⟩),
       st.2 ++ [e.ev])
    else st) st

/-- Scan the backward residual in-edges of `node`, enqueueing unvisited
tails. -/
def ekScanIn (G : List BaseEdge) (f : Flow) (node : Nat)
    (st : (Nat → Option PredE) × List Nat) : (Nat → Option PredE) × List Nat :=
  G.foldl (fun st e =>
    if e.ev = node ∧ 0 < f e.eu e.ev ∧ st.1 e.eu = none then
      (updO st.1 e.eu (some ⟨some node, e.eu, node, f e.eu e.ev, false⟩),
       st.2 ++ [e.eu])
    else st) st

/-- The BFS loop `while predecessor[t] is None and queue`. -/
def ekBFS (G : List BaseEdge) (f : Flow) (t : Nat) :
    Nat → (Nat → Option PredE) → List Nat → (Nat → Option PredE)
  | 0, pred, _ => pred
  | fuel + 1, pred, queue =>
    match pred t with
    | some _ => pred
    | none =>
      match queue with
      | [] => pred
      | node :: rest =>
        let st := ekScanIn G f node (ekScanOut G f node (pred, rest))
        ekBFS G f t fuel st.1 st.2

/-- Reconstruct the augmenting path from `t` back to `s` as the list of
predecessor entries. -/
def ekPath (pred : Nat → Option PredE) (s : Nat) :
    Nat → Nat → Option (List PredE)
  | 0, _ => none
  | fuel + 1, current =>
    if current = s then some []
    else
      match pred current with
      | none => none
      | some pi =>
        match pi.prev with
        | none => none
        | some p => (ekPath pred s fuel p).map (fun l => pi :: l)

/-- Apply one augmentation: add `aug` on forward steps, subtract on backward
steps. -/
def ekApply (aug : Int) (f : Flow) (path : List PredE) : Flow :=
  path.foldl (fun f pi =>
    updFlow f pi.pu pi.pv (f pi.pu pi.pv + (if pi.dirFwd then aug else -aug))) f

/-- The outer augmenting loop of `_get_max_flow`. -/
def ekLoop (G : List BaseEdge) (s t : Nat) : Nat → Flow → Flow
  | 0, f => f
  | fuel + 1, f =>
    let n := (graphNodes G).length
    let pred0 := updO (fun _ => none) s (some ⟨none, 0, 0, 0, true⟩)
    let pred := ekBFS G f t (n + 1) pred0 [s]
    match pred t with
    | none => f
    | some _ =>
      match ekPath pred s (n + 1) t with
      | none => f
      | some [] => f
      | some (p0 :: ps) =>
        let aug := ps.foldl (fun m pi => min m pi.rescap) p0.rescap
        ekLoop G s t fuel (ekApply aug f (p0 :: ps))

/-- `_get_max_flow`: start from the zero flow and augment until the sink is
unreachable. -/
def ekMaxFlow (G : List BaseEdge) (s t : Nat) (fuel : Nat) : Flow :=
  ekLoop G s t fuel (fun _ _ => 0)

/-! ### The driver loop of `cycle_cancelling_MM.py` -/

/-- `G.has_edge(x, y)` on the base graph. -/
def hasBase (G : List BaseEdge) (x y : Nat) : Bool :=
  G.any (fun e => e.eu == x && e.ev == y)

/-- One iteration of `augment_cycle`: forward-tagged steps increase the flow
of the base edge `(u, v)`, backward-tagged steps decrease the flow of the
anti-parallel base edge `(v, u)`; an unmatched step raises (`none`). -/
def augStep (G : List BaseEdge) (R : List Arc) (b : Int)
    (f? : Option Flow) (p : Nat × Nat) : Option Flow :=
  match f? with
  | none => none
  | some f =>
    if hasBase G p.1 p.2 = true ∧ (findArc? R p.1 p.2).map Arc.ty = some ArcTy.fwd then
      some (updFlow f p.1 p.2 (f p.1 p.2 + b))
    else if hasBase G p.2 p.1 = true ∧ (findArc? R p.1 p.2).map Arc.ty = some ArcTy.bwd then
      some (updFlow f p.2 p.1 (f p.2 p.1 - b))
    else none

/-- `augment_cycle` over the consecutive pairs of the cycle node list. -/
def augmentCycle (G : List BaseEdge) (R : List Arc) (f : Flow)
    (c : List Nat) (b : Int) : Option Flow :=
  (pairsOf c).foldl (augStep G R b) (some f)

/-- Residual capacities of the cycle steps, `R[u][v]["capacity"]`;
`none` models the `KeyError` on a step without an arc. -/
def stepCaps (R : List Arc) (ps : List (Nat × Nat)) : Option (List Int) :=
  ps.mapM (fun p => (findArc? R p.1 p.2).map (fun a => a.acap))

/-- The main cancellation loop of `cycle_cancelling` in
`cycle_cancelling_MM.py`, with fuel standing for the unbounded `while True`;
`none` models an uncaught exception or exhausted fuel. -/
def mmLoop (G : List BaseEdge) : Nat → Flow → Option Flow
  | 0, _ => none
  | fuel + 1, f =>
    let R := buildResidualMM G f
    match karpCore R.nodes R.arcs with
    | KarpRes.noCycle => some f
    | KarpRes.reconFail => some f
    | KarpRes.cycle c =>
      match stepCaps R.arcs (pairsOf c) with
      | none => none
      | some [] => mmLoop G fuel f
      | some (c0 :: cs) =>
        let b := cs.foldl min c0
        if b ≤ 0 then none
        else
          match augmentCycle G R.arcs f c b with
          | none => none
          | some f2 => mmLoop G fuel f2

/-- `cycle_cancelling` of `cycle_cancelling_MM.py`: validation, initial
max flow, cancellation loop, final cost. -/
def mmRun (G : List BaseEdge) (s t : Nat) (fuelE fuelL : Nat) :
    Option (Flow × Int) :=
  if s ∈ graphNodes G ∧ t ∈ graphNodes G ∧ (∀ e ∈ G, 0 ≤ e.cap ∧ 0 ≤ e.cw) then
    (mmLoop G fuelL (ekMaxFlow G s t fuelE)).map (fun f => (f, totalCost G f))
  else none

/-! ### The Bellman-Ford detector and driver of `munchen.py` -/

/-- A predecessor entry of `_find_negative_cycle`: previous node, the base
edge `(u, v)` used, and the direction flag (`+1` forward / `-1` backward). -/
structure BFStep where
  prevN : Nat
  bu : Nat
  bv : Nat
  dirFwd : Bool
deriving DecidableEq, Repr

/-- The relaxation state: distances (`none` = `math.inf`), predecessors, and
the per-pass `updated` flag. -/
structure BFSt where
  dist : Nat → Option Int
  pred : Nat → Option BFStep
  upd : Bool

/-- Relax one base edge: first the forward residual arc (`cap > flow`,
cost `+w`), then the backward residual arc (`flow > 0`, cost `-w`). -/
def bfRelaxEdge (f : Flow) (st : BFSt) (e : BaseEdge) : BFSt :=
  let st1 :=
    if f e.eu e.ev < e.cap then
      match st.dist e.eu with
      | none => st
      | some du =>
        let better :=
          match st.dist e.ev with
          | none => true
          | some dv => decide (du + e.cw < dv)
        if better then
          { dist := updO st.dist e.ev (some (du + e.cw)),
            pred := updO st.pred e.ev (some ⟨e.eu, e.eu, e.ev, true⟩),
            upd := true }
        else st
    else st
  if 0 < f e.eu e.ev then
    match st1.dist e.ev with
    | none => st1
    | some dv =>
      let better :=
        match st1.dist e.eu with
        | none => true
        | some du => decide (dv - e.cw < du)
      if better then
        { dist := updO st1.dist e.eu (some (dv - e.cw)),
          pred := updO st1.pred e.eu (some ⟨e.ev, e.eu, e.ev, false⟩),
          upd := true }
      else st1
  else st1

/-- One relaxation pass over every edge, with the `updated` flag reset. -/
def bfPass (G : List BaseEdge) (f : Flow) (st : BFSt) : BFSt :=
  G.foldl (bfRelaxEdge f) { st with upd := false }

/-- Up to `|V|` relaxation passes with early stop when a pass changes
nothing. -/
def bfPasses (G : List BaseEdge) (f : Flow) : Nat → BFSt → BFSt
  | 0, st => st
  | k + 1, st =>
    let st' := bfPass G f st
    if st'.upd then bfPasses G f k st' else st'

/-- Is some residual arc of `e` still relaxable under `dist`? -/
def bfRelaxable (f : Flow) (dist : Nat → Option Int) (e : BaseEdge) : Bool :=
  (decide (f e.eu e.ev < e.cap) &&
    (match dist e.eu, dist e.ev with
     | some _, none => true
     | some du, some dv => decide (du + e.cw < dv)
     | none, _ => false))
  || (decide (0 < f e.eu e.ev) &&
    (match dist e.ev, dist e.eu with
     | some _, none => true
     | some dv, some du => decide (dv - e.cw < du)
     | none, _ => false))

/-- The post-pass check: some edge is still relaxable. -/
def bfHasCycle (G : List BaseEdge) (f : Flow) (dist : Nat → Option Int) : Bool :=
  G.any (bfRelaxable f dist)

/-- The ad-hoc cycle reconstruction of `_find_negative_cycle`: walk
predecessors starting from the stack seeded with the TARGET node, stop at a
repeated node (trimming the prefix) or at a node with no predecessor. -/
def bfRecon (pred : Nat → Option BFStep) :
    Nat → List Nat → List BFStep → List BFStep
  | 0, _, cyc => cyc
  | fuel + 1, stack, cyc =>
    match stack.getLast? with
    | none => cyc
    | some last =>
      match pred last with
      | none => cyc
      | some pi =>
        let cyc' := cyc ++ [pi]
        let nn := pi.prevN
        if nn ∈ stack then cyc'.drop (stack.indexOf nn)
        else bfRecon pred fuel (stack ++ [nn]) cyc'

/-- `cycle_min_flow`: minimum residual capacity over the cycle steps
(`none` = the initial `math.inf`). -/
def bfMinFlow (G : List BaseEdge) (f : Flow) (cyc : List BFStep) : Option Int :=
  cyc.foldl (fun acc pi =>
    let cap := match G.find? (fun e => e.eu == pi.bu && e.ev == pi.bv) with
      | some e => e.cap
      | none => 0
    let rc := if pi.dirFwd then cap - f pi.bu pi.bv else f pi.bu pi.bv
    match acc with
    | none => some rc
    | some m => some (min m rc)) none

/-- `_find_negative_cycle`: seed the target at distance 0, relax `|V|`
passes, and when an arc is still relaxable reconstruct a cycle from the
target.  Returns `(no_cycle_found, cycle, cycle_min_flow)`. -/
def bfDetect (G : List BaseEdge) (f : Flow) (t : Nat) :
    Bool × List BFStep × Option Int :=
  let n := (graphNodes G).length
  let st0 : BFSt := ⟨updO (fun _ => none) t (some 0), fun _ => none, false⟩
  let st := bfPasses G f n st0
  if bfHasCycle G f st.dist then
    let cyc := bfRecon st.pred (n + 1) [t] []
    (false, cyc, bfMinFlow G f cyc)
  else (true, [], some 0)

/-- `_adjust_cycle`: a no-op on an empty cycle or non-positive bottleneck,
otherwise push the bottleneck around the cycle. -/
def bfAdjust (f : Flow) (cyc : List BFStep) (mf : Option Int) : Flow :=
  if cyc = [] then f
  else
    match mf with
    | none => f
    | some m =>
      if m ≤ 0 then f
      else
        cyc.foldl (fun f pi =>
          updFlow f pi.bu pi.bv
            (f pi.bu pi.bv + (if pi.dirFwd then m else -m))) f

/-- `_main_loop` of `munchen.py` with fuel for the unbounded `while True`. -/
def bfLoop (G : List BaseEdge) (t : Nat) : Nat → Flow → Option Flow
  | 0, _ => none
  | fuel + 1, f =>
    match bfDetect G f t with
    | (true, _, _) => some f
    | (false, cyc, mf) => bfLoop G t fuel (bfAdjust f cyc mf)

/-- `_compute_total_cost` of `munchen.py`: `sum of flow * weight` over all
edges (positive-flow filtering is not applied there). -/
def totalCostAll (G : List BaseEdge) (f : Flow) : Int :=
  (G.map (fun e => f e.eu e.ev * e.cw)).sum

/-- `CycleCancellingAlgorithm(...).run()`: max-flow initialization followed
by the Bellman-Ford cancellation loop. -/
def bfRun (G : List BaseEdge) (s t : Nat) (fuelE fuelL : Nat) :
    Option (Flow × Int) :=
  if s ∈ graphNodes G ∧ t ∈ graphNodes G then
    (bfLoop G t fuelL (ekMaxFlow G s t fuelE)).map (fun f => (f, totalCostAll G f))
  else none

/-- Nontermination of the Bellman-Ford engine: no fuel makes the main loop
return. -/
def bfLoopDiverges (G : List BaseEdge) (t : Nat) (f : Flow) : Prop :=
  ∀ fuel, bfLoop G t fuel f = none

/-! ### The engine of `cycle_cancelling.py` (graph state threaded, for the
frame property) -/

/-- An input edge with its full attribute record, including a possible
pre-existing `flow` attribute that the engine must not touch. -/
structure CEdge where
  cu : Nat
  cv : Nat
  ccap : Int
  ccw : Int
  cflowAttr : Option Int
deriving DecidableEq, Repr

/-- `G.has_edge` on the threaded input graph. -/
def ccHasEdge (G : List CEdge) (x y : Nat) : Bool :=
  G.any (fun e => e.cu == x && e.cv == y)

/-- Node list of the threaded input graph. -/
def ccNodes (G : List CEdge) : List Nat :=
  G.foldl (fun ns e => addNode (addNode ns e.cu) e.cv) []

/-- `build_residual` of `cycle_cancelling.py` over the threaded graph. -/
def ccResidual (G : List CEdge) (f : Flow) : List SArc :=
  G.foldl (fun R e =>
    let fl := f e.cu e.cv
    let R1 :=
      if 0 < e.ccap - fl then supdate R ⟨e.cu, e.cv, e.ccap - fl, e.ccw⟩ else R
    if 0 < fl then supdate R1 ⟨e.cv, e.cu, fl, -e.ccw⟩ else R1) []

/-- `augment_cycle` of `cycle_cancelling.py`: matched on the base graph
only (no residual direction tags). -/
def ccAug (G : List CEdge) (b : Int) (f? : Option Flow) (p : Nat × Nat) :
    Option Flow :=
  match f? with
  | none => none
  | some f =>
    if ccHasEdge G p.1 p.2 then some (updFlow f p.1 p.2 (f p.1 p.2 + b))
    else if ccHasEdge G p.2 p.1 then some (updFlow f p.2 p.1 (f p.2 p.1 - b))
    else none

/-- The main loop of `cycle_cancelling.py`, threading the graph object and
parametrized by the caller-supplied `negative_cycle_func` (`none` models the
`nx.NetworkXError` break). -/
def ccLoop (Gr : List CEdge) (ncf : List SArc → Option (List Nat)) :
    Nat → Flow → Option (List CEdge × Flow)
  | 0, _ => none
  | fuel + 1, f =>
    let R := ccResidual Gr f
    match ncf R with
    | none => some (Gr, f)
    | some c =>
      match (pairsOf c).mapM
          (fun p => (R.find? (fun a => a.su == p.1 && a.sv == p.2)).map SArc.scap) with
      | none => none
      | some [] => ccLoop Gr ncf fuel f
      | some (c0 :: cs) =>
        let b := cs.foldl min c0
        if b ≤ 0 then none
        else
          match (pairsOf c).foldl (ccAug Gr b) (some f) with
          | none => none
          | some f2 => ccLoop Gr ncf fuel f2

/-- Final cost computed from the threaded graph's weights over positive
flows. -/
def ccCost (G : List CEdge) (f : Flow) : Int :=
  (G.map (fun e => if 0 < f e.cu e.cv then f e.cu e.cv * e.ccw else 0)).sum

/-- `cycle_cancelling` of `cycle_cancelling.py`: validation, initial max
flow on the capacity-only copy, cancellation loop, final cost; the returned
triple includes the graph object the caller handed in. -/
def ccRun (Gr : List CEdge) (s t : Nat)
    (ncf : List SArc → Option (List Nat)) (fuelE fuelL : Nat) :
    Option (List CEdge × Flow × Int) :=
  if s ∈ ccNodes Gr ∧ t ∈ ccNodes Gr ∧
      (∀ e ∈ Gr, 0 ≤ e.ccap ∧ 0 ≤ e.ccw) then
    let Gcap := Gr.map (fun e => BaseEdge.mk e.cu e.cv e.ccap 0)
    match ccLoop Gr ncf fuelL (ekMaxFlow Gcap s t fuelE) with
    | none => none
    | some (G2, f) => some (G2, f, ccCost G2 f)
  else none

/-! ### The example graph of `build_and_draw_graph2` -/

/-- The 4-node graph of spec §8 and `build_and_draw_graph2`. -/
def graph2 : List BaseEdge :=
  [⟨0, 1, 2, 1⟩, ⟨0, 2, 4, 1⟩, ⟨1, 2, 3, 1⟩, ⟨1, 3, 1, 4⟩, ⟨2, 3, 6, 1⟩]

/-- An anti-parallel pair for the residual-builder counterexamples. -/
def gAnti : List BaseEdge := [⟨0, 1, 2, 1⟩, ⟨1, 0, 3, 5⟩]

/-- A unit of flow in each direction on the anti-parallel pair. -/
def fAnti : Flow := fun u v =>
  if u = 0 ∧ v = 1 then 1 else if u = 1 ∧ v = 0 then 1 else 0

/-- An anti-parallel pair with equal weights (the MM-collapse example). -/
def gAnti2 : List BaseEdge := [⟨1, 2, 3, 1⟩, ⟨2, 1, 2, 1⟩]

/-- A unit of flow in each direction on `gAnti2`. -/
def fAnti2 : Flow := fun u v =>
  if u = 1 ∧ v = 2 then 1 else if u = 2 ∧ v = 1 then 1 else 0

/-- A graph whose sink has no residual in-arc after max flow while a
negative residual cycle (1 → 3 → 4 → 1) exists: the unique augmenting path
0 → 1 → 4 → 2 saturates, leaving the cheap detour 1 → 3 → 4 unused. -/
def gDead : List BaseEdge :=
  [⟨0, 1, 1, 0⟩, ⟨1, 4, 1, 9⟩, ⟨4, 2, 1, 0⟩, ⟨1, 3, 1, 0⟩, ⟨3, 4, 1, 0⟩]

/-! ### Generation lists for the residual builders -/

/-- The arcs one base edge contributes in `cycle_cancelling.py`'s builder. -/
def genCC (f : Flow) (e : BaseEdge) : List SArc :=
  (if 0 < e.cap - f e.eu e.ev then [⟨e.eu, e.ev, e.cap - f e.eu e.ev, e.cw⟩] else [])
  ++ (if 0 < f e.eu e.ev then [⟨e.ev, e.eu, f e.eu e.ev, -e.cw⟩] else [])

/-- The arcs one base edge contributes in `MultiR.py`'s builder. -/
def genMulti (f : Flow) (e : BaseEdge) : List Arc :=
  (if f e.eu e.ev < e.cap then
    [⟨e.eu, e.ev, e.cw, e.cap - f e.eu e.ev, ArcTy.fwd⟩] else [])
  ++ (if 0 < f e.eu e.ev then
    [⟨e.ev, e.eu, -e.cw, f e.eu e.ev, ArcTy.bwd⟩] else [])

/-- Is some arc on the ordered pair `(x, y)` present? -/
def sHas (R : List SArc) (x y : Nat) : Bool :=
  R.any (fun b => b.su == x && b.sv == y)

/-- A constant flow of one unit on every pair (used in witnesses). -/
def fOne : Flow := fun _ _ => 1

/-! ### Walk semantics for the Karp DP -/

/-- A `k`-edge walk over the arc list ending at a node with the given total
cost; a 0-edge walk starts (and ends) at any node of the node list at cost
0 (the virtual zero-cost source of the DP). -/
inductive EndWalk (nodes : List Nat) (arcs : List Arc) : Nat → Nat → Int → Prop
  | zero (v : Nat) (h : v ∈ nodes) : EndWalk nodes arcs 0 v 0
  | step (k : Nat) (u : Nat) (c : Int) (a : Arc) (ha : a ∈ arcs)
      (hw : EndWalk nodes arcs k u c) (hu : a.au = u) :
      EndWalk nodes arcs (k + 1) a.av (c + a.aw)

/-- `d` is the minimum cost of a `k`-edge walk ending at `v` (the claim's
reading of `dp[k][v]`). -/
def dpIsMinWalk (nodes : List Nat) (arcs : List Arc) (k v : Nat) (d : Int) :
    Prop :=
  EndWalk nodes arcs k v d ∧ ∀ c, EndWalk nodes arcs k v c → d ≤ c

/-- `(dp[n][v] - dp[k][v]) / (n - k)` as a rational. -/
def avgQ (dnv dkv : Int) (n k : Nat) : ℚ :=
  ((dnv - dkv : Int) : ℚ) / ((n - k : Nat) : ℚ)

/-- `q` is `max over k < n with dp[k][v] finite of (dp[n][v]-dp[k][v])/(n-k)`. -/
def isMaxAvgAt (nodes : List Nat) (arcs : List Arc) (n v : Nat) (dnv : Int)
    (q : ℚ) : Prop :=
  (∃ k, k < n ∧ ∃ dk, (karpDP nodes arcs k).1 v = some dk ∧ q = avgQ dnv dk n k) ∧
  (∀ k, k < n → ∀ dk, (karpDP nodes arcs k).1 v = some dk → avgQ dnv dk n k ≤ q)

/-- `q` is Karp's `μ`: the minimum over nodes `v` with `dp[n][v]` finite of
the maximum average, per the claim's formula. -/
def isKarpMu (nodes : List Nat) (arcs : List Arc) (n : Nat) (q : ℚ) : Prop :=
  (∃ v ∈ nodes, ∃ dnv, (karpDP nodes arcs n).1 v = some dnv ∧
    isMaxAvgAt nodes arcs n v dnv q) ∧
  (∀ v ∈ nodes, ∀ dnv, (karpDP nodes arcs n).1 v = some dnv →
    ∀ r, isMaxAvgAt nodes arcs n v dnv r → q ≤ r)

/-- Every consecutive pair of the node list is the pair of some arc. -/
def IsChain (arcs : List Arc) (l : List Nat) : Prop :=
  ∀ p ∈ pairsOf l, ∃ a ∈ arcs, a.au = p.1 ∧ a.av = p.2

/-- At most one arc per ordered pair (the arc list of a DiGraph). -/
def UniqPairs (R : List Arc) : Prop :=
  R.Pairwise (fun a b => ¬(a.au = b.au ∧ a.av = b.av))

instance (R : List Arc) : Decidable (UniqPairs R) := by
  unfold UniqPairs
  infer_instance

/-- The reversed traceback spine: the `i`-th entry realizes dp layer `i`,
consecutive entries are joined by arcs recorded as parents, and the arc
weights telescope the dp values. -/
inductive LayerChain (nodes : List Nat) (arcs : List Arc) :
    List Nat → Nat → Nat → Int → Prop
  | base (v : Nat) (d : Int) (hd : (karpDP nodes arcs 0).1 v = some d) :
      LayerChain nodes arcs [v] 0 v d
  | snoc (l : List Nat) (k u v : Nat) (du d : Int) (a : Arc)
      (hprev : LayerChain nodes arcs l k u du) (ha : a ∈ arcs)
      (hau : a.au = u) (hav : a.av = v)
      (hd : (karpDP nodes arcs (k + 1)).1 v = some d)
      (hsum : d = du + a.aw) :
      LayerChain nodes arcs (l ++ [v]) (k + 1) v d

/-- The residual weight the driver reads on a step pair (`R[u][v]["weight"]`,
0 when the arc is absent). -/
def arcWOf (R : List Arc) (p : Nat × Nat) : Int :=
  match findArc? R p.1 p.2 with
  | some a => a.aw
  | none => 0

/-- The consecutive pairs of the node list are matched by arcs whose
weights sum to `W`. -/
inductive PairSum (arcs : List Arc) : List Nat → Int → Prop
  | single (x : Nat) : PairSum arcs [x] 0
  | snoc (l : List Nat) (x y : Nat) (W : Int) (a : Arc) (ha : a ∈ arcs)
      (hau : a.au = x) (hav : a.av = y) (hlast : l.getLast? = some x)
      (hl : PairSum arcs l W) :
      PairSum arcs (l ++ [y]) (W + a.aw)

/-- The graph of `build_and_draw_graph2` as a threaded input object. -/
def cgraph2 : List CEdge :=
  [⟨0, 1, 2, 1, none⟩, ⟨0, 2, 4, 1, none⟩, ⟨1, 2, 3, 1, none⟩,
   ⟨1, 3, 1, 4, none⟩, ⟨2, 3, 6, 1, none⟩]

/-- The node order of the residual graph of `graph2` at its max flow
(witness data for the detector theorems). -/
def karpWNodes : List Nat := [1, 0, 2, 3]

/-- The arcs of the residual graph of `graph2` at its max flow. -/
def karpWArcs : List Arc :=
  [⟨1, 0, -1, 2, ArcTy.bwd⟩, ⟨2, 0, -1, 4, ArcTy.bwd⟩,
   ⟨1, 2, 1, 2, ArcTy.fwd⟩, ⟨2, 1, -1, 1, ArcTy.bwd⟩,
   ⟨3, 1, -4, 1, ArcTy.bwd⟩, ⟨2, 3, 1, 1, ArcTy.fwd⟩,
   ⟨3, 2, -1, 5, ArcTy.bwd⟩]

/-! ### Driver-step analysis -/

/-- The forward branch condition of one `augment_cycle` step. -/
def stepFwdB (G : List BaseEdge) (R : List Arc) (p : Nat × Nat) : Bool :=
  decide (hasBase G p.1 p.2 = true ∧
    (findArc? R p.1 p.2).map Arc.ty = some ArcTy.fwd)

/-- The backward branch condition of one `augment_cycle` step (the `elif`). -/
def stepBwdB (G : List BaseEdge) (R : List Arc) (p : Nat × Nat) : Bool :=
  ! stepFwdB G R p &&
    decide (hasBase G p.2 p.1 = true ∧
      (findArc? R p.1 p.2).map Arc.ty = some ArcTy.bwd)

/-- The weight attribute of the base edge on `(u, v)` (`G[u][v][weight]`,
`0` when absent). -/
def baseW (G : List BaseEdge) (u v : Nat) : Int :=
  match G.find? (fun e => e.eu == u && e.ev == v) with
  | some e => e.cw
  | none => 0

/-- One cancellation performed by the main loop of `cycle_cancelling_MM.py`:
the detector returned a cycle on the current residual, the bottleneck is
positive, and `augment_cycle` rewrote the flow. -/
def MMStep (G : List BaseEdge) (f f2 : Flow) : Prop :=
  ∃ c c0 cs,
    karpCore (buildResidualMM G f).nodes (buildResidualMM G f).arcs =
      KarpRes.cycle c ∧
    stepCaps (buildResidualMM G f).arcs (pairsOf c) = some (c0 :: cs) ∧
    ¬(cs.foldl min c0 ≤ 0) ∧
    augmentCycle G (buildResidualMM G f).arcs f c (cs.foldl min c0) = some f2

/-! ### Validity analysis of the BFS initializer -/

/-- Every recorded predecessor entry is a genuine residual arc of the
current flow: forward along an unsaturated base edge, backward along a
positively-flowed one. -/
def ekPredOK (G : List BaseEdge) (f : Flow) (pred : Nat → Option PredE) :
    Prop :=
  ∀ v pi, pred v = some pi → ∀ p, pi.prev = some p →
    (pi.dirFwd = true ∧ pi.pu = p ∧ pi.pv = v ∧
      ∃ e ∈ G, e.eu = p ∧ e.ev = v ∧ f p v < e.cap ∧
        pi.rescap = e.cap - f p v) ∨
    (pi.dirFwd = false ∧ pi.pu = v ∧ pi.pv = p ∧
      ∃ e ∈ G, e.eu = v ∧ e.ev = p ∧ 0 < f v p ∧ pi.rescap = f v p)

/-- The BFS bookkeeping invariant: entries are residual arcs, queued nodes
are assigned, and an assignment rank strictly decreases along predecessor
pointers (assignments are never overwritten). -/
def EKState (G : List BaseEdge) (f : Flow)
    (st : (Nat → Option PredE) × List Nat) : Prop :=
  ekPredOK G f st.1 ∧ (∀ v ∈ st.2, st.1 v ≠ none) ∧
    ∃ rk : Nat → Nat, ∃ N : Nat,
      (∀ v, st.1 v ≠ none → rk v < N) ∧
      (∀ v pi p, st.1 v = some pi → pi.prev = some p →
        st.1 p ≠ none ∧ rk p < rk v)

/-- What survives of the invariant on the predecessor map alone. -/
def EKPredFine (G : List BaseEdge) (f : Flow)
    (pred : Nat → Option PredE) : Prop :=
  ekPredOK G f pred ∧ ∃ rk : Nat → Nat,
    ∀ v pi p, pred v = some pi → pi.prev = some p → rk p < rk v

/-- The node chain realized by a reconstructed augmenting path: the `i`-th
entry joins consecutive chain nodes as a forward or backward residual arc
(entries listed sink-first, as `ekPath` returns them). -/
inductive EKChain (G : List BaseEdge) (f : Flow) (s : Nat) :
    List Nat → List PredE → Nat → Prop
  | base : EKChain G f s [s] [] s
  | step (vs : List Nat) (path : List PredE) (u v : Nat) (pi : PredE)
      (hprev : EKChain G f s vs path u)
      (hpi : (pi.dirFwd = true ∧ pi.pu = u ∧ pi.pv = v ∧
          ∃ e ∈ G, e.eu = u ∧ e.ev = v ∧ f u v < e.cap ∧
            pi.rescap = e.cap - f u v) ∨
        (pi.dirFwd = false ∧ pi.pu = v ∧ pi.pv = u ∧
          ∃ e ∈ G, e.eu = v ∧ e.ev = u ∧ 0 < f v u ∧ pi.rescap = f v u)) :
      EKChain G f s (vs ++ [v]) (pi :: path) v

/-! ## Theorems -/

section Theorems

/-! ### C1: the §8 scenario -/

/-- **C1** (counterexample).  On the 4-node scenario graph with source 0 and
sink 3, `cycle_cancelling` of `cycle_cancelling_MM.py` does NOT return a
flow of value 5 with total cost 7 (the edges out of the source alone carry
6 units at max flow). -/
theorem c1_scenario_refuted :
    (mmRun graph2 0 3 20 20).map (fun p => (flowValue graph2 p.1 0, p.2)) ≠
      some (5, 7) := by
  decide

/-- **C1** (amended).  On the 4-node scenario graph the engine returns a
flow assignment of value 6 (net flow out of the source) and total cost 14. -/
theorem c1_scenario_value6_cost14 :
    (mmRun graph2 0 3 20 20).map (fun p => (flowValue graph2 p.1 0, p.2)) =
      some (6, 14) := by
  decide

/-! ### C5: parallel residual arcs from anti-parallel base edges -/

theorem multiStep_eq (f : Flow) (R : List Arc) (e : BaseEdge) :
    multiStep f R e = R ++ genMulti f e := by
  unfold multiStep genMulti
  by_cases h1 : f e.eu e.ev < e.cap <;> by_cases h2 : 0 < f e.eu e.ev <;>
    simp [h1, h2]

theorem multi_foldl (f : Flow) :
    ∀ (L : List BaseEdge) (R : List Arc),
      L.foldl (multiStep f) R = R ++ L.flatMap (genMulti f)
  | [], R => by simp
  | e :: L, R => by
    rw [List.foldl_cons, multiStep_eq, multi_foldl f L, List.flatMap_cons,
      List.append_assoc]

theorem multi_eq_bind (G : List BaseEdge) (f : Flow) :
    buildResidualMulti G f = G.flatMap (genMulti f) := by
  unfold buildResidualMulti
  rw [multi_foldl]
  simp

/-- **C5** (counterexample).  On the anti-parallel pair
`(1,2,cap 3,w 1), (2,1,cap 2,w 1)` with one unit of flow each way, the
forward residual of `(1,2)` and the backward residual of `(2,1)` both exist
on the ordered pair `(1,2)`, yet the residual handed to the detector by
`build_residual` of `cycle_cancelling_MM.py` carries exactly ONE arc on
`(1,2)` — the `continue` drops the coincident backward arc (together with
the rest of that edge's arcs), so the two are not kept as parallel arcs. -/
theorem c5_mm_collapses_coincident_arcs :
    fAnti2 1 2 < 3 ∧ 0 < fAnti2 2 1 ∧
    (buildResidualMM gAnti2 fAnti2).arcs =
      [⟨1, 2, 1, 2, ArcTy.fwd⟩, ⟨2, 1, -1, 1, ArcTy.bwd⟩] ∧
    ((buildResidualMM gAnti2 fAnti2).arcs.filter
      (fun a => a.au == 1 && a.av == 2)).length = 1 := by
  decide

/-- **C5** (amended).  The MultiDiGraph builder of `MultiR.py` does keep
the coincident forward and backward residuals as distinct parallel arcs on
the same ordered pair, for every graph and flow; the DiGraph builder of
`cycle_cancelling_MM.py` instead keeps at most one arc per ordered pair. -/
theorem c5_multiR_keeps_parallel_arcs (G : List BaseEdge) (f : Flow)
    (e1 e2 : BaseEdge) (h1 : e1 ∈ G) (h2 : e2 ∈ G)
    (hu : e2.eu = e1.ev) (hv : e2.ev = e1.eu)
    (hf : f e1.eu e1.ev < e1.cap) (hb : 0 < f e2.eu e2.ev) :
    (⟨e1.eu, e1.ev, e1.cw, e1.cap - f e1.eu e1.ev, ArcTy.fwd⟩ : Arc) ∈
        buildResidualMulti G f ∧
    (⟨e1.eu, e1.ev, -e2.cw, f e2.eu e2.ev, ArcTy.bwd⟩ : Arc) ∈
        buildResidualMulti G f := by
  rw [multi_eq_bind]
  constructor
  · exact List.mem_flatMap.2 ⟨e1, h1, by simp [genMulti, hf]⟩
  · refine List.mem_flatMap.2 ⟨e2, h2, ?_⟩
    rw [show e1.eu = e2.ev from hv.symm, show e1.ev = e2.eu from hu.symm]
    simp [genMulti, hb]

/-- **C5** (witness for the amended theorem), on the concrete anti-parallel
pair. -/
theorem c5_multiR_witness :
    (⟨1, 2, 1, 2, ArcTy.fwd⟩ : Arc) ∈ buildResidualMulti gAnti2 fAnti2 ∧
    (⟨1, 2, -1, 1, ArcTy.bwd⟩ : Arc) ∈ buildResidualMulti gAnti2 fAnti2 := by
  have h := c5_multiR_keeps_parallel_arcs gAnti2 fAnti2
    ⟨1, 2, 3, 1⟩ ⟨2, 1, 2, 1⟩ (by decide) (by decide) rfl rfl
    (by decide) (by decide)
  exact h

/-! ### C4: the residual rule of `cycle_cancelling.py` -/

theorem sHas_false_iff (R : List SArc) (x y : Nat) :
    sHas R x y = false ↔ ∀ a ∈ R, ¬(a.su = x ∧ a.sv = y) := by
  simp [sHas]

theorem supdate_not_has (R : List SArc) (a : SArc)
    (h : sHas R a.su a.sv = false) : supdate R a = R ++ [a] := by
  unfold supdate
  rw [show (R.any fun b => b.su == a.su && b.sv == a.sv) = sHas R a.su a.sv
    from rfl, h]
  simp

theorem sHas_append (R S : List SArc) (x y : Nat) :
    sHas (R ++ S) x y = (sHas R x y || sHas S x y) := by
  simp [sHas, List.any_append]

theorem genCC_pair (f : Flow) (e : BaseEdge) (a : SArc) (h : a ∈ genCC f e) :
    (a.su = e.eu ∧ a.sv = e.ev) ∨ (a.su = e.ev ∧ a.sv = e.eu) := by
  unfold genCC at h
  rcases List.mem_append.1 h with h | h <;> split_ifs at h <;> simp at h <;>
    simp [h]

theorem ccResStep_eq (f : Flow) (R : List SArc) (e : BaseEdge)
    (h : ∀ a ∈ genCC f e, sHas R a.su a.sv = false) (hne : e.eu ≠ e.ev) :
    ccResStep f R e = R ++ genCC f e := by
  have hfwd : 0 < e.cap - f e.eu e.ev → sHas R e.eu e.ev = false := by
    intro h1
    have hm : (⟨e.eu, e.ev, e.cap - f e.eu e.ev, e.cw⟩ : SArc) ∈ genCC f e := by
      simp [genCC, h1]
    simpa using h _ hm
  have hbwd : 0 < f e.eu e.ev → sHas R e.ev e.eu = false := by
    intro h2
    have hm : (⟨e.ev, e.eu, f e.eu e.ev, -e.cw⟩ : SArc) ∈ genCC f e := by
      simp [genCC, h2]
    simpa using h _ hm
  unfold ccResStep genCC
  by_cases h1 : 0 < e.cap - f e.eu e.ev <;> by_cases h2 : 0 < f e.eu e.ev
  · have e1 : supdate R ⟨e.eu, e.ev, e.cap - f e.eu e.ev, e.cw⟩
        = R ++ [⟨e.eu, e.ev, e.cap - f e.eu e.ev, e.cw⟩] :=
      supdate_not_has _ _ (hfwd h1)
    have hs : sHas (R ++ [⟨e.eu, e.ev, e.cap - f e.eu e.ev, e.cw⟩]) e.ev e.eu
        = false := by
      rw [sHas_append, hbwd h2]
      simp [sHas, hne]
    have e2 : supdate (R ++ [⟨e.eu, e.ev, e.cap - f e.eu e.ev, e.cw⟩])
        ⟨e.ev, e.eu, f e.eu e.ev, -e.cw⟩
        = (R ++ [⟨e.eu, e.ev, e.cap - f e.eu e.ev, e.cw⟩])
          ++ [⟨e.ev, e.eu, f e.eu e.ev, -e.cw⟩] :=
      supdate_not_has _ _ hs
    simp [h1, h2, e1, e2]
  · have e1 : supdate R ⟨e.eu, e.ev, e.cap - f e.eu e.ev, e.cw⟩
        = R ++ [⟨e.eu, e.ev, e.cap - f e.eu e.ev, e.cw⟩] :=
      supdate_not_has _ _ (hfwd h1)
    simp [h1, h2, e1]
  · have e2 : supdate R ⟨e.ev, e.eu, f e.eu e.ev, -e.cw⟩
        = R ++ [⟨e.ev, e.eu, f e.eu e.ev, -e.cw⟩] :=
      supdate_not_has _ _ (hbwd h2)
    simp [h1, h2, e2]
  · simp [h1, h2]

theorem ccfold_append (f : Flow) :
    ∀ (L : List BaseEdge) (R : List SArc),
      (∀ e ∈ L, ∀ a ∈ genCC f e, sHas R a.su a.sv = false) →
      List.Pairwise (fun e e' => ∀ a ∈ genCC f e, ∀ b ∈ genCC f e',
        ¬(b.su = a.su ∧ b.sv = a.sv)) L →
      (∀ e ∈ L, e.eu ≠ e.ev) →
      L.foldl (ccResStep f) R = R ++ L.flatMap (genCC f)
  | [], R => by
    intro _ _ _
    simp
  | e :: L, R => by
    intro hR hP hne
    have hstep : ccResStep f R e = R ++ genCC f e :=
      ccResStep_eq f R e (fun a ha => hR e (by simp) a ha) (hne e (by simp))
    have hR' : ∀ e' ∈ L, ∀ a ∈ genCC f e', sHas (R ++ genCC f e) a.su a.sv = false := by
      intro e' he' a ha
      rw [sHas_append, hR e' (by simp [he']) a ha]
      have hq := (List.pairwise_cons.1 hP).1 e' he'
      simp only [Bool.false_or]
      rw [sHas_false_iff]
      intro b hb hEq
      exact hq b hb a ha ⟨hEq.1.symm, hEq.2.symm⟩
    have hrec := ccfold_append f L (R ++ genCC f e) hR'
      (List.Pairwise.of_cons hP) (fun e' he' => hne e' (by simp [he']))
    rw [List.foldl_cons, hstep, hrec, List.flatMap_cons, List.append_assoc]

theorem ccResidual_rule (G : List BaseEdge) (f : Flow)
    (hS : SimpleDigraph G) (hA : NoAntiParallel G) :
    buildResidualCC G f = G.flatMap (genCC f) := by
  unfold buildResidualCC
  have hp : List.Pairwise (fun e e' => ∀ a ∈ genCC f e, ∀ b ∈ genCC f e',
      ¬(b.su = a.su ∧ b.sv = a.sv)) G := by
    refine List.Pairwise.imp_of_mem ?_ hS
    intro e e' he he' hss a ha b hb hEq
    rcases genCC_pair f e a ha with ⟨ha1, ha2⟩ | ⟨ha1, ha2⟩ <;>
      rcases genCC_pair f e' b hb with ⟨hb1, hb2⟩ | ⟨hb1, hb2⟩
    · exact hss ⟨by rw [← ha1, ← hEq.1, hb1], by rw [← ha2, ← hEq.2, hb2]⟩
    · exact hA e he e' he'
        ⟨by rw [← ha1, ← hEq.1, hb1], by rw [← ha2, ← hEq.2, hb2]⟩
    · exact hA e' he' e he
        ⟨by rw [← hb1, hEq.1, ha1], by rw [← hb2, hEq.2, ha2]⟩
    · exact hss ⟨by rw [← ha2, ← hEq.2, hb2], by rw [← ha1, ← hEq.1, hb1]⟩
  have h0 : ∀ e ∈ G, ∀ a ∈ genCC f e, sHas [] a.su a.sv = false := by
    intro e _ a _
    simp [sHas]
  have hn : ∀ e ∈ G, e.eu ≠ e.ev := by
    intro e he h
    exact hA e he e he ⟨h, h.symm⟩
  rw [ccfold_append f G [] h0 hp hn]
  simp

/-- **C4** (counterexample).  With anti-parallel base edges
`(0,1,cap 2,w 1)` and `(1,0,cap 3,w 5)` and one unit of flow each way,
`cap > f` holds on `(0,1)` yet the residual of `cycle_cancelling.py`
contains NO arc `(0,1)` with capacity `1` and cost `+1`: the backward arc
of the anti-parallel edge overwrote it (cost `-5`). -/
theorem c4_forward_arc_overwritten :
    fAnti 0 1 < 2 ∧
    buildResidualCC gAnti fAnti =
      [⟨0, 1, 1, -5⟩, ⟨1, 0, 2, 5⟩] ∧
    (⟨0, 1, 1, 1⟩ : SArc) ∉ buildResidualCC gAnti fAnti := by
  decide

/-- **C4** (amended).  For a simple digraph with no anti-parallel base
edges, the residual of `cycle_cancelling.py` contains exactly the arcs of
the spec rule: a forward arc `(u,v)` with capacity `cap - f` and cost `+w`
iff `cap > f`, a backward arc `(v,u)` with capacity `f` and cost `-w` iff
`f > 0`, and nothing else.  (With anti-parallel edges a later-processed
edge's arc silently overwrites a coincident earlier arc.) -/
theorem c4_residual_rule_no_antiparallel (G : List BaseEdge) (f : Flow)
    (x y : Nat) (c w : Int) (hS : SimpleDigraph G) (hA : NoAntiParallel G) :
    ((⟨x, y, c, w⟩ : SArc) ∈ buildResidualCC G f) ↔
      ∃ e ∈ G,
        (e.eu = x ∧ e.ev = y ∧ f x y < e.cap ∧ c = e.cap - f x y ∧ w = e.cw) ∨
        (e.eu = y ∧ e.ev = x ∧ 0 < f y x ∧ c = f y x ∧ w = -e.cw) := by
  rw [ccResidual_rule G f hS hA, List.mem_flatMap]
  constructor
  · rintro ⟨e, he, ha⟩
    refine ⟨e, he, ?_⟩
    unfold genCC at ha
    rcases List.mem_append.1 ha with h | h
    · left
      rcases em (0 < e.cap - f e.eu e.ev) with h1 | h1
      · rw [if_pos h1] at h
        simp only [List.mem_singleton, SArc.mk.injEq] at h
        obtain ⟨hx, hy, hc, hw⟩ := h
        subst hx
        subst hy
        exact ⟨rfl, rfl, by omega, by omega, hw⟩
      · rw [if_neg h1] at h
        simp at h
    · right
      rcases em (0 < f e.eu e.ev) with h2 | h2
      · rw [if_pos h2] at h
        simp only [List.mem_singleton, SArc.mk.injEq] at h
        obtain ⟨hx, hy, hc, hw⟩ := h
        subst hx
        subst hy
        exact ⟨rfl, rfl, by omega, by omega, hw⟩
      · rw [if_neg h2] at h
        simp at h
  · rintro ⟨e, he, ⟨h1, h2, h3, h4, h5⟩ | ⟨h1, h2, h3, h4, h5⟩⟩
    · refine ⟨e, he, ?_⟩
      unfold genCC
      refine List.mem_append.2 (Or.inl ?_)
      subst h1
      subst h2
      subst h4
      subst h5
      rw [if_pos (by omega)]
      simp
    · refine ⟨e, he, ?_⟩
      unfold genCC
      refine List.mem_append.2 (Or.inr ?_)
      subst h1
      subst h2
      subst h4
      subst h5
      rw [if_pos (by omega)]
      simp

/-- **C4** (witness): the amended rule applied on the scenario graph with a
unit flow everywhere yields the forward arc `(0,1)` of capacity 1, cost 1. -/
theorem c4_rule_witness :
    SimpleDigraph graph2 ∧ NoAntiParallel graph2 ∧
    (⟨0, 1, 1, 1⟩ : SArc) ∈ buildResidualCC graph2 fOne := by
  refine ⟨by decide, by decide, ?_⟩
  exact (c4_residual_rule_no_antiparallel graph2 fOne 0 1 1 1
    (by decide) (by decide)).2 ⟨⟨0, 1, 2, 1⟩, by decide, Or.inl (by decide)⟩

/-! ### C9: the engine of `cycle_cancelling.py` leaves the input graph
unchanged -/

theorem ccLoop_graph_eq (Gr : List CEdge) (ncf : List SArc → Option (List Nat)) :
    ∀ (fuel : Nat) (f : Flow) (G2 : List CEdge) (f2 : Flow),
      ccLoop Gr ncf fuel f = some (G2, f2) → G2 = Gr := by
  intro fuel
  induction fuel with
  | zero =>
    intro f G2 f2 h
    simp [ccLoop] at h
  | succ n ih =>
    intro f G2 f2 h
    unfold ccLoop at h
    dsimp only [] at h
    split at h
    · simp at h
      exact h.1.symm
    · split at h
      · simp at h
      · exact ih _ _ _ h
      · split at h
        · simp at h
        · split at h
          · simp at h
          · exact ih _ _ _ h

/-- **C9**.  Whatever the detector does and however long the loop runs,
`cycle_cancelling` of `cycle_cancelling.py` returns the very graph object it
was handed: the node set, edge set, capacities, weights and any pre-existing
`flow` attribute are untouched (the flow lives in a separate assignment). -/
theorem c9_input_graph_unchanged (Gr : List CEdge) (s t : Nat)
    (ncf : List SArc → Option (List Nat)) (fuelE fuelL : Nat)
    (G2 : List CEdge) (f : Flow) (c : Int)
    (h : ccRun Gr s t ncf fuelE fuelL = some (G2, f, c)) :
    G2 = Gr := by
  unfold ccRun at h
  split at h
  · dsimp only [] at h
    split at h
    · simp at h
    · rename_i G2' f' heq
      simp at h
      obtain ⟨h1, -, -⟩ := h
      rw [← h1]
      exact ccLoop_graph_eq Gr ncf fuelL _ G2' f' heq
  · simp at h

/-- **C9** (witness): a concrete run (trivial detector, so the loop exits at
once) returns the input graph `cgraph2` itself. -/
theorem c9_witness :
    (ccRun cgraph2 0 3 (fun _ => none) 20 1).isSome = true ∧
    (ccRun cgraph2 0 3 (fun _ => none) 20 1).map (fun p => p.1) = some cgraph2 := by
  refine ⟨by decide, ?_⟩
  cases h : ccRun cgraph2 0 3 (fun _ => none) 20 1 with
  | none =>
    have hs : (ccRun cgraph2 0 3 (fun _ => none) 20 1).isSome = true := by decide
    rw [h] at hs
    simp at hs
  | some p =>
    obtain ⟨G2, f, c⟩ := p
    have hg := c9_input_graph_unchanged cgraph2 0 3 (fun _ => none) 20 1 G2 f c h
    simp [hg]

/-! ### The Karp DP: relaxation invariants -/

theorem updO_same {α : Type} (g : Nat → α) (x : Nat) (y : α) :
    updO g x y x = y := by
  simp [updO]

theorem updO_other {α : Type} (g : Nat → α) (x z : Nat) (y : α)
    (h : z ≠ x) : updO g x y z = g z := by
  simp [updO, h]

/-- The invariant of one full relaxation pass: a defined entry of the new
layer comes from some arc whose tail was defined in the previous layer
(with the recorded parent), and it is minimal over all such arcs. -/
theorem karpRelax_inv (dpPrev : Nat → Option Int) :
    ∀ (arcs : List Arc) (v : Nat),
      (((karpRelax arcs dpPrev).1 v = none ∧ (karpRelax arcs dpPrev).2 v = none) ∨
        (∃ d u du a, (karpRelax arcs dpPrev).1 v = some d ∧
          (karpRelax arcs dpPrev).2 v = some u ∧ a ∈ arcs ∧ a.au = u ∧
          a.av = v ∧ dpPrev u = some du ∧ d = du + a.aw)) ∧
      (∀ a ∈ arcs, a.av = v → ∀ du, dpPrev a.au = some du →
        ∃ d, (karpRelax arcs dpPrev).1 v = some d ∧ d ≤ du + a.aw) := by
  intro arcs
  induction arcs using List.reverseRecOn with
  | nil =>
    intro v
    refine ⟨Or.inl ⟨rfl, rfl⟩, ?_⟩
    intro a ha
    simp at ha
  | append_singleton L a ih =>
    intro v
    have hstep : karpRelax (L ++ [a]) dpPrev =
        (match dpPrev a.au with
         | none => karpRelax L dpPrev
         | some du =>
           let cand := du + a.aw
           match (karpRelax L dpPrev).1 a.av with
           | none =>
             (updO (karpRelax L dpPrev).1 a.av (some cand),
              updO (karpRelax L dpPrev).2 a.av (some a.au))
           | some dv =>
             if cand < dv then
               (updO (karpRelax L dpPrev).1 a.av (some cand),
                updO (karpRelax L dpPrev).2 a.av (some a.au))
             else karpRelax L dpPrev) := by
      unfold karpRelax
      rw [List.foldl_append, List.foldl_cons, List.foldl_nil]
    obtain ⟨ih1, ih2⟩ := ih v
    rcases hP : dpPrev a.au with _ | du
    · rw [hstep]
      simp only [hP]
      constructor
      · rcases ih1 with h | ⟨d, u, du, b, h⟩
        · exact Or.inl h
        · exact Or.inr ⟨d, u, du, b, h.1, h.2.1, by simp [h.2.2.1], h.2.2.2⟩
      · intro b hb hbv du hdu
        rcases List.mem_append.1 hb with hb | hb
        · exact ih2 b hb hbv du hdu
        · rw [List.mem_singleton.1 hb] at hdu
          rw [hP] at hdu
          cases hdu
    · rcases hC : (karpRelax L dpPrev).1 a.av with _ | dv
      · have hres : karpRelax (L ++ [a]) dpPrev =
            (updO (karpRelax L dpPrev).1 a.av (some (du + a.aw)),
             updO (karpRelax L dpPrev).2 a.av (some a.au)) := by
          rw [hstep]
          simp only [hP, hC]
        by_cases hv : v = a.av
        · subst hv
          constructor
          · refine Or.inr ⟨du + a.aw, a.au, du, a, ?_, ?_, ?_, rfl, rfl, hP, rfl⟩
            · rw [hres]
              exact updO_same _ _ _
            · rw [hres]
              exact updO_same _ _ _
            · simp
          · intro b hb hbv du' hdu'
            rcases List.mem_append.1 hb with hb | hb
            · obtain ⟨d, hd, -⟩ := ih2 b hb hbv du' hdu'
              rw [hC] at hd
              cases hd
            · rw [List.mem_singleton.1 hb] at hdu' ⊢
              rw [hP] at hdu'
              cases hdu'
              refine ⟨du + a.aw, ?_, le_refl _⟩
              rw [hres]
              exact updO_same _ _ _
        · constructor
          · have e1 : (karpRelax (L ++ [a]) dpPrev).1 v =
                (karpRelax L dpPrev).1 v := by
              rw [hres]
              exact updO_other _ _ _ _ hv
            have e2 : (karpRelax (L ++ [a]) dpPrev).2 v =
                (karpRelax L dpPrev).2 v := by
              rw [hres]
              exact updO_other _ _ _ _ hv
            rcases ih1 with h | ⟨d, u, du', b, h⟩
            · exact Or.inl ⟨by rw [e1, h.1], by rw [e2, h.2]⟩
            · exact Or.inr ⟨d, u, du', b, by rw [e1, h.1], by rw [e2, h.2.1],
                by simp [h.2.2.1], h.2.2.2⟩
          · intro b hb hbv du' hdu'
            rcases List.mem_append.1 hb with hb | hb
            · obtain ⟨d, hd, hle⟩ := ih2 b hb hbv du' hdu'
              refine ⟨d, ?_, hle⟩
              rw [hres]
              exact (updO_other _ _ _ _ hv).trans hd
            · rw [List.mem_singleton.1 hb] at hbv
              exact absurd hbv.symm (by simpa using hv)
      · by_cases hlt : du + a.aw < dv
        · have hres : karpRelax (L ++ [a]) dpPrev =
              (updO (karpRelax L dpPrev).1 a.av (some (du + a.aw)),
               updO (karpRelax L dpPrev).2 a.av (some a.au)) := by
            rw [hstep]
            simp only [hP, hC, if_pos hlt]
          by_cases hv : v = a.av
          · subst hv
            constructor
            · refine Or.inr ⟨du + a.aw, a.au, du, a, ?_, ?_, ?_, rfl, rfl, hP, rfl⟩
              · rw [hres]
                exact updO_same _ _ _
              · rw [hres]
                exact updO_same _ _ _
              · simp
            · intro b hb hbv du' hdu'
              rcases List.mem_append.1 hb with hb | hb
              · obtain ⟨d, hd, hle⟩ := ih2 b hb hbv du' hdu'
                rw [hC] at hd
                cases hd
                refine ⟨du + a.aw, ?_, ?_⟩
                · rw [hres]
                  exact updO_same _ _ _
                · exact le_trans (le_of_lt hlt) hle
              · have hba := List.mem_singleton.1 hb
                subst hba
                rw [hP] at hdu'
                cases hdu'
                refine ⟨du + b.aw, ?_, le_refl _⟩
                rw [hres]
                exact updO_same _ _ _
          · constructor
            · have e1 : (karpRelax (L ++ [a]) dpPrev).1 v =
                  (karpRelax L dpPrev).1 v := by
                rw [hres]
                exact updO_other _ _ _ _ hv
              have e2 : (karpRelax (L ++ [a]) dpPrev).2 v =
                  (karpRelax L dpPrev).2 v := by
                rw [hres]
                exact updO_other _ _ _ _ hv
              rcases ih1 with h | ⟨d, u, du', b, h⟩
              · exact Or.inl ⟨by rw [e1, h.1], by rw [e2, h.2]⟩
              · exact Or.inr ⟨d, u, du', b, by rw [e1, h.1], by rw [e2, h.2.1],
                  by simp [h.2.2.1], h.2.2.2⟩
            · intro b hb hbv du' hdu'
              rcases List.mem_append.1 hb with hb | hb
              · obtain ⟨d, hd, hle⟩ := ih2 b hb hbv du' hdu'
                refine ⟨d, ?_, hle⟩
                rw [hres]
                exact (updO_other _ _ _ _ hv).trans hd
              · rw [List.mem_singleton.1 hb] at hbv
                exact absurd hbv.symm (by simpa using hv)
        · have hres : karpRelax (L ++ [a]) dpPrev = karpRelax L dpPrev := by
            rw [hstep]
            simp only [hP, hC, if_neg hlt]
          rw [hres]
          constructor
          · rcases ih1 with h | ⟨d, u, du', b, h⟩
            · exact Or.inl h
            · exact Or.inr ⟨d, u, du', b, h.1, h.2.1, by simp [h.2.2.1], h.2.2.2⟩
          · intro b hb hbv du' hdu'
            rcases List.mem_append.1 hb with hb | hb
            · exact ih2 b hb hbv du' hdu'
            · have hba := List.mem_singleton.1 hb
              subst hba
              rw [hP] at hdu'
              cases hdu'
              refine ⟨dv, ?_, le_of_not_lt hlt⟩
              rw [← hbv]
              exact hC

theorem karpDP_zero (nodes : List Nat) (arcs : List Arc) (v : Nat) :
    (karpDP nodes arcs 0).1 v = if v ∈ nodes then some 0 else none := rfl

theorem karpDP_succ (nodes : List Nat) (arcs : List Arc) (k : Nat) :
    karpDP nodes arcs (k + 1) = karpRelax arcs (karpDP nodes arcs k).1 := rfl

/-- A defined dp entry of a positive layer comes from a parent arc. -/
theorem karpDP_origin (nodes : List Nat) (arcs : List Arc) (k v : Nat) (d : Int)
    (h : (karpDP nodes arcs (k + 1)).1 v = some d) :
    ∃ a ∈ arcs, ∃ du, a.av = v ∧
      (karpDP nodes arcs (k + 1)).2 v = some a.au ∧
      (karpDP nodes arcs k).1 a.au = some du ∧ d = du + a.aw := by
  have hinv := (karpRelax_inv (karpDP nodes arcs k).1 arcs v).1
  rw [← karpDP_succ] at hinv
  rcases hinv with ⟨h1, -⟩ | ⟨d', u, du, a, h1, h2, ha, hau, hav, hdu, hd⟩
  · rw [h1] at h
    cases h
  · rw [h1] at h
    cases h
    refine ⟨a, ha, du, hav, ?_, ?_, hd⟩
    · rw [h2, hau]
    · rw [hau]
      exact hdu

/-- A recorded parent pointer always has a defined dp entry behind it. -/
theorem karpDP_parent (nodes : List Nat) (arcs : List Arc) (k v u : Nat)
    (h : (karpDP nodes arcs (k + 1)).2 v = some u) :
    ∃ a ∈ arcs, a.au = u ∧ a.av = v ∧ ∃ d du,
      (karpDP nodes arcs (k + 1)).1 v = some d ∧
      (karpDP nodes arcs k).1 u = some du ∧ d = du + a.aw := by
  have hinv := (karpRelax_inv (karpDP nodes arcs k).1 arcs v).1
  rw [← karpDP_succ] at hinv
  rcases hinv with ⟨-, h2⟩ | ⟨d', u', du, a, h1, h2, ha, hau, hav, hdu, hd⟩
  · rw [h2] at h
    cases h
  · rw [h2] at h
    cases h
    exact ⟨a, ha, hau, hav, d', du, h1, hdu, hd⟩

/-- Relaxing any arc with a defined tail bounds the next layer at its head. -/
theorem karpDP_le (nodes : List Nat) (arcs : List Arc) (k : Nat) (a : Arc)
    (ha : a ∈ arcs) (du : Int)
    (hdu : (karpDP nodes arcs k).1 a.au = some du) :
    ∃ d, (karpDP nodes arcs (k + 1)).1 a.av = some d ∧ d ≤ du + a.aw := by
  have hinv := (karpRelax_inv (karpDP nodes arcs k).1 arcs a.av).2
  rw [← karpDP_succ] at hinv
  exact hinv a ha rfl du hdu

/-- A defined dp entry is realized by a walk of that exact length. -/
theorem karpDP_walk (nodes : List Nat) (arcs : List Arc) :
    ∀ (k v : Nat) (d : Int), (karpDP nodes arcs k).1 v = some d →
      EndWalk nodes arcs k v d
  | 0, v, d, h => by
    rw [karpDP_zero] at h
    by_cases hv : v ∈ nodes
    · rw [if_pos hv] at h
      cases h
      exact EndWalk.zero v hv
    · rw [if_neg hv] at h
      cases h
  | k + 1, v, d, h => by
    obtain ⟨a, ha, du, hav, -, hdu, hd⟩ := karpDP_origin nodes arcs k v d h
    have hw := karpDP_walk nodes arcs k a.au du hdu
    subst hd
    rw [← hav]
    exact EndWalk.step k a.au du a ha hw rfl

/-- The dp entry is a lower bound on the cost of every walk of its length. -/
theorem karpDP_min (nodes : List Nat) (arcs : List Arc) (k v : Nat) (c : Int)
    (hw : EndWalk nodes arcs k v c) :
    ∃ d, (karpDP nodes arcs k).1 v = some d ∧ d ≤ c := by
  induction hw with
  | zero v hv =>
    refine ⟨0, ?_, le_refl 0⟩
    rw [karpDP_zero, if_pos hv]
  | step k u c a ha hw hu ih =>
    obtain ⟨du, hdu, hle⟩ := ih
    rw [← hu] at hdu
    obtain ⟨d, hd, hdle⟩ := karpDP_le nodes arcs k a ha du hdu
    exact ⟨d, hd, le_trans hdle (by omega)⟩

/-- The dp table is exactly the minimum-walk-cost table of the claim. -/
theorem karpDP_iff_minwalk (nodes : List Nat) (arcs : List Arc) (k v : Nat)
    (d : Int) :
    (karpDP nodes arcs k).1 v = some d ↔ dpIsMinWalk nodes arcs k v d := by
  constructor
  · intro h
    refine ⟨karpDP_walk nodes arcs k v d h, ?_⟩
    intro c hc
    obtain ⟨d', hd', hle⟩ := karpDP_min nodes arcs k v c hc
    rw [h] at hd'
    cases hd'
    exact hle
  · rintro ⟨hw, hmin⟩
    obtain ⟨d', hd', hle⟩ := karpDP_min nodes arcs k v d hw
    have hge := hmin d' (karpDP_walk nodes arcs k v d' hd')
    have hdd : d = d' := le_antisymm hge hle
    rw [hdd]
    exact hd'

/-- An undefined dp entry means no walk of that length reaches the node. -/
theorem karpDP_none_iff (nodes : List Nat) (arcs : List Arc) (k v : Nat) :
    (karpDP nodes arcs k).1 v = none ↔
      ¬∃ c, EndWalk nodes arcs k v c := by
  constructor
  · rintro h ⟨c, hc⟩
    obtain ⟨d, hd, -⟩ := karpDP_min nodes arcs k v c hc
    rw [h] at hd
    cases hd
  · intro h
    cases hv : (karpDP nodes arcs k).1 v with
    | none => rfl
    | some d => exact absurd ⟨d, karpDP_walk nodes arcs k v d hv⟩ h

/-! ### pairsOf and first-repeat lemmas -/

theorem pairsOf_append_one (l : List Nat) (x g : Nat)
    (h : l.getLast? = some g) :
    pairsOf (l ++ [x]) = pairsOf l ++ [(g, x)] := by
  induction l with
  | nil => simp at h
  | cons a r ih =>
    cases r with
    | nil =>
      simp at h
      subst h
      rfl
    | cons b r' =>
      have h' : (b :: r').getLast? = some g := by
        simpa using h
      show (a, b) :: pairsOf ((b :: r') ++ [x]) = _
      rw [ih h']
      rfl

theorem pairsOf_sub_cons (a : Nat) (l : List Nat) (p : Nat × Nat)
    (h : p ∈ pairsOf l) : p ∈ pairsOf (a :: l) := by
  cases l with
  | nil => simp [pairsOf] at h
  | cons b r =>
    show p ∈ (a, b) :: pairsOf (b :: r)
    exact List.mem_cons_of_mem _ h

theorem pairsOf_sub_append (l m : List Nat) (p : Nat × Nat)
    (h : p ∈ pairsOf l) : p ∈ pairsOf (l ++ m) := by
  induction l with
  | nil => simp [pairsOf] at h
  | cons a r ih =>
    cases r with
    | nil => simp [pairsOf] at h
    | cons b r' =>
      have h' : p = (a, b) ∨ p ∈ pairsOf (b :: r') := List.mem_cons.1 h
      show p ∈ (a, b) :: pairsOf ((b :: r') ++ m)
      rcases h' with h' | h'
      · rw [h']
        exact List.mem_cons_self _ _
      · exact List.mem_cons_of_mem _ (ih h')

theorem pairsOf_sub_suffix (S L : List Nat) (hs : S <:+ L) (p : Nat × Nat)
    (h : p ∈ pairsOf S) : p ∈ pairsOf L := by
  induction L with
  | nil =>
    rw [List.suffix_nil.1 hs] at h
    simp [pairsOf] at h
  | cons a r ih =>
    rcases (List.suffix_cons_iff.1 hs) with hS | hS
    · rw [hS] at h
      exact h
    · exact pairsOf_sub_cons a r p (ih hS)

theorem dropWhile_ne_cons (a : Nat) :
    ∀ (pref : List Nat), a ∈ pref →
      ∃ S, pref.dropWhile (fun y => y != a) = a :: S := by
  intro pref
  induction pref with
  | nil => intro h; simp at h
  | cons b r ih =>
    intro h
    by_cases hba : b = a
    · subst hba
      refine ⟨r, ?_⟩
      rw [List.dropWhile_cons]
      simp
    · have hr : a ∈ r := by
        rcases List.mem_cons.1 h with h | h
        · exact absurd h.symm hba
        · exact h
      obtain ⟨S, hS⟩ := ih hr
      refine ⟨S, ?_⟩
      rw [List.dropWhile_cons]
      have : (b != a) = true := by
        simpa using hba
      rw [this]
      simp only [if_true]
      exact hS

theorem getLast?_suffix_eq (S L : List Nat) (hs : S <:+ L) (hne : S ≠ []) :
    S.getLast? = L.getLast? := by
  obtain ⟨T, rfl⟩ := hs
  rw [List.getLast?_append_of_ne_nil _ hne]

/-- The first-repeat scan returns a closed segment whose interior is
duplicate-free, and whose consecutive pairs come from the scanned path. -/
theorem frs_spec :
    ∀ (l pref seg : List Nat), pref.Nodup →
      firstRepeatSeg pref l = some seg →
      ∃ x mid, seg = (x :: mid) ++ [x] ∧ (x :: mid).Nodup ∧
        (∀ p ∈ pairsOf seg, p ∈ pairsOf (pref ++ l)) := by
  intro l
  induction l with
  | nil =>
    intro pref seg hnd h
    simp [firstRepeatSeg] at h
  | cons a rest ih =>
    intro pref seg hnd h
    unfold firstRepeatSeg at h
    by_cases hmem : a ∈ pref
    · rw [if_pos hmem] at h
      cases h
      obtain ⟨S, hS⟩ := dropWhile_ne_cons a pref hmem
      have hsuf : pref.dropWhile (fun y => y != a) <:+ pref :=
        List.dropWhile_suffix _
      have hsufS : (a :: S) <:+ pref := by
        rw [← hS]
        exact hsuf
      have hndS : (a :: S).Nodup := hnd.sublist hsufS.sublist
      refine ⟨a, S, by rw [hS], hndS, ?_⟩
      intro p hp
      rw [hS] at hp
      have hglast : (a :: S).getLast? = pref.getLast? :=
        getLast?_suffix_eq _ _ hsufS (by simp)
      cases hgl : pref.getLast? with
      | none => simp at hgl; subst hgl; simp at hmem
      | some g =>
        rw [hgl] at hglast
        rw [pairsOf_append_one _ a g hglast] at hp
        rcases List.mem_append.1 hp with hp | hp
        · have : p ∈ pairsOf pref := pairsOf_sub_suffix _ _ hsufS p hp
          exact pairsOf_sub_append _ _ p this
        · have : p ∈ pairsOf (pref ++ [a]) := by
            rw [pairsOf_append_one _ a g hgl]
            exact List.mem_append.2 (Or.inr hp)
          have h2 : p ∈ pairsOf ((pref ++ [a]) ++ rest) :=
            pairsOf_sub_append _ _ p this
          simpa [List.append_assoc] using h2
    · rw [if_neg hmem] at h
      have hnd' : (pref ++ [a]).Nodup := by
        simp [List.nodup_append, hnd, hmem]
      obtain ⟨x, mid, hseg, hmidnd, hpairs⟩ := ih (pref ++ [a]) seg hnd' h
      refine ⟨x, mid, hseg, hmidnd, ?_⟩
      intro p hp
      have := hpairs p hp
      simpa [List.append_assoc] using this

/-- If the scan finds no repeat, the whole path was duplicate-free. -/
theorem frs_none_nodup :
    ∀ (l pref : List Nat), pref.Nodup →
      firstRepeatSeg pref l = none → (pref ++ l).Nodup := by
  intro l
  induction l with
  | nil =>
    intro pref h _
    simpa using h
  | cons a rest ih =>
    intro pref hnd h
    unfold firstRepeatSeg at h
    by_cases hmem : a ∈ pref
    · rw [if_pos hmem] at h
      cases h
    · rw [if_neg hmem] at h
      have hnd' : (pref ++ [a]).Nodup := by
        simp [List.nodup_append, hnd, hmem]
      have := ih (pref ++ [a]) hnd' h
      simpa [List.append_assoc] using this

theorem not_nodup_of_long (l ns : List Nat) (hsub : ∀ x ∈ l, x ∈ ns)
    (hnd : ns.Nodup) (hlen : ns.length < l.length) : ¬ l.Nodup := by
  intro hl
  have hcard : l.toFinset.card = l.length := List.toFinset_card_of_nodup hl
  have hcard2 : ns.toFinset.card = ns.length := List.toFinset_card_of_nodup hnd
  have hsubF : l.toFinset ⊆ ns.toFinset := by
    intro x hx
    rw [List.mem_toFinset] at hx ⊢
    exact hsub x hx
  have := Finset.card_le_card hsubF
  omega

/-! ### The traceback realizes a layer chain -/

theorem layerChain_of_dp (nodes : List Nat) (arcs : List Arc) :
    ∀ (k v : Nat) (d : Int), (karpDP nodes arcs k).1 v = some d →
      LayerChain nodes arcs
        ((traceback (fun j => (karpDP nodes arcs j).2) k v).reverse) k v d
  | 0, v, d, h => by
    show LayerChain _ _ ([v].reverse) _ _ _
    rw [List.reverse_singleton]
    exact LayerChain.base v d h
  | k + 1, v, d, h => by
    obtain ⟨a, ha, du, hav, hpar, hdu, hd⟩ := karpDP_origin nodes arcs k v d h
    have htb : traceback (fun j => (karpDP nodes arcs j).2) (k + 1) v
        = v :: traceback (fun j => (karpDP nodes arcs j).2) k a.au := by
      show (match (karpDP nodes arcs (k + 1)).2 v with
            | none => [v]
            | some p => v :: traceback (fun j => (karpDP nodes arcs j).2) k p)
          = v :: traceback (fun j => (karpDP nodes arcs j).2) k a.au
      rw [hpar]
    rw [htb, List.reverse_cons]
    exact LayerChain.snoc _ k a.au v du d a
      (layerChain_of_dp nodes arcs k a.au du hdu) ha rfl hav h hd

theorem layerChain_length (nodes : List Nat) (arcs : List Arc)
    (l : List Nat) (k v : Nat) (d : Int)
    (h : LayerChain nodes arcs l k v d) : l.length = k + 1 := by
  induction h with
  | base v d hd => rfl
  | snoc l k u v du d a hprev ha hau hav hd hsum ih => simp [ih]

theorem layerChain_last (nodes : List Nat) (arcs : List Arc)
    (l : List Nat) (k v : Nat) (d : Int)
    (h : LayerChain nodes arcs l k v d) : l.getLast? = some v := by
  induction h with
  | base v d hd => rfl
  | snoc l k u v du d a hprev ha hau hav hd hsum ih =>
    rw [List.getLast?_append_of_ne_nil _ (by simp)]
    rfl

theorem layerChain_chain (nodes : List Nat) (arcs : List Arc)
    (l : List Nat) (k v : Nat) (d : Int)
    (h : LayerChain nodes arcs l k v d) : IsChain arcs l := by
  induction h with
  | base v d hd =>
    intro p hp
    simp [pairsOf] at hp
  | snoc l k u v du d a hprev ha hau hav hd hsum ih =>
    intro p hp
    rw [pairsOf_append_one _ v u
      (layerChain_last nodes arcs l k u du hprev)] at hp
    rcases List.mem_append.1 hp with hp | hp
    · exact ih p hp
    · rw [List.mem_singleton.1 hp]
      exact ⟨a, ha, hau, hav⟩

theorem layerChain_mem (nodes : List Nat) (arcs : List Arc)
    (harc : ∀ a ∈ arcs, a.au ∈ nodes ∧ a.av ∈ nodes)
    (l : List Nat) (k v : Nat) (d : Int)
    (h : LayerChain nodes arcs l k v d) : ∀ x ∈ l, x ∈ nodes := by
  induction h with
  | base v d hd =>
    intro x hx
    rw [List.mem_singleton.1 hx]
    rw [karpDP_zero] at hd
    by_cases hv : v ∈ nodes
    · exact hv
    · rw [if_neg hv] at hd
      cases hd
  | snoc l k u v du d a hprev ha hau hav hd hsum ih =>
    intro x hx
    rcases List.mem_append.1 hx with hx | hx
    · exact ih x hx
    · rw [List.mem_singleton.1 hx, ← hav]
      exact (harc a ha).2

/-! ### Splitting a layer chain at a repeated node -/

theorem layerChain_split (nodes : List Nat) (arcs : List Arc)
    (l : List Nat) (k v : Nat) (d : Int)
    (h : LayerChain nodes arcs l k v d) :
    ∀ (l₁ : List Nat) (x : Nat) (l₂ : List Nat), l = l₁ ++ x :: l₂ →
      ∃ dx, (karpDP nodes arcs l₁.length).1 x = some dx ∧
        PairSum arcs (x :: l₂) (d - dx) ∧
        (∀ m c, EndWalk nodes arcs m x c →
          EndWalk nodes arcs (m + l₂.length) v (c + (d - dx))) ∧
        LayerChain nodes arcs (l₁ ++ [x]) l₁.length x dx := by
  induction h with
  | base v d hd =>
    intro l₁ x l₂ heq
    have hl₁ : l₁ = [] := by
      cases l₁ with
      | nil => rfl
      | cons c cs => simp at heq
    subst hl₁
    have hx : x = v ∧ l₂ = [] := by
      simpa using heq.symm
    obtain ⟨hx, hl₂⟩ := hx
    subst hx
    subst hl₂
    refine ⟨d, hd, ?_, ?_, ?_⟩
    · simpa using PairSum.single x
    · intro m c hw
      simpa using hw
    · exact LayerChain.base x d hd
  | snoc l k u v du d a hprev ha hau hav hd hsum ih =>
    intro l₁ x l₂ heq
    rcases List.eq_nil_or_concat l₂ with h2 | ⟨l₂', z, h2⟩
    · subst h2
      obtain ⟨hl, hx⟩ := List.append_inj' heq.symm rfl
      have hxv : x = v := by simpa using hx
      have hlen := layerChain_length nodes arcs l k u du hprev
      refine ⟨d, ?_, ?_, ?_, ?_⟩
      · rw [hl, hlen, hxv]
        exact hd
      · simpa using PairSum.single x
      · intro m c hw
        rw [← hxv]
        simpa using hw
      · rw [hl, hlen, hxv]
        exact LayerChain.snoc l k u v du d a hprev ha hau hav hd hsum
    · subst h2
      have heq2 : l ++ [v] = (l₁ ++ x :: l₂') ++ [z] := by
        simpa [List.append_assoc] using heq
      obtain ⟨hl, hz⟩ := List.append_inj' heq2 rfl
      have hzv : z = v := by simpa using hz.symm
      subst hzv
      obtain ⟨dx, hdx, hps, htr, hsub⟩ := ih l₁ x l₂' hl
      have hlast2 : (x :: l₂').getLast? = some u := by
        have h1 : l.getLast? = some u := layerChain_last nodes arcs l k u du hprev
        have h2 : (x :: l₂').getLast? = l.getLast? := by
          rw [hl]
          exact getLast?_suffix_eq (x :: l₂') (l₁ ++ x :: l₂') ⟨l₁, rfl⟩ (by simp)
        rw [h2, h1]
      refine ⟨dx, hdx, ?_, ?_, hsub⟩
      · have hps2 := PairSum.snoc (x :: l₂') u z (du - dx) a ha hau
          (by rw [hav]) hlast2 hps
        have harith : du - dx + a.aw = d - dx := by omega
        rw [harith] at hps2
        simpa using hps2
      · intro m c hw
        have hw2 := htr m c hw
        have hstep := EndWalk.step _ u _ a ha hw2 hau
        rw [hav] at hstep
        have harith : c + (du - dx) + a.aw = c + (d - dx) := by omega
        rw [harith] at hstep
        have hlen : (l₂'.concat z).length = l₂'.length + 1 := by
          simp
        rw [hlen, ← Nat.add_assoc]
        exact hstep

/-! ### Unique pairs and the driver's weight readout -/

theorem findArc_uniq (R : List Arc) (hU : UniqPairs R) (a : Arc)
    (ha : a ∈ R) : findArc? R a.au a.av = some a := by
  induction R with
  | nil => simp at ha
  | cons b R' ih =>
    have hpw := List.pairwise_cons.1 hU
    rcases List.mem_cons.1 ha with h | h
    · subst h
      unfold findArc?
      rw [List.find?_cons_of_pos]
      simp
    · have hne : ¬(b.au = a.au ∧ b.av = a.av) := hpw.1 a h
      unfold findArc?
      rw [List.find?_cons_of_neg]
      · exact ih hpw.2 h
      · simpa using hne

theorem pairSum_arcW (R : List Arc) (hU : UniqPairs R) :
    ∀ (l : List Nat) (W : Int), PairSum R l W →
      ((pairsOf l).map (arcWOf R)).sum = W := by
  intro l W h
  induction h with
  | single x => simp [pairsOf]
  | snoc l x y W a ha hau hav hlast hl ih =>
    rw [pairsOf_append_one l y x hlast, List.map_append, List.sum_append, ih]
    have hfind : findArc? R x y = some a := by
      rw [← hau, ← hav]
      exact findArc_uniq R hU a ha
    simp [arcWOf, hfind]

/-! ### Fraction order bridges -/

theorem fracLt_iff (a b : Frac) (ha : 0 < a.den) (hb : 0 < b.den) :
    fracLt a b = true ↔ a.toQ < b.toQ := by
  unfold fracLt Frac.toQ
  rw [decide_eq_true_eq,
    div_lt_div_iff (by exact_mod_cast ha) (by exact_mod_cast hb)]
  constructor
  · intro h
    exact_mod_cast h
  · intro h
    exact_mod_cast h

theorem fracLt_false_iff (a b : Frac) (ha : 0 < a.den) (hb : 0 < b.den) :
    fracLt a b = false ↔ b.toQ ≤ a.toQ := by
  rw [← not_lt, ← fracLt_iff a b ha hb]
  cases h : fracLt a b <;> simp

theorem negEpsLe_iff (q : Frac) (hq : 0 < q.den) :
    negEpsLe q = true ↔ karpEps ≤ q.toQ := by
  unfold negEpsLe karpEps Frac.toQ
  rw [decide_eq_true_eq,
    show -((1 : ℚ) / 100000000000) = (-1 : ℚ) / 100000000000 by ring,
    div_le_div_iff (by norm_num) (by exact_mod_cast hq)]
  constructor
  · intro h
    have h' : ((-(q.den : Int) : Int) : ℚ) ≤ ((q.num * 100000000000 : Int) : ℚ) := by
      exact_mod_cast h
    push_cast at h' ⊢
    linarith
  · intro h
    have h' : ((-(q.den : Int) : Int) : ℚ) ≤ ((q.num * 100000000000 : Int) : ℚ) := by
      push_cast
      linarith
    exact_mod_cast h'

theorem maLt_iff (a b : Option Frac)
    (ha : ∀ q, a = some q → 0 < q.den) (hb : ∀ q, b = some q → 0 < q.den) :
    maLt a b = true ↔ optFracQ a < optFracQ b := by
  cases a with
  | none =>
    cases b with
    | none => simp [maLt, optFracQ]
    | some q =>
      simp only [maLt, optFracQ]
      simpa using WithBot.bot_lt_coe (q.toQ)
  | some p =>
    cases b with
    | none =>
      simp only [maLt, optFracQ]
      constructor
      · intro h
        cases h
      · intro h
        exact absurd h (by simp)
    | some q =>
      simp only [maLt, optFracQ]
      rw [WithBot.coe_lt_coe]
      exact fracLt_iff p q (ha p rfl) (hb q rfl)

theorem maLt_false_iff (a b : Option Frac)
    (ha : ∀ q, a = some q → 0 < q.den) (hb : ∀ q, b = some q → 0 < q.den) :
    maLt a b = false ↔ optFracQ b ≤ optFracQ a := by
  rw [← not_lt, ← maLt_iff a b ha hb]
  cases h : maLt a b <;> simp

/-! ### The max-avg fold invariant -/

theorem avgQ_toQ (dnv dk : Int) (n k : Nat) :
    avgQ dnv dk n k = (⟨dnv - dk, n - k⟩ : Frac).toQ := rfl

theorem maxAvgFold_inv (nodes : List Nat) (arcs : List Arc) (n v : Nat)
    (dnv : Int) :
    ∀ j, j ≤ n →
      (((List.range j).foldl (maxAvgStep nodes arcs n v dnv) none = none) ↔
        ∀ k, k < j → (karpDP nodes arcs k).1 v = none) ∧
      (∀ q, (List.range j).foldl (maxAvgStep nodes arcs n v dnv) none = some q →
        0 < q.den ∧
        (∃ k, k < j ∧ ∃ dk, (karpDP nodes arcs k).1 v = some dk ∧
          q = ⟨dnv - dk, n - k⟩) ∧
        (∀ k, k < j → ∀ dk, (karpDP nodes arcs k).1 v = some dk →
          avgQ dnv dk n k ≤ q.toQ)) := by
  intro j
  induction j with
  | zero =>
    intro _
    constructor
    · constructor
      · intro _ k hk
        omega
      · intro _
        rfl
    · intro q h
      simp [List.range_zero] at h
  | succ j ih =>
    intro hj
    have hj' : j ≤ n := by omega
    obtain ⟨ih1, ih2⟩ := ih hj'
    rw [List.range_succ, List.foldl_append, List.foldl_cons, List.foldl_nil]
    cases hdp : (karpDP nodes arcs j).1 v with
    | none =>
      have hstep : maxAvgStep nodes arcs n v dnv
          ((List.range j).foldl (maxAvgStep nodes arcs n v dnv) none) j
          = (List.range j).foldl (maxAvgStep nodes arcs n v dnv) none := by
        simp [maxAvgStep, hdp]
      rw [hstep]
      constructor
      · rw [ih1]
        constructor
        · intro h k hk
          rcases Nat.lt_succ_iff_lt_or_eq.1 hk with hk | hk
          · exact h k hk
          · subst hk
            exact hdp
        · intro h k hk
          exact h k (by omega)
      · intro q hq
        obtain ⟨h0, ⟨k, hk, hex⟩, hbd⟩ := ih2 q hq
        refine ⟨h0, ⟨k, by omega, hex⟩, ?_⟩
        intro k' hk' dk hdk
        rcases Nat.lt_succ_iff_lt_or_eq.1 hk' with hk' | hk'
        · exact hbd k' hk' dk hdk
        · subst hk'
          rw [hdp] at hdk
          cases hdk
    | some dj =>
      have hjn : j < n := by omega
      have hdenp : (0 : Nat) < n - j := by omega
      cases hpv : (List.range j).foldl (maxAvgStep nodes arcs n v dnv) none with
      | none =>
        have hstep : maxAvgStep nodes arcs n v dnv none j
            = some ⟨dnv - dj, n - j⟩ := by
          simp [maxAvgStep, hdp]
        rw [hstep]
        constructor
        · constructor
          · intro h
            cases h
          · intro hall
            exact absurd hdp (by rw [hall j (by omega)]; simp)
        · intro q hq
          cases hq
          refine ⟨hdenp, ⟨j, by omega, dj, hdp, rfl⟩, ?_⟩
          intro k hk dk hdk
          rcases Nat.lt_succ_iff_lt_or_eq.1 hk with hk | hk
          · rw [ih1.1 hpv k hk] at hdk
            cases hdk
          · subst hk
            rw [hdp] at hdk
            cases hdk
            rw [avgQ_toQ]
      | some m =>
        obtain ⟨hm0, hmex, hmbd⟩ := ih2 m hpv
        by_cases hlt : fracLt m ⟨dnv - dj, n - j⟩ = true
        · have hstep : maxAvgStep nodes arcs n v dnv (some m) j
              = some ⟨dnv - dj, n - j⟩ := by
            simp [maxAvgStep, hdp, hlt]
          rw [hstep]
          constructor
          · constructor
            · intro h
              cases h
            · intro hall
              exact absurd hdp (by rw [hall j (by omega)]; simp)
          · intro q hq
            cases hq
            refine ⟨hdenp, ⟨j, by omega, dj, hdp, rfl⟩, ?_⟩
            intro k hk dk hdk
            have hmlt : m.toQ < (⟨dnv - dj, n - j⟩ : Frac).toQ :=
              (fracLt_iff m _ hm0 hdenp).1 hlt
            rcases Nat.lt_succ_iff_lt_or_eq.1 hk with hk | hk
            · exact le_trans (hmbd k hk dk hdk) (le_of_lt hmlt)
            · subst hk
              rw [hdp] at hdk
              cases hdk
              rw [avgQ_toQ]
        · have hlt' : fracLt m ⟨dnv - dj, n - j⟩ = false := by
            simpa using hlt
          have hstep : maxAvgStep nodes arcs n v dnv (some m) j
              = some m := by
            simp [maxAvgStep, hdp, hlt']
          rw [hstep]
          constructor
          · constructor
            · intro h
              cases h
            · intro hall
              exact absurd hdp (by rw [hall j (by omega)]; simp)
          · intro q hq
            cases hq
            obtain ⟨k, hk, hex⟩ := hmex
            refine ⟨hm0, ⟨k, by omega, hex⟩, ?_⟩
            intro k' hk' dk hdk
            rcases Nat.lt_succ_iff_lt_or_eq.1 hk' with hk' | hk'
            · exact hmbd k' hk' dk hdk
            · subst hk'
              rw [hdp] at hdk
              cases hdk
              rw [avgQ_toQ]
              exact (fracLt_false_iff m _ hm0 hdenp).1 hlt'

/-- Specialization to the full fold. -/
theorem maxAvgFold_spec (nodes : List Nat) (arcs : List Arc) (n v : Nat)
    (dnv : Int) :
    ((maxAvgFold nodes arcs n v dnv = none) ↔
      ∀ k, k < n → (karpDP nodes arcs k).1 v = none) ∧
    (∀ q, maxAvgFold nodes arcs n v dnv = some q →
      0 < q.den ∧
      (∃ k, k < n ∧ ∃ dk, (karpDP nodes arcs k).1 v = some dk ∧
        q = ⟨dnv - dk, n - k⟩) ∧
      (∀ k, k < n → ∀ dk, (karpDP nodes arcs k).1 v = some dk →
        avgQ dnv dk n k ≤ q.toQ)) :=
  maxAvgFold_inv nodes arcs n v dnv n (le_refl n)

theorem maxAvgFold_den (nodes : List Nat) (arcs : List Arc) (n v : Nat)
    (dnv : Int) :
    ∀ q, maxAvgFold nodes arcs n v dnv = some q → 0 < q.den :=
  fun q hq => ((maxAvgFold_spec nodes arcs n v dnv).2 q hq).1

/-! ### The mu fold invariant -/

theorem muFold_inv (nodes : List Nat) (arcs : List Arc) (n : Nat) :
    ∀ L : List Nat,
      ((L.foldl (muStep nodes arcs n) none = none) ↔
        ∀ v ∈ L, (karpDP nodes arcs n).1 v = none) ∧
      (∀ ma vs, L.foldl (muStep nodes arcs n) none = some (ma, vs) →
        vs ∈ L ∧ ∃ dnv, (karpDP nodes arcs n).1 vs = some dnv ∧
          ma = maxAvgFold nodes arcs n vs dnv ∧
          ∀ v ∈ L, ∀ dnv', (karpDP nodes arcs n).1 v = some dnv' →
            maLt (maxAvgFold nodes arcs n v dnv') ma = false) := by
  intro L
  induction L using List.reverseRecOn with
  | nil =>
    constructor
    · constructor
      · intro _ v hv
        simp at hv
      · intro _
        rfl
    · intro ma vs h
      simp at h
  | append_singleton L v ihL =>
    obtain ⟨ih1, ih2⟩ := ihL
    rw [List.foldl_append, List.foldl_cons, List.foldl_nil]
    cases hdp : (karpDP nodes arcs n).1 v with
    | none =>
      have hstep : muStep nodes arcs n
          (L.foldl (muStep nodes arcs n) none) v
          = L.foldl (muStep nodes arcs n) none := by
        simp [muStep, hdp]
      rw [hstep]
      constructor
      · rw [ih1]
        constructor
        · intro h v' hv'
          rcases List.mem_append.1 hv' with hv' | hv'
          · exact h v' hv'
          · rw [List.mem_singleton.1 hv']
            exact hdp
        · intro h v' hv'
          exact h v' (List.mem_append.2 (Or.inl hv'))
      · intro ma vs h
        obtain ⟨hmem, dnv, hdnv, hma, hbd⟩ := ih2 ma vs h
        refine ⟨List.mem_append.2 (Or.inl hmem), dnv, hdnv, hma, ?_⟩
        intro v' hv' dnv' hdnv'
        rcases List.mem_append.1 hv' with hv' | hv'
        · exact hbd v' hv' dnv' hdnv'
        · rw [List.mem_singleton.1 hv'] at hdnv'
          rw [hdp] at hdnv'
          cases hdnv'
    | some dnv =>
      cases hpv : L.foldl (muStep nodes arcs n) none with
      | none =>
        have hstep : muStep nodes arcs n none v
            = some (maxAvgFold nodes arcs n v dnv, v) := by
          simp [muStep, hdp]
        rw [hstep]
        constructor
        · constructor
          · intro h
            cases h
          · intro hall
            exact absurd hdp
              (by rw [hall v (List.mem_append.2 (Or.inr (by simp)))]; simp)
        · intro ma vs h
          cases h
          refine ⟨List.mem_append.2 (Or.inr (by simp)), dnv, hdp, rfl, ?_⟩
          intro v' hv' dnv' hdnv'
          rcases List.mem_append.1 hv' with hv' | hv'
          · rw [ih1.1 hpv v' hv'] at hdnv'
            cases hdnv'
          · have hv2 := List.mem_singleton.1 hv'
            rw [hv2] at hdnv' ⊢
            rw [hdp] at hdnv'
            cases hdnv'
            rw [maLt_false_iff _ _ (maxAvgFold_den nodes arcs n v dnv)
              (maxAvgFold_den nodes arcs n v dnv)]
      | some p =>
        obtain ⟨m, vs0⟩ := p
        obtain ⟨hmem, dnv0, hdnv0, hma0, hbd0⟩ := ih2 m vs0 hpv
        by_cases hlt : maLt (maxAvgFold nodes arcs n v dnv) m = true
        · have hstep : muStep nodes arcs n (some (m, vs0)) v
              = some (maxAvgFold nodes arcs n v dnv, v) := by
            simp [muStep, hdp, hlt]
          rw [hstep]
          constructor
          · constructor
            · intro h
              cases h
            · intro hall
              exact absurd hdp
                (by rw [hall v (List.mem_append.2 (Or.inr (by simp)))]; simp)
          · intro ma vs h
            cases h
            refine ⟨List.mem_append.2 (Or.inr (by simp)), dnv, hdp, rfl, ?_⟩
            intro v' hv' dnv' hdnv'
            have hdenv := maxAvgFold_den nodes arcs n v dnv
            have hdenv' := maxAvgFold_den nodes arcs n v' dnv'
            have hden0 : ∀ q, m = some q → 0 < q.den := by
              rw [hma0]
              exact maxAvgFold_den nodes arcs n vs0 dnv0
            rw [maLt_false_iff _ _ hdenv' hdenv]
            have h1 : optFracQ (maxAvgFold nodes arcs n v dnv) < optFracQ m :=
              (maLt_iff _ _ hdenv hden0).1 hlt
            rcases List.mem_append.1 hv' with hv' | hv'
            · have h2 : optFracQ m ≤ optFracQ (maxAvgFold nodes arcs n v' dnv') := by
                rw [← maLt_false_iff _ _ hdenv' hden0]
                exact hbd0 v' hv' dnv' hdnv'
              exact le_trans (le_of_lt h1) h2
            · have hv2 := List.mem_singleton.1 hv'
              rw [hv2] at hdnv' ⊢
              rw [hdp] at hdnv'
              cases hdnv'
              exact le_refl _
        · have hlt' : maLt (maxAvgFold nodes arcs n v dnv) m = false := by
            simpa using hlt
          have hstep : muStep nodes arcs n (some (m, vs0)) v
              = some (m, vs0) := by
            simp [muStep, hdp, hlt']
          rw [hstep]
          constructor
          · constructor
            · intro h
              cases h
            · intro hall
              exact absurd hdp
                (by rw [hall v (List.mem_append.2 (Or.inr (by simp)))]; simp)
          · intro ma vs h
            cases h
            refine ⟨List.mem_append.2 (Or.inl hmem), dnv0, hdnv0, hma0, ?_⟩
            intro v' hv' dnv' hdnv'
            rcases List.mem_append.1 hv' with hv' | hv'
            · exact hbd0 v' hv' dnv' hdnv'
            · have hv2 := List.mem_singleton.1 hv'
              rw [hv2] at hdnv' ⊢
              rw [hdp] at hdnv'
              cases hdnv'
              exact hlt'

/-! ### The Karp core computation -/

theorem karpCore_eq (nodes : List Nat) (arcs : List Arc) :
    karpCore nodes arcs =
      match muFold nodes arcs nodes.length with
      | none => KarpRes.noCycle
      | some (ma, vstar) =>
        if (match ma with | none => false | some q => negEpsLe q) then
          KarpRes.noCycle
        else
          match firstRepeatSeg []
              ((traceback (fun k => (karpDP nodes arcs k).2)
                nodes.length vstar).reverse) with
          | some seg => KarpRes.cycle seg
          | none => KarpRes.reconFail := rfl

theorem karpCore_mu_none (nodes : List Nat) (arcs : List Arc)
    (h : muFold nodes arcs nodes.length = none) :
    karpCore nodes arcs = KarpRes.noCycle := by
  rw [karpCore_eq, h]

theorem karpCore_eps_ok (nodes : List Nat) (arcs : List Arc) (q : Frac)
    (vstar : Nat)
    (h : muFold nodes arcs nodes.length = some (some q, vstar))
    (hg : negEpsLe q = true) :
    karpCore nodes arcs = KarpRes.noCycle := by
  simp [karpCore_eq, h, hg]

theorem karpCore_cycle_eq (nodes : List Nat) (arcs : List Arc) (q : Frac)
    (vstar : Nat) (seg : List Nat)
    (h : muFold nodes arcs nodes.length = some (some q, vstar))
    (hg : negEpsLe q = false)
    (hseg : firstRepeatSeg []
        ((traceback (fun k => (karpDP nodes arcs k).2)
          nodes.length vstar).reverse) = some seg) :
    karpCore nodes arcs = KarpRes.cycle seg := by
  simp [karpCore_eq, h, hg, hseg]

/-! ### Uniqueness of the claim-level quantities -/

theorem isMaxAvgAt_unique (nodes : List Nat) (arcs : List Arc) (n v : Nat)
    (dnv : Int) (q1 q2 : ℚ)
    (h1 : isMaxAvgAt nodes arcs n v dnv q1)
    (h2 : isMaxAvgAt nodes arcs n v dnv q2) : q1 = q2 := by
  obtain ⟨⟨k1, hk1, d1, hd1, hq1⟩, hb1⟩ := h1
  obtain ⟨⟨k2, hk2, d2, hd2, hq2⟩, hb2⟩ := h2
  apply le_antisymm
  · rw [hq1]
    exact hb2 k1 hk1 d1 hd1
  · rw [hq2]
    exact hb1 k2 hk2 d2 hd2

theorem isKarpMu_unique (nodes : List Nat) (arcs : List Arc) (n : Nat)
    (q1 q2 : ℚ) (h1 : isKarpMu nodes arcs n q1)
    (h2 : isKarpMu nodes arcs n q2) : q1 = q2 := by
  obtain ⟨⟨v1, hv1, d1, hd1, hm1⟩, hb1⟩ := h1
  obtain ⟨⟨v2, hv2, d2, hd2, hm2⟩, hb2⟩ := h2
  exact le_antisymm (hb1 v2 hv2 d2 hd2 q2 hm2) (hb2 v1 hv1 d1 hd1 q1 hm1)

/-! ### The fold outputs realize the claim-level quantities -/

theorem maxAvgFold_isMaxAvgAt (nodes : List Nat) (arcs : List Arc)
    (n v : Nat) (dnv : Int) (q : Frac)
    (h : maxAvgFold nodes arcs n v dnv = some q) :
    isMaxAvgAt nodes arcs n v dnv q.toQ := by
  obtain ⟨hden, ⟨k, hk, dk, hdk, hq⟩, hbd⟩ :=
    (maxAvgFold_spec nodes arcs n v dnv).2 q h
  exact ⟨⟨k, hk, dk, hdk, by rw [avgQ_toQ, hq]⟩, hbd⟩

theorem maxAvgFold_some_of_mem (nodes : List Nat) (arcs : List Arc)
    (n v : Nat) (dnv : Int) (hv : v ∈ nodes) (hn : 0 < n) :
    ∃ q, maxAvgFold nodes arcs n v dnv = some q := by
  cases hma : maxAvgFold nodes arcs n v dnv with
  | some q => exact ⟨q, rfl⟩
  | none =>
    have h0 := (maxAvgFold_spec nodes arcs n v dnv).1.1 hma 0 hn
    rw [karpDP_zero, if_pos hv] at h0
    cases h0

/-- A successful outer fold always carries a finite best average, and that
average is exactly Karp's `μ` of the claim's formula. -/
theorem muFold_core (nodes : List Nat) (arcs : List Arc) (ma : Option Frac)
    (vstar : Nat)
    (h : muFold nodes arcs nodes.length = some (ma, vstar)) :
    ∃ q dnv, ma = some q ∧ 0 < q.den ∧ vstar ∈ nodes ∧
      (karpDP nodes arcs nodes.length).1 vstar = some dnv ∧
      maxAvgFold nodes arcs nodes.length vstar dnv = some q ∧
      isKarpMu nodes arcs nodes.length q.toQ := by
  obtain ⟨hmem, dnv, hdnv, hma, hbd⟩ :=
    (muFold_inv nodes arcs nodes.length nodes).2 ma vstar h
  have hn : 0 < nodes.length := List.length_pos_of_mem hmem
  obtain ⟨q, hq⟩ :=
    maxAvgFold_some_of_mem nodes arcs nodes.length vstar dnv hmem hn
  have hmaq : ma = some q := by rw [hma, hq]
  have hden : 0 < q.den := maxAvgFold_den nodes arcs nodes.length vstar dnv q hq
  refine ⟨q, dnv, hmaq, hden, hmem, hdnv, hq, ?_, ?_⟩
  · exact ⟨vstar, hmem, dnv, hdnv,
      maxAvgFold_isMaxAvgAt nodes arcs nodes.length vstar dnv q hq⟩
  · intro v hv dnv' hdnv' r hr
    obtain ⟨q', hq'⟩ :=
      maxAvgFold_some_of_mem nodes arcs nodes.length v dnv' hv hn
    have hr' : r = q'.toQ :=
      isMaxAvgAt_unique nodes arcs nodes.length v dnv' r q'.toQ hr
        (maxAvgFold_isMaxAvgAt nodes arcs nodes.length v dnv' q' hq')
    have hlt := hbd v hv dnv' hdnv'
    rw [hmaq] at hlt
    have hle : optFracQ (some q) ≤
        optFracQ (maxAvgFold nodes arcs nodes.length v dnv') := by
      rw [← maLt_false_iff _ _ (maxAvgFold_den nodes arcs nodes.length v dnv')
        (fun p hp => by cases hp; exact hden)]
      exact hlt
    rw [hq'] at hle
    have hle' : (q.toQ : WithBot ℚ) ≤ (q'.toQ : WithBot ℚ) := hle
    rw [hr']
    exact WithBot.coe_le_coe.1 hle'

/-- A cycle returned by the Karp core is the first-repeat segment of a
traceback it can realize: closed with a duplicate-free interior, and every
consecutive pair is carried by an arc. -/
theorem karpCore_cycle_shape (nodes : List Nat) (arcs : List Arc)
    (c : List Nat) (h : karpCore nodes arcs = KarpRes.cycle c) :
    ∃ x mid, c = (x :: mid) ++ [x] ∧ (x :: mid).Nodup ∧ IsChain arcs c := by
  cases hmu : muFold nodes arcs nodes.length with
  | none =>
    rw [karpCore_mu_none nodes arcs hmu] at h
    simp at h
  | some p =>
    obtain ⟨ma, vstar⟩ := p
    obtain ⟨q, dnv, hmaq, hden, hmem, hdnv, hq, hmuQ⟩ :=
      muFold_core nodes arcs ma vstar hmu
    subst hmaq
    by_cases hg : negEpsLe q = true
    · rw [karpCore_eps_ok nodes arcs q vstar hmu hg] at h
      simp at h
    · have hg' : negEpsLe q = false := by simpa using hg
      cases hseg : firstRepeatSeg []
          ((traceback (fun k => (karpDP nodes arcs k).2)
            nodes.length vstar).reverse) with
      | none =>
        rw [karpCore_eq, hmu] at h
        simp [hg', hseg] at h
      | some seg =>
        rw [karpCore_cycle_eq nodes arcs q vstar seg hmu hg' hseg] at h
        injection h with hcs
        subst hcs
        obtain ⟨x, mid, hshape, hnd, hpairs⟩ :=
          frs_spec _ [] seg List.nodup_nil hseg
        have hchain : IsChain arcs
            ((traceback (fun k => (karpDP nodes arcs k).2)
              nodes.length vstar).reverse) :=
          layerChain_chain nodes arcs _ nodes.length vstar dnv
            (layerChain_of_dp nodes arcs nodes.length vstar dnv hdnv)
        refine ⟨x, mid, hshape, hnd, ?_⟩
        intro p hp
        exact hchain p (by simpa using hpairs p hp)

/-- **C10**: Whenever `find_minimum_mean_negative_cycle` returns a cycle
rather than signalling "no negative cycle", the returned node sequence is a
closed walk in its input graph: it has at least two entries, its first node
equals its last node, and every consecutive pair of nodes is carried by an
arc of the graph. -/
theorem c10_cycle_is_closed_walk (nodes : List Nat) (arcs : List Arc)
    (c : List Nat) (h : karpCore nodes arcs = KarpRes.cycle c) :
    2 ≤ c.length ∧ c.head? = c.getLast? ∧
      ∀ p ∈ pairsOf c, ∃ a ∈ arcs, a.au = p.1 ∧ a.av = p.2 := by
  obtain ⟨x, mid, hshape, hnd, hchain⟩ := karpCore_cycle_shape nodes arcs c h
  refine ⟨?_, ?_, hchain⟩
  · rw [hshape]
    simp only [List.length_append, List.length_cons, List.length_nil]
    omega
  · rw [hshape, List.getLast?_concat]
    rfl

/-- **C10 witness**: on the residual graph of `graph2` at its max flow, the
detector returns the closed walk `[3, 1, 2, 3]`. -/
theorem c10_witness :
    2 ≤ ([3, 1, 2, 3] : List Nat).length ∧
      ([3, 1, 2, 3] : List Nat).head? = ([3, 1, 2, 3] : List Nat).getLast? ∧
      ∀ p ∈ pairsOf [3, 1, 2, 3], ∃ a ∈ karpWArcs, a.au = p.1 ∧ a.av = p.2 :=
  c10_cycle_is_closed_walk karpWNodes karpWArcs [3, 1, 2, 3] (by decide)

/-- **C6**: The Karp detector's dp table is exactly the minimum-walk-cost
table (`dp[k][v]` is the least cost of a `k`-edge walk ending at `v`,
starting anywhere at cost 0); it reports "no negative cycle" exactly when
no node is reachable by a walk of length `n = |V|` or the minimum over
nodes of the maximum average `(dp[n][v]-dp[k][v])/(n-k)` is at least
`-1e-11`; otherwise it returns a cycle (on a duplicate-free node list whose
arcs stay inside it, reconstruction never fails). -/
theorem c6_karp_detector_spec (nodes : List Nat) (arcs : List Arc)
    (hnd : nodes.Nodup) (harc : ∀ a ∈ arcs, a.au ∈ nodes ∧ a.av ∈ nodes) :
    (∀ k v d, (karpDP nodes arcs k).1 v = some d ↔
      dpIsMinWalk nodes arcs k v d) ∧
    ((karpCore nodes arcs = KarpRes.noCycle) ↔
      ((∀ v ∈ nodes, ¬∃ c, EndWalk nodes arcs nodes.length v c) ∨
        (∃ q, isKarpMu nodes arcs nodes.length q ∧ karpEps ≤ q))) ∧
    ((karpCore nodes arcs = KarpRes.noCycle) ∨
      ∃ c, karpCore nodes arcs = KarpRes.cycle c) := by
  refine ⟨fun k v d => karpDP_iff_minwalk nodes arcs k v d, ?_⟩
  cases hmu : muFold nodes arcs nodes.length with
  | none =>
    have hcore := karpCore_mu_none nodes arcs hmu
    have hnone : ∀ v ∈ nodes, ¬∃ c, EndWalk nodes arcs nodes.length v c := by
      intro v hv
      rw [← karpDP_none_iff]
      exact ((muFold_inv nodes arcs nodes.length nodes).1.1 hmu) v hv
    exact ⟨⟨fun _ => Or.inl hnone, fun _ => hcore⟩, Or.inl hcore⟩
  | some p =>
    obtain ⟨ma, vstar⟩ := p
    obtain ⟨q, dnv, hmaq, hden, hmem, hdnv, hq, hmuQ⟩ :=
      muFold_core nodes arcs ma vstar hmu
    subst hmaq
    have hnoleft : ¬(∀ v ∈ nodes, ¬∃ c, EndWalk nodes arcs nodes.length v c) :=
      fun hall => hall vstar hmem
        ⟨dnv, karpDP_walk nodes arcs nodes.length vstar dnv hdnv⟩
    by_cases hg : negEpsLe q = true
    · have hcore := karpCore_eps_ok nodes arcs q vstar hmu hg
      have heps : karpEps ≤ q.toQ := (negEpsLe_iff q hden).1 hg
      exact ⟨⟨fun _ => Or.inr ⟨q.toQ, hmuQ, heps⟩, fun _ => hcore⟩,
        Or.inl hcore⟩
    · have hg' : negEpsLe q = false := by simpa using hg
      have hlc := layerChain_of_dp nodes arcs nodes.length vstar dnv hdnv
      have hlen := layerChain_length nodes arcs _ nodes.length vstar dnv hlc
      have hmemL := layerChain_mem nodes arcs harc _ nodes.length vstar dnv hlc
      have hnotnd : ¬((traceback (fun j => (karpDP nodes arcs j).2)
          nodes.length vstar).reverse).Nodup :=
        not_nodup_of_long _ nodes hmemL hnd (by omega)
      cases hseg : firstRepeatSeg []
          ((traceback (fun j => (karpDP nodes arcs j).2)
            nodes.length vstar).reverse) with
      | none =>
        exact absurd (by simpa using frs_none_nodup _ [] List.nodup_nil hseg)
          hnotnd
      | some seg =>
        have hcore := karpCore_cycle_eq nodes arcs q vstar seg hmu hg' hseg
        refine ⟨⟨?_, ?_⟩, Or.inr ⟨seg, hcore⟩⟩
        · intro hc
          rw [hcore] at hc
          exact absurd hc (by simp)
        · intro hr
          rcases hr with hl | ⟨q', hq', heps'⟩
          · exact absurd hl hnoleft
          · have hq'' : q' = q.toQ :=
              isKarpMu_unique nodes arcs nodes.length q' q.toQ hq' hmuQ
            rw [hq'', ← negEpsLe_iff q hden, hg'] at heps'
            simp at heps'

/-- **C6 witness**: the detector's outcome on the residual graph of
`graph2` at its max flow, with its duplicate-free node order. -/
theorem c6_witness :
    (karpCore karpWNodes karpWArcs = KarpRes.noCycle) ∨
      ∃ c, karpCore karpWNodes karpWArcs = KarpRes.cycle c :=
  (c6_karp_detector_spec karpWNodes karpWArcs (by decide) (by decide)).2.2

/-! ### Pointwise flow updates and their effect on the aggregates -/

theorem updFlow_same (f : Flow) (u v : Nat) (x : Int) :
    updFlow f u v x u v = x := by
  show (if u = u ∧ v = v then x else f u v) = x
  simp

theorem updFlow_other (f : Flow) (u v : Nat) (x : Int) (a b : Nat)
    (h : ¬(a = u ∧ b = v)) : updFlow f u v x a b = f a b := by
  show (if a = u ∧ b = v then x else f a b) = f a b
  rw [if_neg h]

theorem sum_map_updFlow (f : Flow) (u v : Nat) (x : Int) :
    ∀ L : List BaseEdge,
      (L.map (fun e => updFlow f u v x e.eu e.ev)).sum
        = (L.map (fun e => f e.eu e.ev)).sum
          + (L.countP (fun e => e.eu == u && e.ev == v) : Int) * (x - f u v) := by
  intro L
  induction L with
  | nil => simp
  | cons e L ih =>
    rw [List.map_cons, List.sum_cons, List.map_cons, List.sum_cons, ih]
    by_cases h : e.eu = u ∧ e.ev = v
    · have hb : (e.eu == u && e.ev == v) = true := by
        simp [h.1, h.2]
      rw [List.countP_cons_of_pos _ _ (by exact hb)]
      have hupd : updFlow f u v x e.eu e.ev = x := by
        show (if e.eu = u ∧ e.ev = v then x else f e.eu e.ev) = x
        rw [if_pos h]
      have hfe : f e.eu e.ev = f u v := by rw [h.1, h.2]
      rw [hupd, hfe]
      push_cast
      ring
    · have hb : (e.eu == u && e.ev == v) = false := by
        simpa using h
      rw [List.countP_cons_of_neg _ _ (by simp [hb])]
      have hupd : updFlow f u v x e.eu e.ev = f e.eu e.ev :=
        updFlow_other f u v x e.eu e.ev h
      rw [hupd]
      ring

theorem countP_pair_simple (u v : Nat) :
    ∀ G : List BaseEdge, SimpleDigraph G → hasBase G u v = true →
      G.countP (fun e => e.eu == u && e.ev == v) = 1 := by
  intro G
  induction G with
  | nil =>
    intro _ h
    simp [hasBase] at h
  | cons e L ih =>
    intro hS hb
    rw [List.countP_cons]
    by_cases h : e.eu = u ∧ e.ev = v
    · have hzero : L.countP (fun e => e.eu == u && e.ev == v) = 0 := by
        rw [List.countP_eq_zero]
        intro a ha
        have hpw := (List.pairwise_cons.1 hS).1 a ha
        simp only [Bool.and_eq_true, beq_iff_eq, not_and]
        intro hc1 hc2
        exact hpw ⟨h.1.trans hc1.symm, h.2.trans hc2.symm⟩
      rw [hzero]
      simp [h.1, h.2]
    · have hb' : hasBase L u v = true := by
        have hfalse : (e.eu == u && e.ev == v) = false := by simpa using h
        simpa [hasBase, hfalse] using hb
      rw [ih (List.Pairwise.of_cons hS) hb']
      have hfalse : (e.eu == u && e.ev == v) = false := by simpa using h
      simp [hfalse]

theorem findBase_uniq (G : List BaseEdge) (hS : SimpleDigraph G) (e : BaseEdge)
    (he : e ∈ G) : G.find? (fun b => b.eu == e.eu && b.ev == e.ev) = some e := by
  induction G with
  | nil => simp at he
  | cons b G' ih =>
    have hpw := List.pairwise_cons.1 hS
    rcases List.mem_cons.1 he with h | h
    · subst h
      rw [List.find?_cons_of_pos]
      simp
    · have hne : ¬(b.eu = e.eu ∧ b.ev = e.ev) := hpw.1 e h
      rw [List.find?_cons_of_neg]
      · exact ih hpw.2 h
      · simpa using hne

theorem hasBase_of_mem (G : List BaseEdge) (e : BaseEdge) (he : e ∈ G) :
    hasBase G e.eu e.ev = true := by
  simp only [hasBase, List.any_eq_true]
  exact ⟨e, he, by simp⟩

theorem baseW_of_mem (G : List BaseEdge) (hS : SimpleDigraph G) (e : BaseEdge)
    (he : e ∈ G) : baseW G e.eu e.ev = e.cw := by
  unfold baseW
  rw [findBase_uniq G hS e he]

theorem outFlow_updFlow (G : List BaseEdge) (hS : SimpleDigraph G)
    (u v : Nat) (hbase : hasBase G u v = true) (x : Int) (f : Flow) (z : Nat) :
    outFlow G (updFlow f u v x) z
      = outFlow G f z + (if z = u then x - f u v else 0) := by
  unfold outFlow
  rw [sum_map_updFlow]
  rcases em (z = u) with hz | hz
  · subst hz
    rw [if_pos rfl]
    have hcnt : (G.filter (fun e => e.eu = z)).countP
        (fun e => e.eu == z && e.ev == v) = 1 := by
      rw [List.countP_filter]
      rw [show (fun e : BaseEdge => (e.eu == z && e.ev == v) && decide (e.eu = z))
          = (fun e : BaseEdge => e.eu == z && e.ev == v) from ?_]
      · exact countP_pair_simple z v G hS hbase
      · funext e
        by_cases h : e.eu = z <;> simp [h]
    rw [hcnt]
    push_cast
    ring
  · rw [if_neg hz]
    have hcnt : (G.filter (fun e => e.eu = z)).countP
        (fun e => e.eu == u && e.ev == v) = 0 := by
      rw [List.countP_eq_zero]
      intro a ha
      have haz : a.eu = z := by
        have := List.of_mem_filter ha
        simpa using this
      simp only [Bool.and_eq_true, beq_iff_eq, not_and]
      intro hc1 _
      exact hz (by omega)
    rw [hcnt]
    push_cast
    ring

theorem inFlow_updFlow (G : List BaseEdge) (hS : SimpleDigraph G)
    (u v : Nat) (hbase : hasBase G u v = true) (x : Int) (f : Flow) (z : Nat) :
    inFlow G (updFlow f u v x) z
      = inFlow G f z + (if z = v then x - f u v else 0) := by
  unfold inFlow
  rw [sum_map_updFlow]
  rcases em (z = v) with hz | hz
  · subst hz
    rw [if_pos rfl]
    have hcnt : (G.filter (fun e => e.ev = z)).countP
        (fun e => e.eu == u && e.ev == z) = 1 := by
      rw [List.countP_filter]
      rw [show (fun e : BaseEdge => (e.eu == u && e.ev == z) && decide (e.ev = z))
          = (fun e : BaseEdge => e.eu == u && e.ev == z) from ?_]
      · exact countP_pair_simple u z G hS hbase
      · funext e
        by_cases h : e.ev = z <;> simp [h]
    rw [hcnt]
    push_cast
    ring
  · rw [if_neg hz]
    have hcnt : (G.filter (fun e => e.ev = z)).countP
        (fun e => e.eu == u && e.ev == v) = 0 := by
      rw [List.countP_eq_zero]
      intro a ha
      have haz : a.ev = z := by
        have := List.of_mem_filter ha
        simpa using this
      simp only [Bool.and_eq_true, beq_iff_eq, not_and]
      intro _ hc2
      exact hz (by omega)
    rw [hcnt]
    push_cast
    ring

theorem flowValue_updFlow (G : List BaseEdge) (hS : SimpleDigraph G)
    (u v : Nat) (hbase : hasBase G u v = true) (x : Int) (f : Flow) (z : Nat) :
    flowValue G (updFlow f u v x) z
      = flowValue G f z + (if z = u then x - f u v else 0)
        - (if z = v then x - f u v else 0) := by
  unfold flowValue
  rw [outFlow_updFlow G hS u v hbase x f z, inFlow_updFlow G hS u v hbase x f z]
  ring

theorem baseW_cons_pos (u v : Nat) (e : BaseEdge) (L : List BaseEdge)
    (h : e.eu = u ∧ e.ev = v) : baseW (e :: L) u v = e.cw := by
  unfold baseW
  rw [List.find?_cons_of_pos]
  simp [h.1, h.2]

theorem baseW_cons_neg (u v : Nat) (e : BaseEdge) (L : List BaseEdge)
    (h : ¬(e.eu = u ∧ e.ev = v)) : baseW (e :: L) u v = baseW L u v := by
  unfold baseW
  rw [List.find?_cons_of_neg]
  simpa using h

theorem totalCostAll_updFlow (u v : Nat) (x : Int) (f : Flow) :
    ∀ G : List BaseEdge, SimpleDigraph G → hasBase G u v = true →
      totalCostAll G (updFlow f u v x)
        = totalCostAll G f + (x - f u v) * baseW G u v := by
  intro G
  induction G with
  | nil =>
    intro _ h
    simp [hasBase] at h
  | cons e L ih =>
    intro hS hb
    unfold totalCostAll
    rw [List.map_cons, List.sum_cons, List.map_cons, List.sum_cons]
    by_cases h : e.eu = u ∧ e.ev = v
    · rw [baseW_cons_pos u v e L h]
      have hupd : updFlow f u v x e.eu e.ev = x := by
        show (if e.eu = u ∧ e.ev = v then x else f e.eu e.ev) = x
        rw [if_pos h]
      have hrest : (L.map (fun e => updFlow f u v x e.eu e.ev * e.cw)).sum
          = (L.map (fun e => f e.eu e.ev * e.cw)).sum := by
        apply congrArg List.sum
        apply List.map_congr_left
        intro a ha
        have hpw := (List.pairwise_cons.1 hS).1 a ha
        have hne : ¬(a.eu = u ∧ a.ev = v) := by
          intro hc
          exact hpw ⟨h.1.trans hc.1.symm, h.2.trans hc.2.symm⟩
        rw [updFlow_other f u v x a.eu a.ev hne]
      rw [hupd, hrest]
      have hfe : f e.eu e.ev = f u v := by rw [h.1, h.2]
      rw [hfe]
      ring
    · rw [baseW_cons_neg u v e L h]
      have hmatch : (e.eu == u && e.ev == v) = false := by simpa using h
      have hb' : hasBase L u v = true := by
        simpa [hasBase, hmatch] using hb
      have hupd : updFlow f u v x e.eu e.ev = f e.eu e.ev :=
        updFlow_other f u v x e.eu e.ev h
      rw [hupd]
      have hih := ih (List.Pairwise.of_cons hS) hb'
      unfold totalCostAll at hih
      rw [hih]
      ring

theorem totalCost_eq_all (G : List BaseEdge) (f : Flow)
    (h : ∀ e ∈ G, 0 ≤ f e.eu e.ev) : totalCost G f = totalCostAll G f := by
  unfold totalCost totalCostAll
  induction G with
  | nil => rfl
  | cons e L ih =>
    rw [List.map_cons, List.sum_cons, List.map_cons, List.sum_cons,
      ih (fun a ha => h a (List.mem_cons_of_mem e ha))]
    have he := h e (List.mem_cons_self e L)
    rcases lt_or_eq_of_le he with h1 | h1
    · rw [if_pos h1]
    · rw [if_neg (by omega), ← h1]
      ring

theorem totalCostAll_nonneg (G : List BaseEdge) (f : Flow)
    (hcap : CapOK G f) (hw : ∀ e ∈ G, 0 ≤ e.cw) : 0 ≤ totalCostAll G f := by
  unfold totalCostAll
  induction G with
  | nil => simp
  | cons e L ih =>
    rw [List.map_cons, List.sum_cons]
    have h1 := (hcap e (List.mem_cons_self e L)).1
    have h2 := hw e (List.mem_cons_self e L)
    have h3 := ih (fun a ha => hcap a (List.mem_cons_of_mem e ha))
      (fun a ha => hw a (List.mem_cons_of_mem e ha))
    have h4 : 0 ≤ f e.eu e.ev * e.cw := mul_nonneg h1 h2
    omega

/-! ### The MM residual builder on clean inputs -/

theorem findArc?_eq_none_of (R : List Arc) (x y : Nat)
    (h : ∀ a ∈ R, ¬(a.au = x ∧ a.av = y)) : findArc? R x y = none := by
  unfold findArc?
  rw [List.find?_eq_none]
  intro a ha
  simpa using h a ha

theorem updateArcs_not_has (R : List Arc) (a : Arc)
    (h : ∀ b ∈ R, ¬(b.au = a.au ∧ b.av = a.av)) : updateArcs R a = R ++ [a] := by
  unfold updateArcs
  have hany : (R.any fun b => b.au == a.au && b.av == a.av) = false := by
    rw [List.any_eq_false]
    intro b hb
    simpa using h b hb
  rw [hany]
  simp

theorem genMulti_pair (f : Flow) (e : BaseEdge) (a : Arc)
    (h : a ∈ genMulti f e) :
    (a.au = e.eu ∧ a.av = e.ev) ∨ (a.au = e.ev ∧ a.av = e.eu) := by
  unfold genMulti at h
  rcases List.mem_append.1 h with h | h <;> split_ifs at h <;> simp at h <;>
    simp [h]

theorem mmBwdPart_arcs (R : RGraph) (e : BaseEdge) (fl : Int)
    (hno : 0 < fl → ∀ b ∈ R.arcs, ¬(b.au = e.ev ∧ b.av = e.eu)) :
    (mmBwdPart R e fl).arcs =
      R.arcs ++ (if 0 < fl then [⟨e.ev, e.eu, -e.cw, fl, ArcTy.bwd⟩] else []) := by
  unfold mmBwdPart
  by_cases h0 : 0 < fl
  · rw [if_pos h0, if_pos h0]
    have hfind : findArc? R.arcs e.ev e.eu = none :=
      findArc?_eq_none_of R.arcs e.ev e.eu (hno h0)
    rw [hfind]
    show updateArcs R.arcs _ = _
    exact updateArcs_not_has R.arcs _ (hno h0)
  · rw [if_neg h0, if_neg h0]
    simp

theorem mmResStep_arcs (f : Flow) (R : RGraph) (e : BaseEdge)
    (h : ∀ a ∈ genMulti f e, ∀ b ∈ R.arcs, ¬(b.au = a.au ∧ b.av = a.av))
    (hne : e.eu ≠ e.ev) :
    (mmResStep f R e).arcs = R.arcs ++ genMulti f e := by
  have hfwd : f e.eu e.ev < e.cap →
      ∀ b ∈ R.arcs, ¬(b.au = e.eu ∧ b.av = e.ev) := by
    intro h1 b hb
    exact h ⟨e.eu, e.ev, e.cw, e.cap - f e.eu e.ev, ArcTy.fwd⟩
      (by simp [genMulti, h1]) b hb
  have hbwd : 0 < f e.eu e.ev →
      ∀ b ∈ R.arcs, ¬(b.au = e.ev ∧ b.av = e.eu) := by
    intro h2 b hb
    exact h ⟨e.ev, e.eu, -e.cw, f e.eu e.ev, ArcTy.bwd⟩
      (by simp [genMulti, h2]) b hb
  unfold mmResStep
  dsimp only []
  by_cases h1 : f e.eu e.ev < e.cap
  · have hfind : findArc? R.arcs e.eu e.ev = none :=
      findArc?_eq_none_of R.arcs e.eu e.ev (hfwd h1)
    rw [if_pos h1, hfind]
    show (mmBwdPart
        (if f e.eu e.ev < e.cap then
          rgAdd R ⟨e.eu, e.ev, e.cw, e.cap - f e.eu e.ev, ArcTy.fwd⟩ else R)
        e (f e.eu e.ev)).arcs = _
    rw [if_pos h1]
    have hR1 : (rgAdd R ⟨e.eu, e.ev, e.cw, e.cap - f e.eu e.ev, ArcTy.fwd⟩).arcs
        = R.arcs ++ [⟨e.eu, e.ev, e.cw, e.cap - f e.eu e.ev, ArcTy.fwd⟩] :=
      updateArcs_not_has R.arcs _ (hfwd h1)
    rw [mmBwdPart_arcs _ e (f e.eu e.ev) ?_, hR1]
    · unfold genMulti
      rw [if_pos h1, List.append_assoc]
    · intro h2 b hb
      rw [hR1] at hb
      rcases List.mem_append.1 hb with hb | hb
      · exact hbwd h2 b hb
      · rw [List.mem_singleton.1 hb]
        intro hc
        exact hne (by simpa using hc.1)
  · rw [if_neg h1]
    show (mmBwdPart
        (if f e.eu e.ev < e.cap then
          rgAdd R ⟨e.eu, e.ev, e.cw, e.cap - f e.eu e.ev, ArcTy.fwd⟩ else R)
        e (f e.eu e.ev)).arcs = _
    rw [if_neg h1]
    rw [mmBwdPart_arcs R e (f e.eu e.ev) hbwd]
    unfold genMulti
    rw [if_neg h1]
    simp

theorem mmfold_arcs (f : Flow) :
    ∀ (L : List BaseEdge) (R : RGraph),
      (∀ e ∈ L, ∀ a ∈ genMulti f e, ∀ b ∈ R.arcs,
        ¬(b.au = a.au ∧ b.av = a.av)) →
      List.Pairwise (fun e e' => ∀ a ∈ genMulti f e, ∀ b ∈ genMulti f e',
        ¬(b.au = a.au ∧ b.av = a.av)) L →
      (∀ e ∈ L, e.eu ≠ e.ev) →
      (L.foldl (mmResStep f) R).arcs = R.arcs ++ L.flatMap (genMulti f)
  | [], R => by
    intro _ _ _
    simp
  | e :: L, R => by
    intro hR hP hne
    have hstep : (mmResStep f R e).arcs = R.arcs ++ genMulti f e :=
      mmResStep_arcs f R e (fun a ha => hR e (by simp) a ha) (hne e (by simp))
    have hR' : ∀ e' ∈ L, ∀ a ∈ genMulti f e', ∀ b ∈ (mmResStep f R e).arcs,
        ¬(b.au = a.au ∧ b.av = a.av) := by
      intro e' he' a ha b hb
      rw [hstep] at hb
      rcases List.mem_append.1 hb with hb | hb
      · exact hR e' (by simp [he']) a ha b hb
      · exact fun hc => (List.pairwise_cons.1 hP).1 e' he' b hb a ha
          ⟨hc.1.symm, hc.2.symm⟩
    have hrec := mmfold_arcs f L (mmResStep f R e) hR'
      (List.Pairwise.of_cons hP) (fun e' he' => hne e' (by simp [he']))
    rw [List.foldl_cons, hrec, hstep, List.flatMap_cons, List.append_assoc]

theorem mmResidual_rule (G : List BaseEdge) (f : Flow)
    (hS : SimpleDigraph G) (hA : NoAntiParallel G) :
    (buildResidualMM G f).arcs = G.flatMap (genMulti f) := by
  unfold buildResidualMM
  have hp : List.Pairwise (fun e e' => ∀ a ∈ genMulti f e, ∀ b ∈ genMulti f e',
      ¬(b.au = a.au ∧ b.av = a.av)) G := by
    refine List.Pairwise.imp_of_mem ?_ hS
    intro e e' he he' hss a ha b hb hEq
    rcases genMulti_pair f e a ha with ⟨ha1, ha2⟩ | ⟨ha1, ha2⟩ <;>
      rcases genMulti_pair f e' b hb with ⟨hb1, hb2⟩ | ⟨hb1, hb2⟩
    · exact hss ⟨by rw [← ha1, ← hEq.1, hb1], by rw [← ha2, ← hEq.2, hb2]⟩
    · exact hA e he e' he'
        ⟨by rw [← ha1, ← hEq.1, hb1], by rw [← ha2, ← hEq.2, hb2]⟩
    · exact hA e' he' e he
        ⟨by rw [← hb1, hEq.1, ha1], by rw [← hb2, hEq.2, ha2]⟩
    · exact hss ⟨by rw [← ha2, ← hEq.2, hb2], by rw [← ha1, ← hEq.1, hb1]⟩
  have h0 : ∀ e ∈ G, ∀ a ∈ genMulti f e, ∀ b ∈ ([] : List Arc),
      ¬(b.au = a.au ∧ b.av = a.av) := by
    intro e _ a _ b hb
    simp at hb
  have hn : ∀ e ∈ G, e.eu ≠ e.ev := by
    intro e he h
    exact hA e he e he ⟨h, h.symm⟩
  rw [mmfold_arcs f G ⟨[], []⟩ h0 hp hn]
  rfl

theorem rgAdd_arcs (R : RGraph) (a : Arc) :
    (rgAdd R a).arcs = updateArcs R.arcs a := rfl

theorem updateArcs_sub (R : List Arc) (a : Arc) :
    ∀ b ∈ updateArcs R a, b ∈ R ∨ b = a := by
  intro b hb
  unfold updateArcs at hb
  by_cases hany : (R.any fun c => c.au == a.au && c.av == a.av) = true
  · rw [hany] at hb
    simp only [if_true] at hb
    obtain ⟨c, hc, hcb⟩ := List.mem_map.1 hb
    by_cases hcc : (c.au == a.au && c.av == a.av) = true
    · rw [if_pos hcc] at hcb
      exact Or.inr hcb.symm
    · rw [if_neg hcc] at hcb
      rw [← hcb]
      exact Or.inl hc
  · have hany' : (R.any fun c => c.au == a.au && c.av == a.av) = false := by
      simpa using hany
    rw [hany'] at hb
    simp only [Bool.false_eq_true, if_false] at hb
    rcases List.mem_append.1 hb with h | h
    · exact Or.inl h
    · exact Or.inr (List.mem_singleton.1 h)

theorem mmBwdPart_sub (R : RGraph) (e : BaseEdge) (fl : Int) :
    ∀ b ∈ (mmBwdPart R e fl).arcs,
      b ∈ R.arcs ∨ (0 < fl ∧ b = ⟨e.ev, e.eu, -e.cw, fl, ArcTy.bwd⟩) := by
  intro b hb
  unfold mmBwdPart at hb
  by_cases h0 : 0 < fl
  · rw [if_pos h0] at hb
    dsimp only [] at hb
    cases hfa : findArc? R.arcs e.ev e.eu with
    | none =>
      rw [hfa] at hb
      dsimp only [] at hb
      rw [rgAdd_arcs] at hb
      rcases updateArcs_sub R.arcs _ b hb with h | h
      · exact Or.inl h
      · exact Or.inr ⟨h0, h⟩
    | some a0 =>
      rw [hfa] at hb
      dsimp only [] at hb
      by_cases hty : a0.ty = ArcTy.fwd
      · rw [if_pos hty] at hb
        rw [rgAdd_arcs] at hb
        rcases updateArcs_sub (rgRemove R e.ev e.eu).arcs _ b hb with h | h
        · exact Or.inl (List.mem_of_mem_filter h)
        · exact Or.inr ⟨h0, h⟩
      · rw [if_neg hty] at hb
        rw [rgAdd_arcs] at hb
        rcases updateArcs_sub R.arcs _ b hb with h | h
        · exact Or.inl h
        · exact Or.inr ⟨h0, h⟩
  · rw [if_neg h0] at hb
    exact Or.inl hb

theorem mmResStep_sub (f : Flow) (R : RGraph) (e : BaseEdge) :
    ∀ b ∈ (mmResStep f R e).arcs, b ∈ R.arcs ∨ b ∈ genMulti f e := by
  intro b hb
  unfold mmResStep at hb
  dsimp only [] at hb
  cases hsc : (if f e.eu e.ev < e.cap then findArc? R.arcs e.eu e.ev
      else none) with
  | some a0 =>
    rw [hsc] at hb
    dsimp only [] at hb
    by_cases hty : a0.ty = ArcTy.bwd
    · rw [if_pos hty] at hb
      exact Or.inl hb
    · rw [if_neg hty] at hb
      rcases mmBwdPart_sub R e (f e.eu e.ev) b hb with h | ⟨h0, hbe⟩
      · exact Or.inl h
      · exact Or.inr (by rw [hbe]; simp [genMulti, h0])
  | none =>
    rw [hsc] at hb
    dsimp only [] at hb
    rcases mmBwdPart_sub _ e (f e.eu e.ev) b hb with h | ⟨h0, hbe⟩
    · by_cases hflt : f e.eu e.ev < e.cap
      · rw [if_pos hflt, rgAdd_arcs] at h
        rcases updateArcs_sub R.arcs _ b h with h2 | h2
        · exact Or.inl h2
        · exact Or.inr (by rw [h2]; simp [genMulti, hflt])
      · rw [if_neg hflt] at h
        exact Or.inl h
    · exact Or.inr (by rw [hbe]; simp [genMulti, h0])

theorem mmfold_sub (f : Flow) :
    ∀ (L : List BaseEdge) (R : RGraph) (b : Arc),
      b ∈ (L.foldl (mmResStep f) R).arcs →
      b ∈ R.arcs ∨ ∃ e ∈ L, b ∈ genMulti f e
  | [], R, b => by
    intro h
    exact Or.inl h
  | e :: L, R, b => by
    intro h
    rw [List.foldl_cons] at h
    rcases mmfold_sub f L (mmResStep f R e) b h with h1 | ⟨e', he', hbe⟩
    · rcases mmResStep_sub f R e b h1 with h2 | h2
      · exact Or.inl h2
      · exact Or.inr ⟨e, List.mem_cons_self e L, h2⟩
    · exact Or.inr ⟨e', List.mem_cons_of_mem e he', hbe⟩

/-- Every arc the DiGraph builder of `cycle_cancelling_MM.py` stores is a
genuine residual arc of some base edge, with that edge's exact capacity and
cost: the collapse rules only drop or replace arcs, never corrupt one. -/
theorem mmResidual_sub (G : List BaseEdge) (f : Flow) :
    ∀ a ∈ (buildResidualMM G f).arcs, ∃ e ∈ G, a ∈ genMulti f e := by
  intro a ha
  unfold buildResidualMM at ha
  rcases mmfold_sub f G ⟨[], []⟩ a ha with h | h
  · simp at h
  · exact h

theorem mmArc_inv (G : List BaseEdge) (f : Flow) (a : Arc)
    (ha : a ∈ (buildResidualMM G f).arcs) :
    (a.ty = ArcTy.fwd ∧ ∃ e ∈ G, e.eu = a.au ∧ e.ev = a.av ∧
      f a.au a.av < e.cap ∧ a.acap = e.cap - f a.au a.av ∧ a.aw = e.cw) ∨
    (a.ty = ArcTy.bwd ∧ ∃ e ∈ G, e.eu = a.av ∧ e.ev = a.au ∧
      0 < f a.av a.au ∧ a.acap = f a.av a.au ∧ a.aw = -e.cw) := by
  obtain ⟨e, he, hae⟩ := mmResidual_sub G f a ha
  unfold genMulti at hae
  rcases List.mem_append.1 hae with h | h
  · left
    rcases em (f e.eu e.ev < e.cap) with h1 | h1
    · rw [if_pos h1] at h
      rw [List.mem_singleton.1 h]
      exact ⟨rfl, e, he, rfl, rfl, h1, rfl, rfl⟩
    · rw [if_neg h1] at h
      simp at h
  · right
    rcases em (0 < f e.eu e.ev) with h2 | h2
    · rw [if_pos h2] at h
      rw [List.mem_singleton.1 h]
      exact ⟨rfl, e, he, rfl, rfl, h2, rfl, rfl⟩
    · rw [if_neg h2] at h
      simp at h

theorem findArc_pair (R : List Arc) (x y : Nat) (a : Arc)
    (h : findArc? R x y = some a) :
    a.au = x ∧ a.av = y ∧ a ∈ R := by
  unfold findArc? at h
  have hmem := List.mem_of_find?_eq_some h
  have hp := List.find?_some h
  simp only [Bool.and_eq_true, beq_iff_eq] at hp
  exact ⟨hp.1, hp.2, hmem⟩

/-! ### UniqPairs of any DiGraph-built residual -/

theorem updateArcs_uniq (R : List Arc) (a : Arc) (h : UniqPairs R) :
    UniqPairs (updateArcs R a) := by
  unfold updateArcs
  by_cases hany : (R.any fun b => b.au == a.au && b.av == a.av) = true
  · rw [hany]
    simp only [if_true]
    unfold UniqPairs at h ⊢
    rw [List.pairwise_map]
    refine h.imp ?_
    intro x y hxy hcon
    have hx : (if x.au == a.au && x.av == a.av then a else x).au = x.au ∧
        (if x.au == a.au && x.av == a.av then a else x).av = x.av := by
      by_cases hc : (x.au == a.au && x.av == a.av) = true
      · rw [if_pos hc]
        simp only [Bool.and_eq_true, beq_iff_eq] at hc
        exact ⟨hc.1.symm, hc.2.symm⟩
      · rw [if_neg hc]
        exact ⟨rfl, rfl⟩
    have hy : (if y.au == a.au && y.av == a.av then a else y).au = y.au ∧
        (if y.au == a.au && y.av == a.av then a else y).av = y.av := by
      by_cases hc : (y.au == a.au && y.av == a.av) = true
      · rw [if_pos hc]
        simp only [Bool.and_eq_true, beq_iff_eq] at hc
        exact ⟨hc.1.symm, hc.2.symm⟩
      · rw [if_neg hc]
        exact ⟨rfl, rfl⟩
    exact hxy ⟨by rw [← hx.1, ← hy.1]; exact hcon.1,
      by rw [← hx.2, ← hy.2]; exact hcon.2⟩
  · have hany' : (R.any fun b => b.au == a.au && b.av == a.av) = false := by
      simpa using hany
    rw [hany']
    simp only [Bool.false_eq_true, if_false]
    unfold UniqPairs at h ⊢
    rw [List.pairwise_append]
    refine ⟨h, List.pairwise_singleton _ _, ?_⟩
    intro x hx y hy
    rw [List.mem_singleton.1 hy]
    rw [List.any_eq_false] at hany'
    have := hany' x hx
    simpa using this

theorem rgRemove_arcs_uniq (R : RGraph) (x y : Nat) (h : UniqPairs R.arcs) :
    UniqPairs (rgRemove R x y).arcs :=
  List.Pairwise.filter _ h

theorem mmBwdPart_uniq (R : RGraph) (e : BaseEdge) (fl : Int)
    (h : UniqPairs R.arcs) : UniqPairs (mmBwdPart R e fl).arcs := by
  unfold mmBwdPart
  dsimp only []
  by_cases h0 : 0 < fl
  · rw [if_pos h0]
    apply updateArcs_uniq
    cases hfind : findArc? R.arcs e.ev e.eu with
    | none => exact h
    | some a =>
      dsimp only []
      by_cases hty : a.ty = ArcTy.fwd
      · rw [if_pos hty]
        exact rgRemove_arcs_uniq R e.ev e.eu h
      · rw [if_neg hty]
        exact h
  · rw [if_neg h0]
    exact h

theorem mmResStep_uniq (f : Flow) (R : RGraph) (e : BaseEdge)
    (h : UniqPairs R.arcs) : UniqPairs (mmResStep f R e).arcs := by
  unfold mmResStep
  dsimp only []
  cases hfind : (if f e.eu e.ev < e.cap then findArc? R.arcs e.eu e.ev
      else none) with
  | some a =>
    dsimp only []
    by_cases hty : a.ty = ArcTy.bwd
    · rw [if_pos hty]
      exact h
    · rw [if_neg hty]
      exact mmBwdPart_uniq R e (f e.eu e.ev) h
  | none =>
    dsimp only []
    apply mmBwdPart_uniq
    by_cases h1 : f e.eu e.ev < e.cap
    · rw [if_pos h1]
      exact updateArcs_uniq R.arcs _ h
    · rw [if_neg h1]
      exact h

theorem mmResidual_uniq (G : List BaseEdge) (f : Flow) :
    UniqPairs (buildResidualMM G f).arcs := by
  unfold buildResidualMM
  have hgen : ∀ (L : List BaseEdge) (R : RGraph), UniqPairs R.arcs →
      UniqPairs (L.foldl (mmResStep f) R).arcs := by
    intro L
    induction L with
    | nil => intro R h; exact h
    | cons e L ih =>
      intro R h
      exact ih (mmResStep f R e) (mmResStep_uniq f R e h)
  exact hgen G ⟨[], []⟩ List.Pairwise.nil

/-! ### The augment-cycle fold -/

theorem stepFwdB_prop (G : List BaseEdge) (R : List Arc) (p : Nat × Nat)
    (h : stepFwdB G R p = true) :
    hasBase G p.1 p.2 = true ∧
      (findArc? R p.1 p.2).map Arc.ty = some ArcTy.fwd :=
  of_decide_eq_true h

theorem stepBwdB_prop (G : List BaseEdge) (R : List Arc) (p : Nat × Nat)
    (h : stepBwdB G R p = true) :
    hasBase G p.2 p.1 = true ∧
      (findArc? R p.1 p.2).map Arc.ty = some ArcTy.bwd := by
  unfold stepBwdB at h
  rw [Bool.and_eq_true] at h
  exact of_decide_eq_true h.2

theorem augStep_cases (G : List BaseEdge) (R : List Arc) (b : Int)
    (p : Nat × Nat) (f : Flow) :
    (stepFwdB G R p = true ∧
      augStep G R b (some f) p = some (updFlow f p.1 p.2 (f p.1 p.2 + b))) ∨
    (stepFwdB G R p = false ∧ stepBwdB G R p = true ∧
      augStep G R b (some f) p = some (updFlow f p.2 p.1 (f p.2 p.1 - b))) ∨
    (stepFwdB G R p = false ∧ stepBwdB G R p = false ∧
      augStep G R b (some f) p = none) := by
  by_cases h1 : hasBase G p.1 p.2 = true ∧
      (findArc? R p.1 p.2).map Arc.ty = some ArcTy.fwd
  · left
    refine ⟨decide_eq_true h1, ?_⟩
    show (if hasBase G p.1 p.2 = true ∧
        (findArc? R p.1 p.2).map Arc.ty = some ArcTy.fwd then
        some (updFlow f p.1 p.2 (f p.1 p.2 + b))
      else if hasBase G p.2 p.1 = true ∧
        (findArc? R p.1 p.2).map Arc.ty = some ArcTy.bwd then
        some (updFlow f p.2 p.1 (f p.2 p.1 - b))
      else none) = some (updFlow f p.1 p.2 (f p.1 p.2 + b))
    rw [if_pos h1]
  · have hF : stepFwdB G R p = false := by
      simpa [stepFwdB] using h1
    by_cases h2 : hasBase G p.2 p.1 = true ∧
        (findArc? R p.1 p.2).map Arc.ty = some ArcTy.bwd
    · right
      left
      have hBt : stepBwdB G R p = true := by
        unfold stepBwdB
        rw [hF, decide_eq_true h2]
        rfl
      refine ⟨hF, hBt, ?_⟩
      show (if hasBase G p.1 p.2 = true ∧
          (findArc? R p.1 p.2).map Arc.ty = some ArcTy.fwd then
          some (updFlow f p.1 p.2 (f p.1 p.2 + b))
        else if hasBase G p.2 p.1 = true ∧
          (findArc? R p.1 p.2).map Arc.ty = some ArcTy.bwd then
          some (updFlow f p.2 p.1 (f p.2 p.1 - b))
        else none) = some (updFlow f p.2 p.1 (f p.2 p.1 - b))
      rw [if_neg h1, if_pos h2]
    · right
      right
      have hBf : stepBwdB G R p = false := by
        unfold stepBwdB
        rw [decide_eq_false h2]
        simp
      refine ⟨hF, hBf, ?_⟩
      show (if hasBase G p.1 p.2 = true ∧
          (findArc? R p.1 p.2).map Arc.ty = some ArcTy.fwd then
          some (updFlow f p.1 p.2 (f p.1 p.2 + b))
        else if hasBase G p.2 p.1 = true ∧
          (findArc? R p.1 p.2).map Arc.ty = some ArcTy.bwd then
          some (updFlow f p.2 p.1 (f p.2 p.1 - b))
        else none) = none
      rw [if_neg h1, if_neg h2]

theorem augFold_none (G : List BaseEdge) (R : List Arc) (b : Int)
    (ps : List (Nat × Nat)) : ps.foldl (augStep G R b) none = none := by
  induction ps with
  | nil => rfl
  | cons p ps ih =>
    rw [List.foldl_cons]
    show ps.foldl (augStep G R b) none = none
    exact ih

theorem augFold_entry (G : List BaseEdge) (R : List Arc) (b : Int) :
    ∀ (ps : List (Nat × Nat)) (f f2 : Flow),
      ps.foldl (augStep G R b) (some f) = some f2 →
      ∀ x y, f2 x y = f x y
        + b * (ps.countP (fun p => stepFwdB G R p &&
            (p.1 == x && p.2 == y)) : Int)
        - b * (ps.countP (fun p => stepBwdB G R p &&
            (p.1 == y && p.2 == x)) : Int) := by
  intro ps
  induction ps with
  | nil =>
    intro f f2 h x y
    simp only [List.foldl_nil, Option.some.injEq] at h
    rw [← h]
    simp
  | cons p ps ih =>
    intro f f2 h x y
    rw [List.foldl_cons] at h
    rcases augStep_cases G R b p f with ⟨hF, hstep⟩ | ⟨hF, hB, hstep⟩ |
      ⟨hF, hB, hstep⟩
    · rw [hstep] at h
      have hrec := ih _ f2 h x y
      have hBf : stepBwdB G R p = false := by
        unfold stepBwdB
        rw [hF]
        rfl
      rw [List.countP_cons_of_neg
        (fun q => stepBwdB G R q && (q.1 == y && q.2 == x)) ps
        (by simp [hBf])]
      by_cases hpxy : (p.1 == x && p.2 == y) = true
      · rw [List.countP_cons_of_pos
          (fun q => stepFwdB G R q && (q.1 == x && q.2 == y)) ps
          (by simp only [hF, hpxy, Bool.and_self])]
        have hp1 : p.1 = x ∧ p.2 = y := by simpa using hpxy
        have hval : updFlow f p.1 p.2 (f p.1 p.2 + b) x y = f x y + b := by
          rw [hp1.1, hp1.2]
          exact updFlow_same f x y _
        rw [hrec, hval]
        push_cast
        ring
      · rw [List.countP_cons_of_neg
          (fun q => stepFwdB G R q && (q.1 == x && q.2 == y)) ps
          (by simp [hpxy])]
        have hp1 : ¬(p.1 = x ∧ p.2 = y) := by simpa using hpxy
        have hval : updFlow f p.1 p.2 (f p.1 p.2 + b) x y = f x y :=
          updFlow_other _ _ _ _ x y (fun hc => hp1 ⟨hc.1.symm, hc.2.symm⟩)
        rw [hrec, hval]
    · rw [hstep] at h
      have hrec := ih _ f2 h x y
      rw [List.countP_cons_of_neg
        (fun q => stepFwdB G R q && (q.1 == x && q.2 == y)) ps
        (by simp [hF])]
      by_cases hpyx : (p.1 == y && p.2 == x) = true
      · rw [List.countP_cons_of_pos
          (fun q => stepBwdB G R q && (q.1 == y && q.2 == x)) ps
          (by simp only [hB, hpyx, Bool.and_self])]
        have hp1 : p.1 = y ∧ p.2 = x := by simpa using hpyx
        have hval : updFlow f p.2 p.1 (f p.2 p.1 - b) x y = f x y - b := by
          rw [hp1.1, hp1.2]
          exact updFlow_same f x y _
        rw [hrec, hval]
        push_cast
        ring
      · rw [List.countP_cons_of_neg
          (fun q => stepBwdB G R q && (q.1 == y && q.2 == x)) ps
          (by simp [hpyx])]
        have hp1 : ¬(p.1 = y ∧ p.2 = x) := by simpa using hpyx
        have hval : updFlow f p.2 p.1 (f p.2 p.1 - b) x y = f x y :=
          updFlow_other _ _ _ _ x y (fun hc => hp1 ⟨hc.2.symm, hc.1.symm⟩)
        rw [hrec, hval]
    · rw [hstep, augFold_none G R b ps] at h
      cases h

theorem augFold_flowValue (G : List BaseEdge) (hS : SimpleDigraph G)
    (R : List Arc) (b : Int) :
    ∀ (ps : List (Nat × Nat)) (f f2 : Flow),
      ps.foldl (augStep G R b) (some f) = some f2 →
      ∀ z, flowValue G f2 z = flowValue G f z
        + b * (ps.countP (fun p => p.1 == z) : Int)
        - b * (ps.countP (fun p => p.2 == z) : Int) := by
  intro ps
  induction ps with
  | nil =>
    intro f f2 h z
    simp only [List.foldl_nil, Option.some.injEq] at h
    rw [← h]
    simp
  | cons p ps ih =>
    intro f f2 h z
    rw [List.foldl_cons] at h
    rcases augStep_cases G R b p f with ⟨hF, hstep⟩ | ⟨hF, hB, hstep⟩ |
      ⟨hF, hB, hstep⟩
    · rw [hstep] at h
      have hprop := stepFwdB_prop G R p hF
      have hrec := ih _ f2 h z
      have hone : flowValue G (updFlow f p.1 p.2 (f p.1 p.2 + b)) z
          = flowValue G f z + (if z = p.1 then b else 0)
            - (if z = p.2 then b else 0) := by
        rw [flowValue_updFlow G hS p.1 p.2 hprop.1 _ f z]
        simp only [add_sub_cancel_left]
      rw [hrec, hone]
      by_cases hz1 : p.1 = z <;> by_cases hz2 : p.2 = z
      · rw [List.countP_cons_of_pos (fun q : Nat × Nat => q.1 == z) ps
            (by simp [hz1]),
          List.countP_cons_of_pos (fun q : Nat × Nat => q.2 == z) ps
            (by simp [hz2]),
          if_pos hz1.symm, if_pos hz2.symm]
        push_cast
        ring
      · rw [List.countP_cons_of_pos (fun q : Nat × Nat => q.1 == z) ps
            (by simp [hz1]),
          List.countP_cons_of_neg (fun q : Nat × Nat => q.2 == z) ps
            (by simp [hz2]),
          if_pos hz1.symm, if_neg (fun hc : z = p.2 => hz2 hc.symm)]
        push_cast
        ring
      · rw [List.countP_cons_of_neg (fun q : Nat × Nat => q.1 == z) ps
            (by simp [hz1]),
          List.countP_cons_of_pos (fun q : Nat × Nat => q.2 == z) ps
            (by simp [hz2]),
          if_neg (fun hc : z = p.1 => hz1 hc.symm), if_pos hz2.symm]
        push_cast
        ring
      · rw [List.countP_cons_of_neg (fun q : Nat × Nat => q.1 == z) ps
            (by simp [hz1]),
          List.countP_cons_of_neg (fun q : Nat × Nat => q.2 == z) ps
            (by simp [hz2]),
          if_neg (fun hc : z = p.1 => hz1 hc.symm),
          if_neg (fun hc : z = p.2 => hz2 hc.symm)]
        push_cast
        ring
    · rw [hstep] at h
      have hprop := stepBwdB_prop G R p hB
      have hrec := ih _ f2 h z
      have hone : flowValue G (updFlow f p.2 p.1 (f p.2 p.1 - b)) z
          = flowValue G f z + (if z = p.2 then -b else 0)
            - (if z = p.1 then -b else 0) := by
        rw [flowValue_updFlow G hS p.2 p.1 hprop.1 _ f z]
        simp only [sub_sub_cancel_left]
      rw [hrec, hone]
      by_cases hz1 : p.1 = z <;> by_cases hz2 : p.2 = z
      · rw [List.countP_cons_of_pos (fun q : Nat × Nat => q.1 == z) ps
            (by simp [hz1]),
          List.countP_cons_of_pos (fun q : Nat × Nat => q.2 == z) ps
            (by simp [hz2]),
          if_pos hz1.symm, if_pos hz2.symm]
        push_cast
        ring
      · rw [List.countP_cons_of_pos (fun q : Nat × Nat => q.1 == z) ps
            (by simp [hz1]),
          List.countP_cons_of_neg (fun q : Nat × Nat => q.2 == z) ps
            (by simp [hz2]),
          if_pos hz1.symm, if_neg (fun hc : z = p.2 => hz2 hc.symm)]
        push_cast
        ring
      · rw [List.countP_cons_of_neg (fun q : Nat × Nat => q.1 == z) ps
            (by simp [hz1]),
          List.countP_cons_of_pos (fun q : Nat × Nat => q.2 == z) ps
            (by simp [hz2]),
          if_neg (fun hc : z = p.1 => hz1 hc.symm), if_pos hz2.symm]
        push_cast
        ring
      · rw [List.countP_cons_of_neg (fun q : Nat × Nat => q.1 == z) ps
            (by simp [hz1]),
          List.countP_cons_of_neg (fun q : Nat × Nat => q.2 == z) ps
            (by simp [hz2]),
          if_neg (fun hc : z = p.1 => hz1 hc.symm),
          if_neg (fun hc : z = p.2 => hz2 hc.symm)]
        push_cast
        ring
    · rw [hstep, augFold_none G R b ps] at h
      cases h

theorem augFold_cost (G : List BaseEdge) (hS : SimpleDigraph G)
    (R : List Arc) (b : Int) :
    ∀ (ps : List (Nat × Nat)) (f f2 : Flow),
      ps.foldl (augStep G R b) (some f) = some f2 →
      (∀ p ∈ ps, (stepFwdB G R p = true → arcWOf R p = baseW G p.1 p.2) ∧
        (stepBwdB G R p = true → arcWOf R p = -baseW G p.2 p.1)) →
      totalCostAll G f2 = totalCostAll G f + b * ((ps.map (arcWOf R)).sum) := by
  intro ps
  induction ps with
  | nil =>
    intro f f2 h _
    simp only [List.foldl_nil, Option.some.injEq] at h
    rw [← h]
    simp
  | cons p ps ih =>
    intro f f2 h hw
    rw [List.foldl_cons] at h
    rcases augStep_cases G R b p f with ⟨hF, hstep⟩ | ⟨hF, hB, hstep⟩ |
      ⟨hF, hB, hstep⟩
    · rw [hstep] at h
      have hprop := stepFwdB_prop G R p hF
      have hrec := ih _ f2 h (fun q hq => hw q (List.mem_cons_of_mem p hq))
      have hone : totalCostAll G (updFlow f p.1 p.2 (f p.1 p.2 + b))
          = totalCostAll G f + b * baseW G p.1 p.2 := by
        rw [totalCostAll_updFlow p.1 p.2 _ f G hS hprop.1]
        ring
      have hwp := (hw p (List.mem_cons_self p ps)).1 hF
      rw [hrec, hone, List.map_cons, List.sum_cons, hwp]
      ring
    · rw [hstep] at h
      have hprop := stepBwdB_prop G R p hB
      have hrec := ih _ f2 h (fun q hq => hw q (List.mem_cons_of_mem p hq))
      have hone : totalCostAll G (updFlow f p.2 p.1 (f p.2 p.1 - b))
          = totalCostAll G f - b * baseW G p.2 p.1 := by
        rw [totalCostAll_updFlow p.2 p.1 _ f G hS hprop.1]
        ring
      have hwp := (hw p (List.mem_cons_self p ps)).2 hB
      rw [hrec, hone, List.map_cons, List.sum_cons, hwp]
      ring
    · rw [hstep, augFold_none G R b ps] at h
      cases h

theorem augFold_some (G : List BaseEdge) (R : List Arc) (b : Int) :
    ∀ (ps : List (Nat × Nat)) (f : Flow),
      (∀ p ∈ ps, stepFwdB G R p = true ∨ stepBwdB G R p = true) →
      ∃ f2, ps.foldl (augStep G R b) (some f) = some f2 := by
  intro ps
  induction ps with
  | nil =>
    intro f _
    exact ⟨f, rfl⟩
  | cons p ps ih =>
    intro f hp
    rw [List.foldl_cons]
    rcases augStep_cases G R b p f with ⟨hF, hstep⟩ | ⟨hF, hB, hstep⟩ |
      ⟨hF, hB, hstep⟩
    · rw [hstep]
      exact ih _ (fun q hq => hp q (List.mem_cons_of_mem p hq))
    · rw [hstep]
      exact ih _ (fun q hq => hp q (List.mem_cons_of_mem p hq))
    · rcases hp p (List.mem_cons_self p ps) with hc | hc
      · rw [hF] at hc
        cases hc
      · rw [hB] at hc
        cases hc

/-! ### Step capacities and the bottleneck -/

theorem stepCaps_forall (R : List Arc) :
    ∀ (ps : List (Nat × Nat)) (l : List Int), stepCaps R ps = some l →
      ∀ p ∈ ps, ∃ a, findArc? R p.1 p.2 = some a ∧ a.acap ∈ l := by
  intro ps
  induction ps with
  | nil =>
    intro l _ p hp
    simp at hp
  | cons p0 ps ih =>
    intro l h p hp
    unfold stepCaps at h
    rw [List.mapM_cons] at h
    cases hfa : (findArc? R p0.1 p0.2).map (fun a => a.acap) with
    | none =>
      rw [hfa] at h
      simp at h
    | some x0 =>
      rw [hfa] at h
      cases hrest : ps.mapM
          (fun p => (findArc? R p.1 p.2).map (fun a => a.acap)) with
      | none =>
        rw [hrest] at h
        simp at h
      | some xs =>
        rw [hrest] at h
        have hl : x0 :: xs = l := by simpa using h
        subst hl
        rcases List.mem_cons.1 hp with hp0 | hps
        · subst hp0
          obtain ⟨a, ha1, ha2⟩ := Option.map_eq_some'.1 hfa
          refine ⟨a, ha1, ?_⟩
          rw [ha2]
          exact List.mem_cons_self _ _
        · obtain ⟨a, ha1, ha2⟩ := ih xs hrest p hps
          exact ⟨a, ha1, List.mem_cons_of_mem _ ha2⟩

theorem stepCaps_some (R : List Arc) :
    ∀ ps : List (Nat × Nat),
      (∀ p ∈ ps, ∃ a, findArc? R p.1 p.2 = some a) →
      ∃ l, stepCaps R ps = some l ∧ l.length = ps.length := by
  intro ps
  induction ps with
  | nil =>
    intro _
    exact ⟨[], rfl, rfl⟩
  | cons p0 ps ih =>
    intro hp
    obtain ⟨a, ha⟩ := hp p0 (List.mem_cons_self p0 ps)
    obtain ⟨l, hl, hlen⟩ := ih (fun q hq => hp q (List.mem_cons_of_mem p0 hq))
    refine ⟨a.acap :: l, ?_, by simp [hlen]⟩
    unfold stepCaps at hl ⊢
    rw [List.mapM_cons, ha, hl]
    rfl

theorem foldl_min_le (cs : List Int) :
    ∀ c0, ∀ x ∈ c0 :: cs, cs.foldl min c0 ≤ x := by
  induction cs with
  | nil =>
    intro c0 x hx
    rw [List.mem_singleton.1 hx]
    exact le_refl c0
  | cons c cs ih =>
    intro c0 x hx
    rw [List.foldl_cons]
    rcases List.mem_cons.1 hx with h | h
    · rw [h]
      exact le_trans (ih (min c0 c) (min c0 c) (List.mem_cons_self _ _))
        (min_le_left _ _)
    · rcases List.mem_cons.1 h with h2 | h2
      · rw [h2]
        exact le_trans (ih (min c0 c) (min c0 c) (List.mem_cons_self _ _))
          (min_le_right _ _)
      · exact ih (min c0 c) x (List.mem_cons_of_mem _ h2)

theorem foldl_min_pos (cs : List Int) :
    ∀ c0, 0 < c0 → (∀ x ∈ cs, 0 < x) → 0 < cs.foldl min c0 := by
  induction cs with
  | nil =>
    intro c0 h _
    exact h
  | cons c cs ih =>
    intro c0 h0 hall
    rw [List.foldl_cons]
    exact ih (min c0 c) (lt_min h0 (hall c (List.mem_cons_self c cs)))
      (fun x hx => hall x (List.mem_cons_of_mem c hx))

/-! ### Pair lists of closed walks -/

theorem pairsOf_map_fst : ∀ l : List Nat, (pairsOf l).map Prod.fst = l.dropLast
  | [] => rfl
  | [_] => rfl
  | a :: b :: r => by
    show a :: (pairsOf (b :: r)).map Prod.fst = (a :: b :: r).dropLast
    rw [pairsOf_map_fst (b :: r), List.dropLast_cons₂]

theorem pairsOf_map_snd : ∀ l : List Nat, (pairsOf l).map Prod.snd = l.tail
  | [] => rfl
  | [_] => rfl
  | a :: b :: r => by
    show b :: (pairsOf (b :: r)).map Prod.snd = b :: r
    rw [pairsOf_map_snd (b :: r), List.tail_cons]

theorem pairsOf_nodup_closed (x : Nat) (mid : List Nat)
    (h : (x :: mid).Nodup) : (pairsOf ((x :: mid) ++ [x])).Nodup := by
  apply List.Nodup.of_map Prod.fst
  have hmap : (pairsOf ((x :: mid) ++ [x])).map Prod.fst = x :: mid := by
    rw [pairsOf_map_fst, List.dropLast_concat]
  rw [hmap]
  exact h

theorem pairsOf_count_closed (x : Nat) (mid : List Nat) (z : Nat) :
    (pairsOf ((x :: mid) ++ [x])).countP (fun p => p.1 == z)
      = (pairsOf ((x :: mid) ++ [x])).countP (fun p => p.2 == z) := by
  have h1 : (pairsOf ((x :: mid) ++ [x])).countP (fun p => p.1 == z)
      = ((pairsOf ((x :: mid) ++ [x])).map Prod.fst).countP
          (fun w => w == z) := by
    rw [List.countP_map]
    rfl
  have h2 : (pairsOf ((x :: mid) ++ [x])).countP (fun p => p.2 == z)
      = ((pairsOf ((x :: mid) ++ [x])).map Prod.snd).countP
          (fun w => w == z) := by
    rw [List.countP_map]
    rfl
  rw [h1, h2, pairsOf_map_fst, pairsOf_map_snd, List.dropLast_concat]
  show (x :: mid).countP (fun w => w == z)
      = (mid ++ [x]).countP (fun w => w == z)
  rw [List.countP_cons, List.countP_append, List.countP_cons, List.countP_nil]
  omega

theorem countP_le_one_of_nodup (q : Nat × Nat) (pred : Nat × Nat → Bool)
    (himp : ∀ p, pred p = true → p = q) :
    ∀ ps : List (Nat × Nat), ps.Nodup → ps.countP pred ≤ 1 := by
  intro ps
  induction ps with
  | nil =>
    intro _
    simp
  | cons p ps ih =>
    intro hnd
    have hnd' := List.nodup_cons.1 hnd
    by_cases hp : pred p = true
    · rw [List.countP_cons_of_pos _ _ hp]
      have hq := himp p hp
      have hzero : ps.countP pred = 0 := by
        rw [List.countP_eq_zero]
        intro a ha hpa
        have haq := himp a hpa
        rw [haq, ← hq] at ha
        exact hnd'.1 ha
      rw [hzero]
    · rw [List.countP_cons_of_neg _ _ hp]
      exact ih hnd'.2

/-! ### Negativity of the returned cycle -/

theorem frs_split :
    ∀ (l pref seg : List Nat), firstRepeatSeg pref l = some seg →
      ∃ B x mid rest, seg = (x :: mid) ++ [x] ∧
        pref ++ l = (B ++ x :: mid) ++ x :: rest := by
  intro l
  induction l with
  | nil =>
    intro pref seg h
    simp [firstRepeatSeg] at h
  | cons a rest ih =>
    intro pref seg h
    unfold firstRepeatSeg at h
    by_cases hmem : a ∈ pref
    · rw [if_pos hmem] at h
      obtain ⟨S, hS⟩ := dropWhile_ne_cons a pref hmem
      injection h with h
      refine ⟨pref.takeWhile (fun y => y != a), a, S, rest, ?_, ?_⟩
      · rw [← h, hS]
      · have htd : pref.takeWhile (fun y => y != a) ++ (a :: S) = pref := by
          rw [← hS]
          exact List.takeWhile_append_dropWhile _ _
        rw [show (pref.takeWhile (fun y => y != a) ++ a :: S) ++ a :: rest
            = (pref.takeWhile (fun y => y != a) ++ (a :: S)) ++ a :: rest
          from rfl, htd]
    · rw [if_neg hmem] at h
      obtain ⟨B, x, mid, rest', hseg, heq⟩ := ih (pref ++ [a]) seg h
      refine ⟨B, x, mid, rest', hseg, ?_⟩
      rw [← heq]
      simp

/-- Under the DiGraph at-most-one-arc-per-pair discipline, the weight sum
the driver reads on a returned cycle is strictly negative. -/
theorem karp_cycle_neg (nodes : List Nat) (arcs : List Arc) (c : List Nat)
    (hU : UniqPairs arcs) (h : karpCore nodes arcs = KarpRes.cycle c) :
    ((pairsOf c).map (arcWOf arcs)).sum < 0 := by
  cases hmu : muFold nodes arcs nodes.length with
  | none =>
    rw [karpCore_mu_none nodes arcs hmu] at h
    simp at h
  | some p =>
    obtain ⟨ma, vstar⟩ := p
    obtain ⟨q, dnv, hmaq, hden, hmem, hdnv, hq, hmuQ⟩ :=
      muFold_core nodes arcs ma vstar hmu
    subst hmaq
    by_cases hg : negEpsLe q = true
    · rw [karpCore_eps_ok nodes arcs q vstar hmu hg] at h
      simp at h
    · have hg' : negEpsLe q = false := by simpa using hg
      cases hseg : firstRepeatSeg []
          ((traceback (fun k => (karpDP nodes arcs k).2)
            nodes.length vstar).reverse) with
      | none =>
        rw [karpCore_eq, hmu] at h
        simp [hg', hseg] at h
      | some seg =>
        rw [karpCore_cycle_eq nodes arcs q vstar seg hmu hg' hseg] at h
        injection h with hcs
        subst hcs
        obtain ⟨B, x, mid, rest, hsegEq, hpathEq⟩ := frs_split _ [] seg hseg
        have hlc := layerChain_of_dp nodes arcs nodes.length vstar dnv hdnv
        have hpath : (traceback (fun k => (karpDP nodes arcs k).2)
            nodes.length vstar).reverse = (B ++ x :: mid) ++ x :: rest := by
          simpa using hpathEq
        obtain ⟨dxi, hdxi, hps2, htr2, hsub⟩ :=
          layerChain_split nodes arcs _ nodes.length vstar dnv hlc
            (B ++ x :: mid) x rest hpath
        have hsubEq : (B ++ x :: mid) ++ [x] = B ++ x :: (mid ++ [x]) := by
          simp
        obtain ⟨dxj, hdxj, hps1, htr1, hsub2⟩ :=
          layerChain_split nodes arcs _ _ x dxi hsub B x (mid ++ [x]) hsubEq
        have hW : ((pairsOf seg).map (arcWOf arcs)).sum = dxi - dxj := by
          have hlist : x :: (mid ++ [x]) = seg := by
            rw [hsegEq]
            simp
          rw [← hlist]
          exact pairSum_arcW arcs hU _ _ hps1
        rw [hW]
        by_contra hnn
        push_neg at hnn
        have hwj : EndWalk nodes arcs B.length x dxj :=
          karpDP_walk nodes arcs B.length x dxj hdxj
        have hwalk := htr2 B.length dxj hwj
        obtain ⟨dk, hdk, hdkle⟩ :=
          karpDP_min nodes arcs (B.length + rest.length) vstar _ hwalk
        have hlen := layerChain_length nodes arcs _ nodes.length vstar dnv hlc
        have hk' : B.length + rest.length < nodes.length := by
          rw [hpath] at hlen
          simp only [List.length_append, List.length_cons] at hlen
          omega
        have hbd := ((maxAvgFold_spec nodes arcs nodes.length vstar dnv).2
          q hq).2.2 (B.length + rest.length) hk' dk hdk
        have hqneg : q.toQ < karpEps := by
          have hnle : ¬(karpEps ≤ q.toQ) := by
            rw [← negEpsLe_iff q hden]
            simp [hg']
          exact lt_of_not_le hnle
        have heps_neg : karpEps < 0 := by
          norm_num [karpEps]
        have hnum : (0 : Int) ≤ dnv - dk := by omega
        have havg : 0 ≤ avgQ dnv dk nodes.length (B.length + rest.length) := by
          unfold avgQ
          apply div_nonneg
          · exact_mod_cast hnum
          · exact Nat.cast_nonneg _
        linarith

/-! ### Invariant preservation and strict cost decrease of one cancellation -/

theorem simple_edge_eq (G : List BaseEdge) (hS : SimpleDigraph G)
    (e e' : BaseEdge) (he : e ∈ G) (he' : e' ∈ G)
    (h1 : e.eu = e'.eu) (h2 : e.ev = e'.ev) : e = e' := by
  by_contra hne
  have hsymm : Symmetric (fun a b : BaseEdge =>
      ¬(a.eu = b.eu ∧ a.ev = b.ev)) := by
    intro a b hab hc
    exact hab ⟨hc.1.symm, hc.2.symm⟩
  exact (List.Pairwise.forall hsymm hS) he he' hne ⟨h1, h2⟩

/-- The per-pair facts of a returned cycle against the MM residual: every
step matches a branch of `augment_cycle`, and the weight the driver reads
is the signed base weight. -/
theorem mm_cycle_steps (G : List BaseEdge) (f : Flow)
    (hS : SimpleDigraph G) (c : List Nat)
    (hchain : IsChain (buildResidualMM G f).arcs c) :
    ∀ p ∈ pairsOf c,
      (stepFwdB G (buildResidualMM G f).arcs p = true ∨
        stepBwdB G (buildResidualMM G f).arcs p = true) ∧
      (stepFwdB G (buildResidualMM G f).arcs p = true →
        arcWOf (buildResidualMM G f).arcs p = baseW G p.1 p.2) ∧
      (stepBwdB G (buildResidualMM G f).arcs p = true →
        arcWOf (buildResidualMM G f).arcs p = -baseW G p.2 p.1) := by
  intro p hp
  obtain ⟨a, haR, hau, hav⟩ := hchain p hp
  have hU : UniqPairs (buildResidualMM G f).arcs := mmResidual_uniq G f
  have hfind : findArc? (buildResidualMM G f).arcs p.1 p.2 = some a := by
    rw [← hau, ← hav]
    exact findArc_uniq _ hU a haR
  rcases mmArc_inv G f a haR with
    ⟨hty, e, he, heu, hev, hflt, hacap, haw⟩ |
    ⟨hty, e, he, heu, hev, hfgt, hacap, haw⟩
  · have hfw : stepFwdB G (buildResidualMM G f).arcs p = true := by
      apply decide_eq_true
      constructor
      · have hb := hasBase_of_mem G e he
        rw [heu, hev, hau, hav] at hb
        exact hb
      · rw [hfind]
        simp [hty]
    refine ⟨Or.inl hfw, ?_, ?_⟩
    · intro _
      have hw1 : arcWOf (buildResidualMM G f).arcs p = a.aw := by
        unfold arcWOf
        rw [hfind]
      have hw2 : baseW G p.1 p.2 = e.cw := by
        have hb := baseW_of_mem G hS e he
        rw [heu, hev, hau, hav] at hb
        exact hb
      rw [hw1, hw2, haw]
    · intro hbw
      have hbf : stepBwdB G (buildResidualMM G f).arcs p = false := by
        unfold stepBwdB
        rw [hfw]
        rfl
      rw [hbf] at hbw
      cases hbw
  · have hff : stepFwdB G (buildResidualMM G f).arcs p = false := by
      apply decide_eq_false
      intro hcon
      have hcon2 := hcon.2
      rw [hfind] at hcon2
      simp [hty] at hcon2
    have hbw : stepBwdB G (buildResidualMM G f).arcs p = true := by
      unfold stepBwdB
      rw [hff]
      have hp2 : hasBase G p.2 p.1 = true ∧
          (findArc? (buildResidualMM G f).arcs p.1 p.2).map Arc.ty
            = some ArcTy.bwd := by
        constructor
        · have hb := hasBase_of_mem G e he
          rw [heu, hev, hau, hav] at hb
          exact hb
        · rw [hfind]
          simp [hty]
      rw [decide_eq_true hp2]
      rfl
    refine ⟨Or.inr hbw, ?_, ?_⟩
    · intro hcon
      rw [hff] at hcon
      cases hcon
    · intro _
      have hw1 : arcWOf (buildResidualMM G f).arcs p = a.aw := by
        unfold arcWOf
        rw [hfind]
      have hw2 : baseW G p.2 p.1 = e.cw := by
        have hb := baseW_of_mem G hS e he
        rw [heu, hev, hau, hav] at hb
        exact hb
      rw [hw1, hw2, haw]

theorem mmStep_invariants (G : List BaseEdge) (s t : Nat)
    (hS : SimpleDigraph G)
    (f f2 : Flow) (hcap : CapOK G f) (hstep : MMStep G f f2) :
    CapOK G f2 ∧ (Conserved G f s t → Conserved G f2 s t) ∧
      totalCostAll G f2 < totalCostAll G f := by
  obtain ⟨c, c0, cs, hcyc, hcaps, hbpos, haug⟩ := hstep
  have hU : UniqPairs (buildResidualMM G f).arcs := mmResidual_uniq G f
  obtain ⟨x, mid, hcEq, hnd, hchain⟩ := karpCore_cycle_shape _ _ c hcyc
  have hpnd : (pairsOf c).Nodup := by
    rw [hcEq]
    exact pairsOf_nodup_closed x mid hnd
  have hb : 0 < cs.foldl min c0 := by omega
  have hsteps := mm_cycle_steps G f hS c hchain
  refine ⟨?_, ?_, ?_⟩
  · -- capacity bounds
    intro e he
    have hent := augFold_entry G (buildResidualMM G f).arcs (cs.foldl min c0)
      (pairsOf c) f f2 haug e.eu e.ev
    have hcFle := countP_le_one_of_nodup (e.eu, e.ev)
      (fun q => stepFwdB G (buildResidualMM G f).arcs q &&
        (q.1 == e.eu && q.2 == e.ev))
      (fun q hq => by
        simp only [Bool.and_eq_true, beq_iff_eq] at hq
        exact Prod.ext_iff.2 ⟨hq.2.1, hq.2.2⟩) (pairsOf c) hpnd
    have hcBle := countP_le_one_of_nodup (e.ev, e.eu)
      (fun q => stepBwdB G (buildResidualMM G f).arcs q &&
        (q.1 == e.ev && q.2 == e.eu))
      (fun q hq => by
        simp only [Bool.and_eq_true, beq_iff_eq] at hq
        exact Prod.ext_iff.2 ⟨hq.2.1, hq.2.2⟩) (pairsOf c) hpnd
    have hFbound : ∀ n, (pairsOf c).countP
        (fun q => stepFwdB G (buildResidualMM G f).arcs q &&
          (q.1 == e.eu && q.2 == e.ev)) = n → 0 < n →
        cs.foldl min c0 ≤ e.cap - f e.eu e.ev := by
      intro n hn hnpos
      have hpos : 0 < (pairsOf c).countP
          (fun q => stepFwdB G (buildResidualMM G f).arcs q &&
            (q.1 == e.eu && q.2 == e.ev)) := by omega
      obtain ⟨p, hpmem, hpF⟩ := List.countP_pos_iff.1 hpos
      simp only [Bool.and_eq_true, beq_iff_eq] at hpF
      obtain ⟨a, hfind, hty⟩ :=
        Option.map_eq_some'.1 (stepFwdB_prop _ _ p hpF.1).2
      have hfp := findArc_pair _ p.1 p.2 a hfind
      rcases mmArc_inv G f a hfp.2.2 with
        ⟨-, e', he', heu, hev, hflt, hacap, -⟩ | ⟨htyb, -⟩
      · have hee : e' = e :=
          simple_edge_eq G hS e' e he' he
            (by rw [heu, hfp.1, hpF.2.1]) (by rw [hev, hfp.2.1, hpF.2.2])
        rw [hee] at hacap
        obtain ⟨a2, hfind2, hmem2⟩ :=
          stepCaps_forall _ (pairsOf c) (c0 :: cs) hcaps p hpmem
        have ha2 : a2 = a := by
          have hsa := hfind2.symm.trans hfind
          injection hsa
        rw [ha2] at hmem2
        have hble := foldl_min_le cs c0 a.acap hmem2
        rw [hacap, hfp.1, hfp.2.1, hpF.2.1, hpF.2.2] at hble
        exact hble
      · rw [hty] at htyb
        cases htyb
    have hBbound : ∀ n, (pairsOf c).countP
        (fun q => stepBwdB G (buildResidualMM G f).arcs q &&
          (q.1 == e.ev && q.2 == e.eu)) = n → 0 < n →
        cs.foldl min c0 ≤ f e.eu e.ev := by
      intro n hn hnpos
      have hpos : 0 < (pairsOf c).countP
          (fun q => stepBwdB G (buildResidualMM G f).arcs q &&
            (q.1 == e.ev && q.2 == e.eu)) := by omega
      obtain ⟨p, hpmem, hpB⟩ := List.countP_pos_iff.1 hpos
      simp only [Bool.and_eq_true, beq_iff_eq] at hpB
      obtain ⟨a, hfind, hty⟩ :=
        Option.map_eq_some'.1 (stepBwdB_prop _ _ p hpB.1).2
      have hfp := findArc_pair _ p.1 p.2 a hfind
      rcases mmArc_inv G f a hfp.2.2 with
        ⟨htyf, -⟩ | ⟨-, e', he', heu, hev, hfgt, hacap, -⟩
      · rw [hty] at htyf
        cases htyf
      · obtain ⟨a2, hfind2, hmem2⟩ :=
          stepCaps_forall _ (pairsOf c) (c0 :: cs) hcaps p hpmem
        have ha2 : a2 = a := by
          have hsa := hfind2.symm.trans hfind
          injection hsa
        rw [ha2] at hmem2
        have hble := foldl_min_le cs c0 a.acap hmem2
        rw [hacap, hfp.2.1, hfp.1, hpB.2.2, hpB.2.1] at hble
        exact hble
    have hce := hcap e he
    rcases Nat.le_one_iff_eq_zero_or_eq_one.1 hcFle with hcF | hcF <;>
      rcases Nat.le_one_iff_eq_zero_or_eq_one.1 hcBle with hcB | hcB <;>
      rw [hcF, hcB] at hent <;> push_cast at hent <;>
      simp only [mul_zero, mul_one] at hent
    · omega
    · have := hBbound 1 hcB (by omega)
      omega
    · have := hFbound 1 hcF (by omega)
      omega
    · omega
  · -- conservation
    intro hcons z hz hzs hzt
    have hfv := augFold_flowValue G hS (buildResidualMM G f).arcs
      (cs.foldl min c0) (pairsOf c) f f2 haug z
    have hcnt : (pairsOf c).countP (fun q => q.1 == z)
        = (pairsOf c).countP (fun q => q.2 == z) := by
      rw [hcEq]
      exact pairsOf_count_closed x mid z
    rw [hcnt] at hfv
    have hfv0 : flowValue G f2 z = flowValue G f z := by
      rw [hfv]
      ring
    have hzero : flowValue G f z = 0 := by
      have hc := hcons z hz hzs hzt
      unfold ConservedAt at hc
      unfold flowValue
      omega
    show outFlow G f2 z = inFlow G f2 z
    have h2 : flowValue G f2 z = 0 := by rw [hfv0, hzero]
    unfold flowValue at h2
    omega
  · -- strict cost decrease
    have hcost := augFold_cost G hS (buildResidualMM G f).arcs
      (cs.foldl min c0) (pairsOf c) f f2 haug
      (fun p hp => ⟨(hsteps p hp).2.1, (hsteps p hp).2.2⟩)
    have hWneg := karp_cycle_neg (buildResidualMM G f).nodes
      (buildResidualMM G f).arcs c hU hcyc
    have hmul : cs.foldl min c0 *
        ((pairsOf c).map (arcWOf (buildResidualMM G f).arcs)).sum < 0 :=
      mul_neg_of_pos_of_neg hb hWneg
    rw [hcost]
    omega

/-! ### Progress and termination of the cancellation loop -/

theorem stepCaps_mem_ex (R : List Arc) :
    ∀ (ps : List (Nat × Nat)) (l : List Int), stepCaps R ps = some l →
      ∀ y ∈ l, ∃ p ∈ ps, ∃ a, findArc? R p.1 p.2 = some a ∧ a.acap = y := by
  intro ps
  induction ps with
  | nil =>
    intro l h y hy
    unfold stepCaps at h
    have hmapnil : (([] : List (Nat × Nat)).mapM
        (fun p => (findArc? R p.1 p.2).map (fun a => a.acap))) = some [] := rfl
    rw [hmapnil] at h
    have hl : l = [] := by
      injection h with h2
      exact h2.symm
    rw [hl] at hy
    simp at hy
  | cons p0 ps ih =>
    intro l h y hy
    unfold stepCaps at h
    rw [List.mapM_cons] at h
    cases hfa : (findArc? R p0.1 p0.2).map (fun a => a.acap) with
    | none =>
      rw [hfa] at h
      simp at h
    | some x0 =>
      rw [hfa] at h
      cases hrest : ps.mapM
          (fun p => (findArc? R p.1 p.2).map (fun a => a.acap)) with
      | none =>
        rw [hrest] at h
        simp at h
      | some xs =>
        rw [hrest] at h
        have hl : x0 :: xs = l := by simpa using h
        subst hl
        rcases List.mem_cons.1 hy with hy0 | hys
        · obtain ⟨a, ha1, ha2⟩ := Option.map_eq_some'.1 hfa
          exact ⟨p0, List.mem_cons_self _ _, a, ha1, by rw [ha2, hy0]⟩
        · obtain ⟨p, hp, a, ha1, ha2⟩ := ih xs hrest y hys
          exact ⟨p, List.mem_cons_of_mem _ hp, a, ha1, ha2⟩

theorem mmStep_progress (G : List BaseEdge) (f : Flow)
    (hS : SimpleDigraph G) (c : List Nat)
    (hk : karpCore (buildResidualMM G f).nodes (buildResidualMM G f).arcs
      = KarpRes.cycle c) :
    ∃ c0 cs, stepCaps (buildResidualMM G f).arcs (pairsOf c)
        = some (c0 :: cs) ∧
      ¬(cs.foldl min c0 ≤ 0) ∧
      ∃ f2, augmentCycle G (buildResidualMM G f).arcs f c (cs.foldl min c0)
        = some f2 := by
  obtain ⟨x, mid, hcEq, hnd, hchain⟩ := karpCore_cycle_shape _ _ c hk
  have hfind : ∀ p ∈ pairsOf c, ∃ a,
      findArc? (buildResidualMM G f).arcs p.1 p.2 = some a := by
    intro p hp
    obtain ⟨a, haR, hau, hav⟩ := hchain p hp
    refine ⟨a, ?_⟩
    rw [← hau, ← hav]
    exact findArc_uniq _ (mmResidual_uniq G f) a haR
  obtain ⟨l, hl, hlen⟩ := stepCaps_some _ (pairsOf c) hfind
  have hlp : 0 < (pairsOf c).length := by
    have h1 : (pairsOf c).length = c.dropLast.length := by
      rw [← pairsOf_map_fst c, List.length_map]
    rw [h1, hcEq, List.dropLast_concat]
    simp
  cases l with
  | nil =>
    rw [List.length_nil] at hlen
    omega
  | cons c0 cs =>
    refine ⟨c0, cs, hl, ?_, ?_⟩
    · have hall : ∀ y ∈ c0 :: cs, 0 < y := by
        intro y hy
        obtain ⟨p, hp, a, hfa, hay⟩ :=
          stepCaps_mem_ex _ (pairsOf c) _ hl y hy
        have hfp := findArc_pair _ p.1 p.2 a hfa
        rcases mmArc_inv G f a hfp.2.2 with
          ⟨-, e, he, -, -, hflt, hacap, -⟩ | ⟨-, e, he, -, -, hfgt, hacap, -⟩
        · rw [← hay, hacap]
          omega
        · rw [← hay, hacap]
          exact hfgt
      have hpos := foldl_min_pos cs c0 (hall c0 (List.mem_cons_self _ _))
        (fun y hy => hall y (List.mem_cons_of_mem _ hy))
      omega
    · exact augFold_some G _ _ (pairsOf c) f
        (fun p hp => (mm_cycle_steps G f hS c hchain p hp).1)

theorem mmLoop_succ (G : List BaseEdge) (fuel : Nat) (f : Flow) :
    mmLoop G (fuel + 1) f =
      match karpCore (buildResidualMM G f).nodes
          (buildResidualMM G f).arcs with
      | KarpRes.noCycle => some f
      | KarpRes.reconFail => some f
      | KarpRes.cycle c =>
        match stepCaps (buildResidualMM G f).arcs (pairsOf c) with
        | none => none
        | some [] => mmLoop G fuel f
        | some (c0 :: cs) =>
          if cs.foldl min c0 ≤ 0 then none
          else
            match augmentCycle G (buildResidualMM G f).arcs f c
                (cs.foldl min c0) with
            | none => none
            | some f2 => mmLoop G fuel f2 := rfl

theorem mmLoop_terminates (G : List BaseEdge) (s t : Nat)
    (hS : SimpleDigraph G)
    (hw : ∀ e ∈ G, 0 ≤ e.cw) :
    ∀ (fuel : Nat) (f : Flow), CapOK G f →
      (totalCostAll G f).toNat < fuel →
      ∃ fr, mmLoop G fuel f = some fr := by
  intro fuel
  induction fuel with
  | zero =>
    intro f _ h
    omega
  | succ fuel ih =>
    intro f hcap hlt
    rw [mmLoop_succ]
    cases hk : karpCore (buildResidualMM G f).nodes
        (buildResidualMM G f).arcs with
    | noCycle => exact ⟨f, rfl⟩
    | reconFail => exact ⟨f, rfl⟩
    | cycle c =>
      obtain ⟨c0, cs, hcaps, hbpos, f2, haug⟩ :=
        mmStep_progress G f hS c hk
      dsimp only []
      rw [hcaps]
      dsimp only []
      rw [if_neg hbpos, haug]
      have hstep : MMStep G f f2 := ⟨c, c0, cs, hk, hcaps, hbpos, haug⟩
      obtain ⟨hcap2, -, hdec⟩ := mmStep_invariants G s t hS f f2 hcap hstep
      have h0 : 0 ≤ totalCostAll G f2 := totalCostAll_nonneg G f2 hcap2 hw
      exact ih f2 hcap2 (by omega)

/-- **C3**: Every cycle cancellation performed by the main loop of
`cycle_cancelling_MM.py` (augmenting the flow by the bottleneck around the
detected cycle) strictly decreases the total cost of the current flow
assignment, and consequently the loop terminates after finitely many
cancellations on every valid input: any fuel exceeding the current
(nonnegative) total cost makes the loop return. -/
theorem c3_cost_decrease_termination (G : List BaseEdge) (s t : Nat)
    (hS : SimpleDigraph G)
    (hw : ∀ e ∈ G, 0 ≤ e.cw) :
    (∀ f f2, CapOK G f → MMStep G f f2 →
      totalCost G f2 < totalCost G f) ∧
    (∀ f fuel, CapOK G f → (totalCost G f).toNat < fuel →
      ∃ fr, mmLoop G fuel f = some fr) := by
  have hbridge : ∀ f, CapOK G f → totalCost G f = totalCostAll G f :=
    fun f hc => totalCost_eq_all G f (fun e he => (hc e he).1)
  constructor
  · intro f f2 hcap hstep
    obtain ⟨hcap2, -, hdec⟩ := mmStep_invariants G s t hS f f2 hcap hstep
    rw [hbridge f hcap, hbridge f2 hcap2]
    exact hdec
  · intro f fuel hcap hlt
    apply mmLoop_terminates G s t hS hw fuel f hcap
    rw [← hbridge f hcap]
    exact hlt

/-- **C3 witness**: on the scenario graph, the cancellation loop started at
the Edmonds-Karp max flow returns within fuel 20. -/
theorem c3_witness :
    ∃ fr, mmLoop graph2 20 (ekMaxFlow graph2 0 3 20) = some fr :=
  (c3_cost_decrease_termination graph2 0 3 (by decide)
    (by decide)).2 (ekMaxFlow graph2 0 3 20) 20 (by decide) (by decide)

/-! ### Maintenance of the BFS invariant -/

theorem ekScan_assign (G : List BaseEdge) (f : Flow)
    (st : (Nat → Option PredE) × List Nat) (hst : EKState G f st)
    (v' : Nat) (pi : PredE) (hnone : st.1 v' = none)
    (hprevok : ∀ p, pi.prev = some p → st.1 p ≠ none ∧
      ((pi.dirFwd = true ∧ pi.pu = p ∧ pi.pv = v' ∧
        ∃ e ∈ G, e.eu = p ∧ e.ev = v' ∧ f p v' < e.cap ∧
          pi.rescap = e.cap - f p v') ∨
      (pi.dirFwd = false ∧ pi.pu = v' ∧ pi.pv = p ∧
        ∃ e ∈ G, e.eu = v' ∧ e.ev = p ∧ 0 < f v' p ∧
          pi.rescap = f v' p))) :
    EKState G f (updO st.1 v' (some pi), st.2 ++ [v']) := by
  obtain ⟨hok, hq, rk, N, hbd, hrk⟩ := hst
  refine ⟨?_, ?_, ?_⟩
  · intro v pj hv p hp
    dsimp only [] at hv
    by_cases hveq : v = v'
    · subst hveq
      rw [updO_same] at hv
      injection hv with hv
      subst hv
      exact (hprevok p hp).2
    · rw [updO_other _ _ _ _ hveq] at hv
      exact hok v pj hv p hp
  · intro w hw
    dsimp only [] at hw ⊢
    by_cases hweq : w = v'
    · subst hweq
      rw [updO_same]
      simp
    · rw [updO_other _ _ _ _ hweq]
      rcases List.mem_append.1 hw with hw | hw
      · exact hq w hw
      · rw [List.mem_singleton.1 hw] at hweq
        exact absurd rfl hweq
  · refine ⟨fun z => if z = v' then N else rk z, N + 1, ?_, ?_⟩
    · intro v hv
      dsimp only [] at hv ⊢
      by_cases hveq : v = v'
      · rw [if_pos hveq]
        omega
      · rw [if_neg hveq]
        rw [updO_other _ _ _ _ hveq] at hv
        have := hbd v hv
        omega
    · intro v pj p hv hp
      dsimp only [] at hv ⊢
      by_cases hveq : v = v'
      · subst hveq
        rw [updO_same] at hv
        injection hv with hv
        subst hv
        have hpo := (hprevok p hp).1
        have hpne : p ≠ v := by
          intro hc
          rw [hc] at hpo
          exact hpo hnone
        constructor
        · rw [updO_other _ _ _ _ hpne]
          exact hpo
        · rw [if_neg hpne, if_pos rfl]
          exact hbd p hpo
      · rw [updO_other _ _ _ _ hveq] at hv
        obtain ⟨hpo, hplt⟩ := hrk v pj p hv hp
        have hpne : p ≠ v' := by
          intro hc
          rw [hc] at hpo
          exact hpo hnone
        constructor
        · rw [updO_other _ _ _ _ hpne]
          exact hpo
        · rw [if_neg hpne, if_neg hveq]
          exact hplt

theorem ekState_mono_queue (G : List BaseEdge) (f : Flow)
    (pred : Nat → Option PredE) (q q' : List Nat)
    (hsub : ∀ v ∈ q', v ∈ q) (hst : EKState G f (pred, q)) :
    EKState G f (pred, q') := by
  obtain ⟨hok, hq, hrk⟩ := hst
  exact ⟨hok, fun v hv => hq v (hsub v hv), hrk⟩

theorem ekScanOut_inv (G : List BaseEdge) (f : Flow) (node : Nat) :
    ∀ (L : List BaseEdge), (∀ e ∈ L, e ∈ G) →
      ∀ st, EKState G f st → st.1 node ≠ none →
        EKState G f (ekScanOut L f node st) ∧
        (∀ v, st.1 v ≠ none → (ekScanOut L f node st).1 v ≠ none) := by
  intro L
  induction L with
  | nil =>
    intro _ st hst _
    exact ⟨hst, fun v hv => hv⟩
  | cons e L ih =>
    intro hsub st hst hnode
    have hstep : EKState G f (if e.eu = node ∧ f e.eu e.ev < e.cap ∧
          st.1 e.ev = none then
          (updO st.1 e.ev (some ⟨some node, node, e.ev,
            e.cap - f e.eu e.ev, true⟩), st.2 ++ [e.ev])
        else st) ∧
        (∀ v, st.1 v ≠ none → (if e.eu = node ∧ f e.eu e.ev < e.cap ∧
          st.1 e.ev = none then
          (updO st.1 e.ev (some ⟨some node, node, e.ev,
            e.cap - f e.eu e.ev, true⟩), st.2 ++ [e.ev])
        else st).1 v ≠ none) := by
      by_cases hg : e.eu = node ∧ f e.eu e.ev < e.cap ∧ st.1 e.ev = none
      · rw [if_pos hg]
        constructor
        · apply ekScan_assign G f st hst e.ev _ hg.2.2
          intro p hp
          injection hp with hp
          subst hp
          refine ⟨hnode, Or.inl ⟨rfl, rfl, rfl, e, hsub e (List.mem_cons_self e L),
            hg.1, rfl, ?_, ?_⟩⟩
          · rw [← hg.1]
            exact hg.2.1
          · rw [← hg.1]
        · intro v hv
          show updO st.1 e.ev _ v ≠ none
          by_cases hveq : v = e.ev
          · rw [hveq, updO_same]
            simp
          · rw [updO_other _ _ _ _ hveq]
            exact hv
      · rw [if_neg hg]
        exact ⟨hst, fun v hv => hv⟩
    show EKState G f (L.foldl _ _) ∧ _
    have hsub' : ∀ e' ∈ L, e' ∈ G :=
      fun e' he' => hsub e' (List.mem_cons_of_mem e he')
    have hnode' := hstep.2 node hnode
    obtain ⟨hrec1, hrec2⟩ := ih hsub' _ hstep.1 hnode'
    exact ⟨hrec1, fun v hv => hrec2 v (hstep.2 v hv)⟩

theorem ekScanIn_inv (G : List BaseEdge) (f : Flow) (node : Nat) :
    ∀ (L : List BaseEdge), (∀ e ∈ L, e ∈ G) →
      ∀ st, EKState G f st → st.1 node ≠ none →
        EKState G f (ekScanIn L f node st) ∧
        (∀ v, st.1 v ≠ none → (ekScanIn L f node st).1 v ≠ none) := by
  intro L
  induction L with
  | nil =>
    intro _ st hst _
    exact ⟨hst, fun v hv => hv⟩
  | cons e L ih =>
    intro hsub st hst hnode
    have hstep : EKState G f (if e.ev = node ∧ 0 < f e.eu e.ev ∧
          st.1 e.eu = none then
          (updO st.1 e.eu (some ⟨some node, e.eu, node, f e.eu e.ev, false⟩),
            st.2 ++ [e.eu])
        else st) ∧
        (∀ v, st.1 v ≠ none → (if e.ev = node ∧ 0 < f e.eu e.ev ∧
          st.1 e.eu = none then
          (updO st.1 e.eu (some ⟨some node, e.eu, node, f e.eu e.ev, false⟩),
            st.2 ++ [e.eu])
        else st).1 v ≠ none) := by
      by_cases hg : e.ev = node ∧ 0 < f e.eu e.ev ∧ st.1 e.eu = none
      · rw [if_pos hg]
        constructor
        · apply ekScan_assign G f st hst e.eu _ hg.2.2
          intro p hp
          injection hp with hp
          subst hp
          refine ⟨hnode, Or.inr ⟨rfl, rfl, rfl, e, hsub e (List.mem_cons_self e L),
            rfl, hg.1, ?_, ?_⟩⟩
          · rw [← hg.1]
            exact hg.2.1
          · rw [← hg.1]
        · intro v hv
          show updO st.1 e.eu _ v ≠ none
          by_cases hveq : v = e.eu
          · rw [hveq, updO_same]
            simp
          · rw [updO_other _ _ _ _ hveq]
            exact hv
      · rw [if_neg hg]
        exact ⟨hst, fun v hv => hv⟩
    show EKState G f (L.foldl _ _) ∧ _
    have hsub' : ∀ e' ∈ L, e' ∈ G :=
      fun e' he' => hsub e' (List.mem_cons_of_mem e he')
    have hnode' := hstep.2 node hnode
    obtain ⟨hrec1, hrec2⟩ := ih hsub' _ hstep.1 hnode'
    exact ⟨hrec1, fun v hv => hrec2 v (hstep.2 v hv)⟩

theorem ekBFS_succ (G : List BaseEdge) (f : Flow) (t fuel : Nat)
    (pred : Nat → Option PredE) (queue : List Nat) :
    ekBFS G f t (fuel + 1) pred queue =
      match pred t with
      | some _ => pred
      | none =>
        match queue with
        | [] => pred
        | node :: rest =>
          ekBFS G f t fuel
            (ekScanIn G f node (ekScanOut G f node (pred, rest))).1
            (ekScanIn G f node (ekScanOut G f node (pred, rest))).2 := rfl

theorem ekBFS_inv (G : List BaseEdge) (f : Flow) (t : Nat) :
    ∀ (fuel : Nat) (pred : Nat → Option PredE) (queue : List Nat),
      EKState G f (pred, queue) →
      EKPredFine G f (ekBFS G f t fuel pred queue) := by
  intro fuel
  induction fuel with
  | zero =>
    intro pred queue hst
    obtain ⟨hok, -, rk, N, -, hrk⟩ := hst
    exact ⟨hok, rk, fun v pi p hv hp => (hrk v pi p hv hp).2⟩
  | succ fuel ih =>
    intro pred queue hst
    rw [ekBFS_succ]
    have hfine : EKPredFine G f pred := by
      obtain ⟨hok, -, rk, N, -, hrk⟩ := hst
      exact ⟨hok, rk, fun v pi p hv hp => (hrk v pi p hv hp).2⟩
    cases hpt : pred t with
    | some pi => exact hfine
    | none =>
      cases queue with
      | nil => exact hfine
      | cons node rest =>
        have hnode : pred node ≠ none :=
          hst.2.1 node (List.mem_cons_self node rest)
        have hst' : EKState G f (pred, rest) :=
          ekState_mono_queue G f pred (node :: rest) rest
            (fun v hv => List.mem_cons_of_mem node hv) hst
        obtain ⟨hout, houtm⟩ := ekScanOut_inv G f node G (fun e he => he)
          (pred, rest) hst' hnode
        obtain ⟨hin, hinm⟩ := ekScanIn_inv G f node G (fun e he => he)
          _ hout (houtm node hnode)
        exact ih _ _ hin

/-! ### The reconstructed augmenting path is a simple residual chain -/

theorem ekChain_last (G : List BaseEdge) (f : Flow) (s : Nat) :
    ∀ vs path cur, EKChain G f s vs path cur → vs.getLast? = some cur := by
  intro vs path cur h
  induction h with
  | base => rfl
  | step vs' path' u v pi hprev hpi ih =>
    rw [List.getLast?_concat]

theorem ekChain_ne_nil (G : List BaseEdge) (f : Flow) (s : Nat) :
    ∀ vs path cur, EKChain G f s vs path cur → vs ≠ [] := by
  intro vs path cur h
  induction h with
  | base => simp
  | step vs' path' u v pi hprev hpi ih => simp

theorem ekChain_head (G : List BaseEdge) (f : Flow) (s : Nat) :
    ∀ vs path cur, EKChain G f s vs path cur → vs.head? = some s := by
  intro vs path cur h
  induction h with
  | base => rfl
  | step vs' path' u v pi hprev hpi ih =>
    rw [← ih]
    cases vs' with
    | nil => exact absurd rfl (ekChain_ne_nil G f s [] path' u hprev)
    | cons a r => rfl

theorem ekChain_mem_entries (G : List BaseEdge) (f : Flow) (s : Nat) :
    ∀ vs path cur, EKChain G f s vs path cur →
      ∀ pi ∈ path, pi.pu ∈ vs ∧ pi.pv ∈ vs := by
  intro vs path cur h
  induction h with
  | base =>
    intro pi hpi
    simp at hpi
  | step vs' path' u v pi hprev hpi ih =>
    intro pj hpj
    have hu : u ∈ vs' := by
      have := ekChain_last G f s vs' path' u hprev
      exact List.mem_of_getLast?_eq_some this
    rcases List.mem_cons.1 hpj with hpj | hpj
    · subst hpj
      rcases hpi with ⟨-, hpu, hpv, -⟩ | ⟨-, hpu, hpv, -⟩
      · constructor
        · rw [hpu]
          exact List.mem_append.2 (Or.inl hu)
        · rw [hpv]
          exact List.mem_append.2 (Or.inr (List.mem_singleton.2 rfl))
      · constructor
        · rw [hpu]
          exact List.mem_append.2 (Or.inr (List.mem_singleton.2 rfl))
        · rw [hpv]
          exact List.mem_append.2 (Or.inl hu)
    · obtain ⟨h1, h2⟩ := ih pj hpj
      exact ⟨List.mem_append.2 (Or.inl h1), List.mem_append.2 (Or.inl h2)⟩

theorem ekChain_entry_facts (G : List BaseEdge) (f : Flow) (s : Nat) :
    ∀ vs path cur, EKChain G f s vs path cur →
      ∀ pi ∈ path,
        (pi.dirFwd = true ∧ ∃ e ∈ G, e.eu = pi.pu ∧ e.ev = pi.pv ∧
          f pi.pu pi.pv < e.cap ∧ pi.rescap = e.cap - f pi.pu pi.pv) ∨
        (pi.dirFwd = false ∧ ∃ e ∈ G, e.eu = pi.pu ∧ e.ev = pi.pv ∧
          0 < f pi.pu pi.pv ∧ pi.rescap = f pi.pu pi.pv) := by
  intro vs path cur h
  induction h with
  | base =>
    intro pi hpi
    simp at hpi
  | step vs' path' u v pi hprev hpi ih =>
    intro pj hpj
    rcases List.mem_cons.1 hpj with hpj | hpj
    · subst hpj
      rcases hpi with ⟨hd, hpu, hpv, e, he, heu, hev, hlt, hcap⟩ |
        ⟨hd, hpu, hpv, e, he, heu, hev, hlt, hcap⟩
      · left
        refine ⟨hd, e, he, ?_, ?_, ?_, ?_⟩
        · rw [hpu]
          exact heu
        · rw [hpv]
          exact hev
        · rw [hpu, hpv]
          exact hlt
        · rw [hpu, hpv]
          exact hcap
      · right
        refine ⟨hd, e, he, ?_, ?_, ?_, ?_⟩
        · rw [hpu]
          exact heu
        · rw [hpv]
          exact hev
        · rw [hpu, hpv]
          exact hlt
        · rw [hpu, hpv]
          exact hcap
    · exact ih pj hpj

theorem nodup_of_pairwise_rk (rk : Nat → Nat) (vs : List Nat)
    (h : vs.Pairwise (fun a b => rk a < rk b)) : vs.Nodup := by
  refine h.imp ?_
  intro a b hab hc
  rw [hc] at hab
  exact lt_irrefl _ hab

theorem ekPath_chain (G : List BaseEdge) (f : Flow)
    (pred : Nat → Option PredE) (rk : Nat → Nat) (s : Nat)
    (hok : ekPredOK G f pred)
    (hrk : ∀ v pi p, pred v = some pi → pi.prev = some p → rk p < rk v) :
    ∀ (fuel : Nat) (cur : Nat) (path : List PredE),
      ekPath pred s fuel cur = some path →
      ∃ vs, EKChain G f s vs path cur ∧
        (∀ a ∈ vs, rk a ≤ rk cur) ∧
        vs.Pairwise (fun a b => rk a < rk b) := by
  intro fuel
  induction fuel with
  | zero =>
    intro cur path h
    exact Option.noConfusion h
  | succ fuel ih =>
    intro cur path h
    unfold ekPath at h
    by_cases hcs : cur = s
    · rw [if_pos hcs] at h
      injection h with h
      subst h
      subst hcs
      refine ⟨[cur], EKChain.base, ?_, List.pairwise_singleton _ _⟩
      intro a ha
      exact le_of_eq (congrArg rk (List.mem_singleton.1 ha))
    · rw [if_neg hcs] at h
      cases hpc : pred cur with
      | none =>
        rw [hpc] at h
        exact Option.noConfusion h
      | some pi =>
        rw [hpc] at h
        dsimp only [] at h
        cases hpp : pi.prev with
        | none =>
          rw [hpp] at h
          exact Option.noConfusion h
        | some p =>
          rw [hpp] at h
          dsimp only [] at h
          cases hrec : ekPath pred s fuel p with
          | none =>
            rw [hrec] at h
            exact Option.noConfusion h
          | some path' =>
            rw [hrec] at h
            have hpath : path = pi :: path' := by
              simpa using h.symm
            subst hpath
            obtain ⟨vs', hchain, hbound, hpw⟩ := ih p path' hrec
            have hstep := hok cur pi hpc p hpp
            have hlt : rk p < rk cur := hrk cur pi p hpc hpp
            refine ⟨vs' ++ [cur],
              EKChain.step vs' path' p cur pi hchain hstep, ?_, ?_⟩
            · intro a ha
              rcases List.mem_append.1 ha with ha | ha
              · exact le_trans (hbound a ha) (le_of_lt hlt)
              · exact le_of_eq (congrArg rk (List.mem_singleton.1 ha))
            · rw [List.pairwise_append]
              refine ⟨hpw, List.pairwise_singleton _ _, ?_⟩
              intro a ha b hb
              rw [List.mem_singleton.1 hb]
              exact lt_of_le_of_lt (hbound a ha) hlt

/-! ### List decompositions at the endpoints -/

theorem eq_dropLast_append :
    ∀ (l : List Nat) (g : Nat), l.getLast? = some g → l = l.dropLast ++ [g]
  | [], g => by
    intro h
    exact Option.noConfusion h
  | [a], g => by
    intro h
    have h2 : a = g := by
      simpa using h
    rw [h2]
    rfl
  | a :: b :: r, g => by
    intro h
    have h' : (b :: r).getLast? = some g := by
      simpa using h
    have hrec := eq_dropLast_append (b :: r) g h'
    calc a :: b :: r = a :: ((b :: r).dropLast ++ [g]) := by rw [← hrec]
    _ = (a :: b :: r).dropLast ++ [g] := by rw [List.dropLast_cons₂]; rfl

theorem eq_head_cons (l : List Nat) (a : Nat) (h : l.head? = some a) :
    l = a :: l.tail := by
  cases l with
  | nil => exact Option.noConfusion h
  | cons b r =>
    have h2 : b = a := by
      simpa using h
    rw [h2]
    rfl

theorem tail_append_singleton (l : List Nat) (v : Nat) (h : l ≠ []) :
    (l ++ [v]).tail = l.tail ++ [v] := by
  cases l with
  | nil => exact absurd rfl h
  | cons a r => rfl

/-! ### Applying one augmentation -/

theorem ekApply_entry (aug : Int) :
    ∀ (path : List PredE) (f : Flow) (x y : Nat),
      ekApply aug f path x y = f x y
        + aug * (path.countP (fun pi => pi.dirFwd &&
            (pi.pu == x && pi.pv == y)) : Int)
        - aug * (path.countP (fun pi => !pi.dirFwd &&
            (pi.pu == x && pi.pv == y)) : Int) := by
  intro path
  induction path with
  | nil =>
    intro f x y
    show f x y = _
    simp
  | cons pi path ih =>
    intro f x y
    show ekApply aug (updFlow f pi.pu pi.pv
      (f pi.pu pi.pv + (if pi.dirFwd then aug else -aug))) path x y = _
    rw [ih]
    by_cases hd : pi.dirFwd = true
    · rw [List.countP_cons_of_neg
        (fun q => !q.dirFwd && (q.pu == x && q.pv == y)) path
        (by simp [hd])]
      by_cases hpxy : (pi.pu == x && pi.pv == y) = true
      · rw [List.countP_cons_of_pos
          (fun q => q.dirFwd && (q.pu == x && q.pv == y)) path
          (by simp [hd, hpxy])]
        have hp : pi.pu = x ∧ pi.pv = y := by simpa using hpxy
        have hval : updFlow f pi.pu pi.pv
            (f pi.pu pi.pv + (if pi.dirFwd = true then aug else -aug)) x y
            = f x y + aug := by
          rw [if_pos hd, hp.1, hp.2]
          exact updFlow_same f x y _
        rw [hval]
        push_cast
        ring
      · rw [List.countP_cons_of_neg
          (fun q => q.dirFwd && (q.pu == x && q.pv == y)) path
          (by simp [hpxy])]
        have hp : ¬(pi.pu = x ∧ pi.pv = y) := by simpa using hpxy
        have hval : updFlow f pi.pu pi.pv
            (f pi.pu pi.pv + (if pi.dirFwd = true then aug else -aug)) x y
            = f x y :=
          updFlow_other _ _ _ _ x y (fun hc => hp ⟨hc.1.symm, hc.2.symm⟩)
        rw [hval]
    · have hd2 : pi.dirFwd = false := by simpa using hd
      rw [List.countP_cons_of_neg
        (fun q => q.dirFwd && (q.pu == x && q.pv == y)) path
        (by simp [hd2])]
      by_cases hpxy : (pi.pu == x && pi.pv == y) = true
      · rw [List.countP_cons_of_pos
          (fun q => !q.dirFwd && (q.pu == x && q.pv == y)) path
          (by simp [hd2, hpxy])]
        have hp : pi.pu = x ∧ pi.pv = y := by simpa using hpxy
        have hval : updFlow f pi.pu pi.pv
            (f pi.pu pi.pv + (if pi.dirFwd = true then aug else -aug)) x y
            = f x y + -aug := by
          rw [if_neg (by simp [hd2]), hp.1, hp.2]
          exact updFlow_same f x y _
        rw [hval]
        push_cast
        ring
      · rw [List.countP_cons_of_neg
          (fun q => !q.dirFwd && (q.pu == x && q.pv == y)) path
          (by simp [hpxy])]
        have hp : ¬(pi.pu = x ∧ pi.pv = y) := by simpa using hpxy
        have hval : updFlow f pi.pu pi.pv
            (f pi.pu pi.pv + (if pi.dirFwd = true then aug else -aug)) x y
            = f x y :=
          updFlow_other _ _ _ _ x y (fun hc => hp ⟨hc.1.symm, hc.2.symm⟩)
        rw [hval]

theorem ekApply_flowValue (G : List BaseEdge) (hS : SimpleDigraph G)
    (aug : Int) :
    ∀ (path : List PredE), (∀ pi ∈ path, hasBase G pi.pu pi.pv = true) →
      ∀ (f : Flow) (z : Nat), flowValue G (ekApply aug f path) z
        = flowValue G f z
          + aug * (path.countP
              (fun pi => (if pi.dirFwd then pi.pu else pi.pv) == z) : Int)
          - aug * (path.countP
              (fun pi => (if pi.dirFwd then pi.pv else pi.pu) == z) : Int) := by
  intro path
  induction path with
  | nil =>
    intro _ f z
    show flowValue G f z = _
    simp
  | cons pi path ih =>
    intro hb f z
    show flowValue G (ekApply aug (updFlow f pi.pu pi.pv
      (f pi.pu pi.pv + (if pi.dirFwd then aug else -aug))) path) z = _
    rw [ih (fun q hq => hb q (List.mem_cons_of_mem pi hq))]
    have hbase := hb pi (List.mem_cons_self pi path)
    rw [flowValue_updFlow G hS pi.pu pi.pv hbase
      (f pi.pu pi.pv + (if pi.dirFwd then aug else -aug)) f z]
    by_cases hd : pi.dirFwd = true
    · have hx : f pi.pu pi.pv + (if pi.dirFwd = true then aug else -aug)
          - f pi.pu pi.pv = aug := by
        rw [if_pos hd]
        ring
      rw [hx]
      by_cases hz1 : pi.pu = z <;> by_cases hz2 : pi.pv = z
      · rw [List.countP_cons_of_pos
            (fun q => ((if q.dirFwd then q.pu else q.pv) == z)) path
            (by simp [hd, hz1]),
          List.countP_cons_of_pos
            (fun q => ((if q.dirFwd then q.pv else q.pu) == z)) path
            (by simp [hd, hz2]),
          if_pos hz1.symm, if_pos hz2.symm]
        push_cast
        ring
      · rw [List.countP_cons_of_pos
            (fun q => ((if q.dirFwd then q.pu else q.pv) == z)) path
            (by simp [hd, hz1]),
          List.countP_cons_of_neg
            (fun q => ((if q.dirFwd then q.pv else q.pu) == z)) path
            (by simp [hd, hz2]),
          if_pos hz1.symm, if_neg (fun hc : z = pi.pv => hz2 hc.symm)]
        push_cast
        ring
      · rw [List.countP_cons_of_neg
            (fun q => ((if q.dirFwd then q.pu else q.pv) == z)) path
            (by simp [hd, hz1]),
          List.countP_cons_of_pos
            (fun q => ((if q.dirFwd then q.pv else q.pu) == z)) path
            (by simp [hd, hz2]),
          if_neg (fun hc : z = pi.pu => hz1 hc.symm), if_pos hz2.symm]
        push_cast
        ring
      · rw [List.countP_cons_of_neg
            (fun q => ((if q.dirFwd then q.pu else q.pv) == z)) path
            (by simp [hd, hz1]),
          List.countP_cons_of_neg
            (fun q => ((if q.dirFwd then q.pv else q.pu) == z)) path
            (by simp [hd, hz2]),
          if_neg (fun hc : z = pi.pu => hz1 hc.symm),
          if_neg (fun hc : z = pi.pv => hz2 hc.symm)]
        push_cast
        ring
    · have hd2 : pi.dirFwd = false := by simpa using hd
      have hx : f pi.pu pi.pv + (if pi.dirFwd = true then aug else -aug)
          - f pi.pu pi.pv = -aug := by
        rw [if_neg (by simp [hd2])]
        ring
      rw [hx]
      by_cases hz1 : pi.pu = z <;> by_cases hz2 : pi.pv = z
      · rw [List.countP_cons_of_pos
            (fun q => ((if q.dirFwd then q.pu else q.pv) == z)) path
            (by simp [hd2, hz2]),
          List.countP_cons_of_pos
            (fun q => ((if q.dirFwd then q.pv else q.pu) == z)) path
            (by simp [hd2, hz1]),
          if_pos hz1.symm, if_pos hz2.symm]
        push_cast
        ring
      · rw [List.countP_cons_of_neg
            (fun q => ((if q.dirFwd then q.pu else q.pv) == z)) path
            (by simp [hd2, hz2]),
          List.countP_cons_of_pos
            (fun q => ((if q.dirFwd then q.pv else q.pu) == z)) path
            (by simp [hd2, hz1]),
          if_pos hz1.symm, if_neg (fun hc : z = pi.pv => hz2 hc.symm)]
        push_cast
        ring
      · rw [List.countP_cons_of_pos
            (fun q => ((if q.dirFwd then q.pu else q.pv) == z)) path
            (by simp [hd2, hz2]),
          List.countP_cons_of_neg
            (fun q => ((if q.dirFwd then q.pv else q.pu) == z)) path
            (by simp [hd2, hz1]),
          if_neg (fun hc : z = pi.pu => hz1 hc.symm), if_pos hz2.symm]
        push_cast
        ring
      · rw [List.countP_cons_of_neg
            (fun q => ((if q.dirFwd then q.pu else q.pv) == z)) path
            (by simp [hd2, hz2]),
          List.countP_cons_of_neg
            (fun q => ((if q.dirFwd then q.pv else q.pu) == z)) path
            (by simp [hd2, hz1]),
          if_neg (fun hc : z = pi.pu => hz1 hc.symm),
          if_neg (fun hc : z = pi.pv => hz2 hc.symm)]
        push_cast
        ring

theorem ekChain_counts (G : List BaseEdge) (f : Flow) (s : Nat) :
    ∀ vs path cur, EKChain G f s vs path cur → ∀ z : Nat,
      path.countP (fun pi => (if pi.dirFwd then pi.pu else pi.pv) == z)
        = vs.dropLast.countP (fun w => w == z) ∧
      path.countP (fun pi => (if pi.dirFwd then pi.pv else pi.pu) == z)
        = vs.tail.countP (fun w => w == z) := by
  intro vs path cur h
  induction h with
  | base =>
    intro z
    constructor <;> rfl
  | step vs' path' u v pi hprev hpi ih =>
    intro z
    obtain ⟨ih1, ih2⟩ := ih z
    have hlast : vs'.getLast? = some u := ekChain_last G f s vs' path' u hprev
    have hne : vs' ≠ [] := ekChain_ne_nil G f s vs' path' u hprev
    have hsrc : ((if pi.dirFwd then pi.pu else pi.pv) == z) = (u == z) := by
      rcases hpi with ⟨hd, hpu, hpv, -⟩ | ⟨hd, hpu, hpv, -⟩
      · rw [if_pos hd, hpu]
      · rw [if_neg (by simp [hd]), hpv]
    have hdst : ((if pi.dirFwd then pi.pv else pi.pu) == z) = (v == z) := by
      rcases hpi with ⟨hd, hpu, hpv, -⟩ | ⟨hd, hpu, hpv, -⟩
      · rw [if_pos hd, hpv]
      · rw [if_neg (by simp [hd]), hpu]
    constructor
    · rw [List.countP_cons, ih1, hsrc, List.dropLast_concat]
      conv_rhs => rw [eq_dropLast_append vs' u hlast]
      rw [List.countP_append, List.countP_cons, List.countP_nil]
      omega
    · rw [List.countP_cons, ih2, hdst, tail_append_singleton vs' v hne,
        List.countP_append, List.countP_cons, List.countP_nil]
      omega

theorem countP_bool_partition (pred : PredE → Bool) :
    ∀ path : List PredE,
      path.countP (fun pi => pi.dirFwd && pred pi)
        + path.countP (fun pi => !pi.dirFwd && pred pi)
      = path.countP pred := by
  intro path
  induction path with
  | nil => simp
  | cons pi path ih =>
    rw [List.countP_cons, List.countP_cons, List.countP_cons]
    by_cases hd : pi.dirFwd = true <;> by_cases hp : pred pi = true <;>
      simp [hd, hp] <;> omega

theorem ekChain_pair_once (G : List BaseEdge) (f : Flow) (s : Nat) :
    ∀ vs path cur, EKChain G f s vs path cur → vs.Nodup →
      ∀ x y : Nat, path.countP (fun pi => pi.pu == x && pi.pv == y) ≤ 1 := by
  intro vs path cur h
  induction h with
  | base =>
    intro _ x y
    simp
  | step vs' path' u v pi hprev hpi ih =>
    intro hnd x y
    have hnd1 : vs'.Nodup := (List.nodup_append.1 hnd).1
    have hnd2 : v ∉ vs' := by
      intro hv
      exact (List.nodup_append.1 hnd).2.2 hv (List.mem_singleton.2 rfl)
    by_cases hmatch : (pi.pu == x && pi.pv == y) = true
    · rw [List.countP_cons_of_pos
        (fun q => q.pu == x && q.pv == y) path' hmatch]
      have hzero : path'.countP (fun q => q.pu == x && q.pv == y) = 0 := by
        rw [List.countP_eq_zero]
        intro pj hpj hmj
        have hmem := ekChain_mem_entries G f s vs' path' u hprev pj hpj
        simp only [Bool.and_eq_true, beq_iff_eq] at hmatch hmj
        rcases hpi with ⟨-, hpu, hpv, -⟩ | ⟨-, hpu, hpv, -⟩
        · have hyv : y = v := by rw [← hmatch.2, hpv]
          have hjv : pj.pv = v := hmj.2.trans hyv
          exact hnd2 (hjv ▸ hmem.2)
        · have hxv : x = v := by rw [← hmatch.1, hpu]
          have hjv : pj.pu = v := hmj.1.trans hxv
          exact hnd2 (hjv ▸ hmem.1)
      rw [hzero]
    · rw [List.countP_cons_of_neg
        (fun q => q.pu == x && q.pv == y) path' (by simp [hmatch])]
      exact ih hnd1 x y

theorem foldl_min_rescap_le_acc (ps : List PredE) :
    ∀ m : Int, (ps.foldl (fun m pj => min m pj.rescap) m ≤ m) ∧
      ∀ pi ∈ ps, ps.foldl (fun m pj => min m pj.rescap) m ≤ pi.rescap := by
  induction ps with
  | nil =>
    intro m
    refine ⟨le_refl m, ?_⟩
    intro pi hpi
    simp at hpi
  | cons pj ps ih =>
    intro m
    rw [List.foldl_cons]
    obtain ⟨ih1, ih2⟩ := ih (min m pj.rescap)
    refine ⟨le_trans ih1 (min_le_left _ _), ?_⟩
    intro pi hpi
    rcases List.mem_cons.1 hpi with h | h
    · rw [h]
      exact le_trans ih1 (min_le_right _ _)
    · exact ih2 pi h

theorem foldl_min_rescap_pos (ps : List PredE) :
    ∀ m : Int, 0 < m → (∀ pi ∈ ps, 0 < pi.rescap) →
      0 < ps.foldl (fun m pj => min m pj.rescap) m := by
  induction ps with
  | nil =>
    intro m h _
    exact h
  | cons pj ps ih =>
    intro m h hall
    rw [List.foldl_cons]
    exact ih (min m pj.rescap)
      (lt_min h (hall pj (List.mem_cons_self pj ps)))
      (fun pi hpi => hall pi (List.mem_cons_of_mem pj hpi))

theorem ekAugment_capOK (G : List BaseEdge) (hS : SimpleDigraph G)
    (f : Flow) (hcap : CapOK G f) (s cur : Nat) (vs : List Nat)
    (path : List PredE) (hchain : EKChain G f s vs path cur)
    (hnd : vs.Nodup) (aug : Int)
    (haug : ∀ pi ∈ path, aug ≤ pi.rescap) (hpos : 0 < aug) :
    CapOK G (ekApply aug f path) := by
  intro e he
  have hent := ekApply_entry aug path f e.eu e.ev
  have hsum := countP_bool_partition (fun pi => pi.pu == e.eu && pi.pv == e.ev)
    path
  have honce := ekChain_pair_once G f s vs path cur hchain hnd e.eu e.ev
  have hF : ∀ n, path.countP (fun pi => pi.dirFwd &&
      (pi.pu == e.eu && pi.pv == e.ev)) = n → 0 < n →
      aug ≤ e.cap - f e.eu e.ev := by
    intro n hn hnpos
    have hposc : 0 < path.countP (fun pi => pi.dirFwd &&
        (pi.pu == e.eu && pi.pv == e.ev)) := by omega
    obtain ⟨pi, hpmem, hpF⟩ := List.countP_pos_iff.1 hposc
    simp only [Bool.and_eq_true, beq_iff_eq] at hpF
    rcases ekChain_entry_facts G f s vs path cur hchain pi hpmem with
      ⟨-, e', he', heu, hev, hflt, hcapr⟩ | ⟨hd, -⟩
    · have hee : e' = e :=
        simple_edge_eq G hS e' e he' he
          (by rw [heu, hpF.2.1]) (by rw [hev, hpF.2.2])
      have hb := haug pi hpmem
      rw [hcapr, hee, hpF.2.1, hpF.2.2] at hb
      exact hb
    · rw [hpF.1] at hd
      cases hd
  have hB : ∀ n, path.countP (fun pi => !pi.dirFwd &&
      (pi.pu == e.eu && pi.pv == e.ev)) = n → 0 < n →
      aug ≤ f e.eu e.ev := by
    intro n hn hnpos
    have hposc : 0 < path.countP (fun pi => !pi.dirFwd &&
        (pi.pu == e.eu && pi.pv == e.ev)) := by omega
    obtain ⟨pi, hpmem, hpB⟩ := List.countP_pos_iff.1 hposc
    simp only [Bool.and_eq_true, Bool.not_eq_true', beq_iff_eq] at hpB
    rcases ekChain_entry_facts G f s vs path cur hchain pi hpmem with
      ⟨hd, -⟩ | ⟨-, e', he', heu, hev, hfgt, hcapr⟩
    · rw [hpB.1] at hd
      cases hd
    · have hee : e' = e :=
        simple_edge_eq G hS e' e he' he
          (by rw [heu, hpB.2.1]) (by rw [hev, hpB.2.2])
      have hb := haug pi hpmem
      rw [hcapr, hpB.2.1, hpB.2.2] at hb
      exact hb
  have hce := hcap e he
  have hcFle : path.countP (fun pi => pi.dirFwd &&
      (pi.pu == e.eu && pi.pv == e.ev)) ≤ 1 := by omega
  have hcBle : path.countP (fun pi => !pi.dirFwd &&
      (pi.pu == e.eu && pi.pv == e.ev)) ≤ 1 := by omega
  rcases Nat.le_one_iff_eq_zero_or_eq_one.1 hcFle with hcF | hcF <;>
    rcases Nat.le_one_iff_eq_zero_or_eq_one.1 hcBle with hcB | hcB <;>
    rw [hcF, hcB] at hent <;> push_cast at hent <;>
    simp only [mul_zero, mul_one] at hent
  · omega
  · have := hB 1 hcB (by omega)
    omega
  · have := hF 1 hcF (by omega)
    omega
  · have h1 := hF 1 hcF (by omega)
    have h2 := hB 1 hcB (by omega)
    omega

theorem ekAugment_conserved (G : List BaseEdge) (hS : SimpleDigraph G)
    (s t : Nat) (f : Flow) (vs : List Nat) (path : List PredE)
    (hchain : EKChain G f s vs path t) (aug : Int)
    (hcons : Conserved G f s t) : Conserved G (ekApply aug f path) s t := by
  intro z hz hzs hzt
  have hbase : ∀ pi ∈ path, hasBase G pi.pu pi.pv = true := by
    intro pi hpi
    rcases ekChain_entry_facts G f s vs path t hchain pi hpi with
      ⟨-, e, he, heu, hev, -⟩ | ⟨-, e, he, heu, hev, -⟩ <;>
      · have hbm := hasBase_of_mem G e he
        rw [heu, hev] at hbm
        exact hbm
  have hfv := ekApply_flowValue G hS aug path hbase f z
  obtain ⟨hc1, hc2⟩ := ekChain_counts G f s vs path t hchain z
  rw [hc1, hc2] at hfv
  have hhead : vs.head? = some s := ekChain_head G f s vs path t hchain
  have hlast : vs.getLast? = some t := ekChain_last G f s vs path t hchain
  have hcnt : vs.dropLast.countP (fun w => w == z)
      = vs.tail.countP (fun w => w == z) := by
    have h1 : vs.countP (fun w => w == z)
        = vs.dropLast.countP (fun w => w == z)
          + (if (t == z) = true then 1 else 0) := by
      conv_lhs => rw [eq_dropLast_append vs t hlast]
      rw [List.countP_append, List.countP_cons, List.countP_nil]
      omega
    have h2 : vs.countP (fun w => w == z)
        = vs.tail.countP (fun w => w == z)
          + (if (s == z) = true then 1 else 0) := by
      conv_lhs => rw [eq_head_cons vs s hhead]
      rw [List.countP_cons]
    have hsz : (s == z) = false := by
      simp only [beq_eq_false_iff_ne, ne_eq]
      exact fun hc => hzs hc.symm
    have htz : (t == z) = false := by
      simp only [beq_eq_false_iff_ne, ne_eq]
      exact fun hc => hzt hc.symm
    rw [hsz] at h2
    rw [htz] at h1
    simp only [Bool.false_eq_true, if_false] at h1 h2
    omega
  rw [hcnt] at hfv
  have h0 : flowValue G f z = 0 := by
    have hc := hcons z hz hzs hzt
    unfold ConservedAt at hc
    unfold flowValue
    omega
  show outFlow G (ekApply aug f path) z = inFlow G (ekApply aug f path) z
  have hfv0 : flowValue G (ekApply aug f path) z = 0 := by
    rw [hfv, h0]
    ring
  unfold flowValue at hfv0
  omega

/-! ### Validity of the max-flow initializer -/

theorem ekLoop_succ (G : List BaseEdge) (s t : Nat) (fuel : Nat) (f : Flow) :
    ekLoop G s t (fuel + 1) f =
      match (ekBFS G f t ((graphNodes G).length + 1)
          (updO (fun _ => none) s (some ⟨none, 0, 0, 0, true⟩)) [s]) t with
      | none => f
      | some _ =>
        match ekPath (ekBFS G f t ((graphNodes G).length + 1)
            (updO (fun _ => none) s (some ⟨none, 0, 0, 0, true⟩)) [s]) s
            ((graphNodes G).length + 1) t with
        | none => f
        | some [] => f
        | some (p0 :: ps) =>
          ekLoop G s t fuel
            (ekApply (ps.foldl (fun m pi => min m pi.rescap) p0.rescap) f
              (p0 :: ps)) := rfl

theorem ekSeed_state (G : List BaseEdge) (f : Flow) (s : Nat) :
    EKState G f
      (updO (fun _ => none) s (some ⟨none, 0, 0, 0, true⟩), [s]) := by
  refine ⟨?_, ?_, fun _ => 0, 1, ?_, ?_⟩
  · intro v pi hv p hp
    dsimp only [] at hv
    by_cases hvs : v = s
    · subst hvs
      rw [updO_same] at hv
      injection hv with hv
      subst hv
      exact Option.noConfusion hp
    · rw [updO_other _ _ _ _ hvs] at hv
      exact Option.noConfusion hv
  · intro v hv
    dsimp only [] at hv ⊢
    rw [List.mem_singleton.1 hv, updO_same]
    simp
  · intro v _
    exact Nat.zero_lt_one
  · intro v pi p hv hp
    dsimp only [] at hv
    by_cases hvs : v = s
    · subst hvs
      rw [updO_same] at hv
      injection hv with hv
      subst hv
      exact Option.noConfusion hp
    · rw [updO_other _ _ _ _ hvs] at hv
      exact Option.noConfusion hv

theorem ekLoop_valid (G : List BaseEdge) (s t : Nat) (hS : SimpleDigraph G) :
    ∀ (fuel : Nat) (f : Flow), CapOK G f → Conserved G f s t →
      CapOK G (ekLoop G s t fuel f) ∧ Conserved G (ekLoop G s t fuel f) s t := by
  intro fuel
  induction fuel with
  | zero =>
    intro f h1 h2
    exact ⟨h1, h2⟩
  | succ fuel ih =>
    intro f h1 h2
    rw [ekLoop_succ]
    cases hpt : (ekBFS G f t ((graphNodes G).length + 1)
        (updO (fun _ => none) s (some ⟨none, 0, 0, 0, true⟩)) [s]) t with
    | none => exact ⟨h1, h2⟩
    | some pi0 =>
      dsimp only []
      cases hpath : ekPath (ekBFS G f t ((graphNodes G).length + 1)
          (updO (fun _ => none) s (some ⟨none, 0, 0, 0, true⟩)) [s]) s
          ((graphNodes G).length + 1) t with
      | none => exact ⟨h1, h2⟩
      | some path =>
        cases path with
        | nil => exact ⟨h1, h2⟩
        | cons p0 ps =>
          obtain ⟨hok, rk, hrk⟩ := ekBFS_inv G f t ((graphNodes G).length + 1)
            _ _ (ekSeed_state G f s)
          obtain ⟨vs, hchain, -, hpw⟩ := ekPath_chain G f _ rk s hok hrk
            ((graphNodes G).length + 1) t (p0 :: ps) hpath
          have hnd := nodup_of_pairwise_rk rk vs hpw
          have hrescap_pos : ∀ pi ∈ (p0 :: ps), 0 < pi.rescap := by
            intro pi hpi
            rcases ekChain_entry_facts G f s vs (p0 :: ps) t hchain pi hpi with
              ⟨-, e, he, -, -, hflt, hcapr⟩ | ⟨-, e, he, -, -, hfgt, hcapr⟩
            · rw [hcapr]
              omega
            · rw [hcapr]
              exact hfgt
          have haugle : ∀ pi ∈ (p0 :: ps),
              ps.foldl (fun m pj => min m pj.rescap) p0.rescap
                ≤ pi.rescap := by
            intro pi hpi
            rcases List.mem_cons.1 hpi with h | h
            · rw [h]
              exact (foldl_min_rescap_le_acc ps p0.rescap).1
            · exact (foldl_min_rescap_le_acc ps p0.rescap).2 pi h
          have haugpos :
              0 < ps.foldl (fun m pj => min m pj.rescap) p0.rescap :=
            foldl_min_rescap_pos ps p0.rescap
              (hrescap_pos p0 (List.mem_cons_self p0 ps))
              (fun pi hpi => hrescap_pos pi (List.mem_cons_of_mem p0 hpi))
          have hcap2 := ekAugment_capOK G hS f h1 s t vs (p0 :: ps) hchain hnd
            (ps.foldl (fun m pj => min m pj.rescap) p0.rescap) haugle haugpos
          have hcons2 := ekAugment_conserved G hS s t f vs (p0 :: ps) hchain
            (ps.foldl (fun m pj => min m pj.rescap) p0.rescap) h2
          exact ih _ hcap2 hcons2

theorem zero_capOK (G : List BaseEdge) (hcaps : ∀ e ∈ G, 0 ≤ e.cap) :
    CapOK G (fun _ _ => 0) := by
  intro e he
  exact ⟨le_refl 0, hcaps e he⟩

theorem zero_conserved (G : List BaseEdge) (s t : Nat) :
    Conserved G (fun _ _ => 0) s t := by
  intro z _ _ _
  show outFlow G (fun _ _ => 0) z = inFlow G (fun _ _ => 0) z
  unfold outFlow inFlow
  simp

theorem ekMaxFlow_valid (G : List BaseEdge) (s t : Nat)
    (hS : SimpleDigraph G) (hcaps : ∀ e ∈ G, 0 ≤ e.cap) (fuel : Nat) :
    CapOK G (ekMaxFlow G s t fuel) ∧
      Conserved G (ekMaxFlow G s t fuel) s t :=
  ekLoop_valid G s t hS fuel (fun _ _ => 0) (zero_capOK G hcaps)
    (zero_conserved G s t)

/-- **C2.** On every simple directed graph with non-negative capacities
(anti-parallel pairs and self-loops allowed, as the validation admits them),
the invariants `0 ≤ flow(e) ≤ cap(e)` (for every base edge) and flow
conservation (at every node other than the source and the sink) hold after
the initial Edmonds-Karp max flow (for any fuel bound), and are preserved by
every cycle-cancellation step of the driver loop. -/
theorem c2_invariants_after_every_mutation (G : List BaseEdge) (s t : Nat)
    (hS : SimpleDigraph G)
    (hcaps : ∀ e ∈ G, 0 ≤ e.cap) :
    (∀ fuelE, CapOK G (ekMaxFlow G s t fuelE) ∧
      Conserved G (ekMaxFlow G s t fuelE) s t) ∧
    (∀ f f2, CapOK G f → Conserved G f s t → MMStep G f f2 →
      CapOK G f2 ∧ Conserved G f2 s t) := by
  constructor
  · intro fuelE
    exact ekMaxFlow_valid G s t hS hcaps fuelE
  · intro f f2 hcap hcons hstep
    obtain ⟨h1, h2, -⟩ := mmStep_invariants G s t hS f f2 hcap hstep
    exact ⟨h1, h2 hcons⟩

theorem c2_witness :
    CapOK graph2 (ekMaxFlow graph2 0 3 20) ∧
      Conserved graph2 (ekMaxFlow graph2 0 3 20) 0 3 :=
  (c2_invariants_after_every_mutation graph2 0 3 (by decide)
    (by decide)).1 20

/-! ### C7: the Bellman-Ford reporting and reconstruction rule -/

theorem bfDetect_eq (G : List BaseEdge) (f : Flow) (t : Nat) :
    bfDetect G f t =
      (if bfHasCycle G f (bfPasses G f (graphNodes G).length
          ⟨updO (fun _ => none) t (some 0), fun _ => none, false⟩).dist then
        (false,
          bfRecon (bfPasses G f (graphNodes G).length
            ⟨updO (fun _ => none) t (some 0), fun _ => none, false⟩).pred
            ((graphNodes G).length + 1) [t] [],
          bfMinFlow G f
            (bfRecon (bfPasses G f (graphNodes G).length
              ⟨updO (fun _ => none) t (some 0), fun _ => none, false⟩).pred
              ((graphNodes G).length + 1) [t] []))
      else (true, [], some 0)) := rfl

/-- **C7** (counterexample).  On `gDead` with the flow produced by the
max-flow initializer, some residual arc is still relaxable after `|V|`
relaxation passes and `_find_negative_cycle` does report a negative cycle
(first component `false`), yet the returned cycle is the EMPTY list — the
target node has no predecessor, so the reconstruction never follows the
still-relaxable arc's endpoint and never reaches a repeated node; an empty
sequence is not the segment between two occurrences of a repeated node. -/
theorem c7_recon_empty_on_gDead :
    bfHasCycle gDead (ekMaxFlow gDead 0 2 20)
        (bfPasses gDead (ekMaxFlow gDead 0 2 20) (graphNodes gDead).length
          ⟨updO (fun _ => none) 2 (some 0), fun _ => none, false⟩).dist = true
      ∧ bfDetect gDead (ekMaxFlow gDead 0 2 20) 2 = (false, [], none) := by
  constructor
  · decide
  · decide

/-- **C7** (amended).  `_find_negative_cycle` reports a negative cycle
(first component `false`) exactly when some residual arc is still relaxable
after the `|V|` relaxation passes; the reported steps are produced by the
predecessor-following reconstruction seeded at the TARGET node (not at the
still-relaxable arc's endpoint), which stops at a repeated node or at a
node with no predecessor and may therefore return the empty list. -/
theorem c7_bf_report_rule (G : List BaseEdge) (f : Flow) (t : Nat) :
    ((bfDetect G f t).1 = false ↔
      ∃ e ∈ G, bfRelaxable f (bfPasses G f (graphNodes G).length
        ⟨updO (fun _ => none) t (some 0), fun _ => none, false⟩).dist e
          = true)
    ∧ (bfDetect G f t).2.1 =
        (if bfHasCycle G f (bfPasses G f (graphNodes G).length
            ⟨updO (fun _ => none) t (some 0), fun _ => none, false⟩).dist then
          bfRecon (bfPasses G f (graphNodes G).length
            ⟨updO (fun _ => none) t (some 0), fun _ => none, false⟩).pred
            ((graphNodes G).length + 1) [t] []
        else []) := by
  rw [bfDetect_eq]
  by_cases h : bfHasCycle G f (bfPasses G f (graphNodes G).length
      ⟨updO (fun _ => none) t (some 0), fun _ => none, false⟩).dist = true
  · rw [if_pos h, if_pos h]
    refine ⟨⟨fun _ => ?_, fun _ => rfl⟩, rfl⟩
    simpa [bfHasCycle, List.any_eq_true] using h
  · rw [if_neg h, if_neg h]
    refine ⟨⟨fun hc => Bool.noConfusion hc, fun he => ?_⟩, rfl⟩
    exact absurd (by simpa [bfHasCycle, List.any_eq_true] using he) h

/-! ### C8: cost agreement of the two engines -/

theorem bfLoop_succ (G : List BaseEdge) (t fuel : Nat) (f : Flow) :
    bfLoop G t (fuel + 1) f =
      match bfDetect G f t with
      | (true, _, _) => some f
      | (false, cyc, mf) => bfLoop G t fuel (bfAdjust f cyc mf) := rfl

theorem bfAdjust_nil (f : Flow) (mf : Option Int) :
    bfAdjust f [] mf = f := rfl

/-- **C8** (counterexample).  On the valid input `gDead` (source 0, sink 2)
the Bellman-Ford engine of `munchen.py` never terminates — the detector
keeps reporting a cycle with an empty reconstruction, `_adjust_cycle` is a
no-op on it, and the flow never changes — while the Karp engine of
`cycle_cancelling_MM.py` returns total cost 0; so the two strategies do not
return the same total cost on every valid input. -/
theorem c8_bf_diverges_on_gDead :
    bfLoopDiverges gDead 2 (ekMaxFlow gDead 0 2 20) ∧
      (mmRun gDead 0 2 20 20).map Prod.snd = some 0 := by
  constructor
  · have hdet : bfDetect gDead (ekMaxFlow gDead 0 2 20) 2
        = (false, [], none) := by decide
    intro fuel
    induction fuel with
    | zero => rfl
    | succ n ih =>
      rw [bfLoop_succ, hdet]
      dsimp only []
      rw [bfAdjust_nil]
      exact ih
  · decide

/-- **C8** (amended).  On the §8 scenario graph, where the Bellman-Ford
engine does terminate, the two strategies agree: both `munchen.py` and
`cycle_cancelling_MM.py` return total cost 14. -/
theorem c8_engines_agree_on_graph2 :
    (bfRun graph2 0 3 20 20).map Prod.snd = some 14 ∧
      (mmRun graph2 0 3 20 20).map Prod.snd = some 14 := by
  constructor
  · decide
  · decide

end Theorems

end NetFlow
